import Mathlib

/-!
# Event-to-tree builder of react-native-nitro-markdown

A shallow embedding of `cpp/core/MarkdownTypes.hpp`, `cpp/core/MD4CParser.cpp`
and `cpp/bindings/HybridMarkdownParser.cpp` (the node model, the
callback-driven tree builder and the JSON serializer), followed by the
properties established about them.

Strings are C++ `std::string`s, that is byte sequences; they are lists of bytes
here.  The tokenizer (md4c) is external: it is represented by the sequence of
callback invocations it makes.
-/

namespace NitroMarkdown

/-! ## MarkdownTypes.hpp -/

/-- One `char` of a `std::string`, as its unsigned value. -/
abbrev Byte := Fin 256

/-- A `std::string`: a finite sequence of bytes. -/
abbrev ByteString := List Byte

/-- The enumeration `NodeType`. -/
inductive NodeType where
  | Document
  | Heading
  | Paragraph
  | Text
  | Bold
  | Italic
  | Strikethrough
  | Link
  | Image
  | CodeInline
  | CodeBlock
  | Blockquote
  | HorizontalRule
  | LineBreak
  | SoftBreak
  | Table
  | TableHead
  | TableBody
  | TableRow
  | TableCell
  | List
  | ListItem
  | TaskListItem
  | MathInline
  | MathBlock
  | HtmlBlock
  | HtmlInline
  deriving DecidableEq, Repr

/-- The enumeration `TextAlign`. -/
inductive TextAlign where
  | Default
  | Left
  | Center
  | Right
  deriving DecidableEq, Repr

/-- The struct `MarkdownNode`: a kind, eleven optional attributes
(`std::optional`) and the owned children. -/
structure MarkdownNode where
  type : NodeType
  content : Option ByteString := none
  level : Option Int := none
  href : Option ByteString := none
  title : Option ByteString := none
  alt : Option ByteString := none
  language : Option ByteString := none
  ordered : Option Bool := none
  start : Option Int := none
  checked : Option Bool := none
  isHeader : Option Bool := none
  align : Option TextAlign := none
  children : List MarkdownNode

/-- The constructor `MarkdownNode(NodeType t)`: every attribute absent, no
children. -/
def MarkdownNode.new (t : NodeType) : MarkdownNode :=
  { type := t, children := [] }

/-- The method `MarkdownNode::addChild`.  Every caller passes the result of
`std::make_shared`, which is never null, so the `if (child)` test always
succeeds. -/
def MarkdownNode.addChild (node child : MarkdownNode) : MarkdownNode :=
  { node with children := node.children ++ [child] }

/-! ## The md4c callback interface -/

/-- Modelled from the spec: md4c.h is not among the sources.  The enumeration
`MD_BLOCKTYPE`, with the enumerators that `enterBlock` and `leaveBlock`
switch over. -/
inductive MD_BLOCKTYPE where
  | MD_BLOCK_DOC
  | MD_BLOCK_QUOTE
  | MD_BLOCK_UL
  | MD_BLOCK_OL
  | MD_BLOCK_LI
  | MD_BLOCK_HR
  | MD_BLOCK_H
  | MD_BLOCK_CODE
  | MD_BLOCK_HTML
  | MD_BLOCK_P
  | MD_BLOCK_TABLE
  | MD_BLOCK_THEAD
  | MD_BLOCK_TBODY
  | MD_BLOCK_TR
  | MD_BLOCK_TH
  | MD_BLOCK_TD
  deriving DecidableEq, Repr

/-- Modelled from the spec: md4c.h is not among the sources.  The enumeration
`MD_SPANTYPE`, with the enumerators that `enterSpan` and `leaveSpan` switch
over. -/
inductive MD_SPANTYPE where
  | MD_SPAN_EM
  | MD_SPAN_STRONG
  | MD_SPAN_A
  | MD_SPAN_IMG
  | MD_SPAN_CODE
  | MD_SPAN_DEL
  | MD_SPAN_LATEXMATH
  | MD_SPAN_LATEXMATH_DISPLAY
  | MD_SPAN_WIKILINK
  | MD_SPAN_U
  deriving DecidableEq, Repr

/-- Modelled from the spec: md4c.h is not among the sources.  The enumeration
`MD_TEXTTYPE`, with the enumerators that `text` switches over. -/
inductive MD_TEXTTYPE where
  | MD_TEXT_NORMAL
  | MD_TEXT_NULLCHAR
  | MD_TEXT_BR
  | MD_TEXT_SOFTBR
  | MD_TEXT_ENTITY
  | MD_TEXT_CODE
  | MD_TEXT_HTML
  | MD_TEXT_LATEXMATH
  deriving DecidableEq, Repr

/-- Modelled from the spec: md4c.h is not among the sources.  The enumeration
`MD_ALIGN`; the table-cell cases name left, center and right and send every
other value to their `default:` branch. -/
inductive MD_ALIGN where
  | MD_ALIGN_DEFAULT
  | MD_ALIGN_LEFT
  | MD_ALIGN_CENTER
  | MD_ALIGN_RIGHT
  deriving DecidableEq, Repr

/-- Modelled from the spec: md4c.h is not among the sources.  An `MD_ATTRIBUTE`
as the builder reads it: the pointer `text` together with the `size` bytes it
points to.  `none` is the null pointer, `some bs` a pointer to `bs` with
`size = bs.length`. -/
structure MD_ATTRIBUTE where
  text : Option ByteString
  deriving DecidableEq, Repr

/-- Modelled from the spec: md4c.h is not among the sources.  The detail of an
ordered list; `start` is an `unsigned` of 32 bits, given by its value. -/
structure MD_BLOCK_OL_DETAIL where
  start : Nat
  deriving DecidableEq, Repr

/-- Modelled from the spec: md4c.h is not among the sources.  The detail of a
list item: the C truth value `is_task` and the character `task_mark`. -/
structure MD_BLOCK_LI_DETAIL where
  is_task : Int
  task_mark : Byte
  deriving DecidableEq, Repr

/-- Modelled from the spec: md4c.h is not among the sources.  The detail of a
heading; `level` is an `unsigned` of 32 bits, given by its value. -/
structure MD_BLOCK_H_DETAIL where
  level : Nat
  deriving DecidableEq, Repr

/-- Modelled from the spec: md4c.h is not among the sources.  The detail of a
code block, of which the builder reads `lang`. -/
structure MD_BLOCK_CODE_DETAIL where
  lang : MD_ATTRIBUTE
  deriving DecidableEq, Repr

/-- Modelled from the spec: md4c.h is not among the sources.  The detail of a
table cell, header or body. -/
structure MD_BLOCK_TD_DETAIL where
  align : MD_ALIGN
  deriving DecidableEq, Repr

/-- Modelled from the spec: md4c.h is not among the sources.  The detail of a
link. -/
structure MD_SPAN_A_DETAIL where
  href : MD_ATTRIBUTE
  title : MD_ATTRIBUTE
  deriving DecidableEq, Repr

/-- Modelled from the spec: md4c.h is not among the sources.  The detail of an
image. -/
structure MD_SPAN_IMG_DETAIL where
  src : MD_ATTRIBUTE
  title : MD_ATTRIBUTE
  deriving DecidableEq, Repr

/-- The structure that the `void* detail` argument of a block callback is cast
to, by block type.  Block types whose detail the builder never reads carry no
data. -/
@[reducible] def MD_BLOCKTYPE.Detail : MD_BLOCKTYPE → Type
  | .MD_BLOCK_OL => MD_BLOCK_OL_DETAIL
  | .MD_BLOCK_LI => MD_BLOCK_LI_DETAIL
  | .MD_BLOCK_H => MD_BLOCK_H_DETAIL
  | .MD_BLOCK_CODE => MD_BLOCK_CODE_DETAIL
  | .MD_BLOCK_TH => MD_BLOCK_TD_DETAIL
  | .MD_BLOCK_TD => MD_BLOCK_TD_DETAIL
  | _ => Unit

/-- The structure that the `void* detail` argument of a span callback is cast
to, by span type. -/
@[reducible] def MD_SPANTYPE.Detail : MD_SPANTYPE → Type
  | .MD_SPAN_A => MD_SPAN_A_DETAIL
  | .MD_SPAN_IMG => MD_SPAN_IMG_DETAIL
  | _ => Unit

/-- One callback invocation made by `md_parse`: the five members of
`MD_PARSER` that `MD4CParser::parse` fills in.  For `text`, the pointer and
the size are given together: `none` is a null pointer, `some bs` a pointer to
`bs` with `size = bs.length`. -/
inductive Event where
  | enterBlock (type : MD_BLOCKTYPE) (detail : type.Detail)
  | leaveBlock (type : MD_BLOCKTYPE) (detail : type.Detail)
  | enterSpan (type : MD_SPANTYPE) (detail : type.Detail)
  | leaveSpan (type : MD_SPANTYPE) (detail : type.Detail)
  | text (type : MD_TEXTTYPE) (text : Option ByteString)

/-! ## MD4CParser.cpp : class `MD4CParser::Impl` -/

/-- The state of `MD4CParser::Impl`.

`nodeStack` lists the nodes of the C++ stack, top first.  The C++ stack holds
shared pointers into the tree under `root`: `reset` pushes `root` itself, and
`pushNode` first adds a node to the children of the top and then pushes it, and
only the top of the stack is ever written to.  So each entry is the last child
of the entry below it and the bottom entry is `root`.  The list keeps each open
node once: an entry holds the children that were added to it, except the open
child that lies above it on the stack.  `Impl.root` puts the open children
back.  The empty list is the state of a newly constructed `Impl`, whose stack
is empty and whose `root` is null.

`currentText` is the pending text buffer.  The member `inputText` is written
by `parse` and never read; it is left out. -/
structure Impl where
  nodeStack : List MarkdownNode := []
  currentText : ByteString := []

/-- The node at the bottom of `stack` after each open node has been added to
the children of the node below it. -/
def attachOpen : MarkdownNode → List MarkdownNode → MarkdownNode
  | node, [] => node
  | node, parent :: rest => attachOpen (parent.addChild node) rest

/-- The member `root`: the bottom of the stack with all open descendants in
place, or `none` for the null pointer of a newly constructed `Impl`. -/
def Impl.root (impl : Impl) : Option MarkdownNode :=
  match impl.nodeStack with
  | [] => none
  | top :: rest => some (attachOpen top rest)

/-- The method `Impl::reset`. -/
def Impl.reset (_impl : Impl) : Impl :=
  { nodeStack := [MarkdownNode.new .Document], currentText := [] }

/-- The method `Impl::flushText`. -/
def Impl.flushText (impl : Impl) : Impl :=
  match impl.currentText, impl.nodeStack with
  | _ :: _, top :: rest =>
      { nodeStack :=
          top.addChild { MarkdownNode.new .Text with content := some impl.currentText } :: rest,
        currentText := [] }
  | _, _ => impl

/-- The method `Impl::pushNode`, for a non-null `node`.  On a non-empty stack
the node becomes the last child of the former top and the new top; the list
records it as the new top. -/
def Impl.pushNode (impl : Impl) (node : MarkdownNode) : Impl :=
  let flushed := impl.flushText
  { flushed with nodeStack := node :: flushed.nodeStack }

/-- The method `Impl::popNode`: the top is popped when the stack holds more
than one node, and is then a finished last child of the new top. -/
def Impl.popNode (impl : Impl) : Impl :=
  let flushed := impl.flushText
  match flushed.nodeStack with
  | node :: parent :: rest => { flushed with nodeStack := parent.addChild node :: rest }
  | _ => flushed

/-- The statement `impl->nodeStack.top()->addChild(child)`.  On an empty stack
`top()` is undefined: the result is `none`. -/
def Impl.topAddChild (impl : Impl) (child : MarkdownNode) : Option Impl :=
  match impl.nodeStack with
  | top :: rest => some { impl with nodeStack := top.addChild child :: rest }
  | [] => none

/-- The test `a.text && a.size > 0` followed by `std::string(a.text, a.size)`:
the value assigned to an optional attribute, or `none` when the test fails and
the attribute stays absent. -/
def MD_ATTRIBUTE.toOptional (a : MD_ATTRIBUTE) : Option ByteString :=
  match a.text with
  | some bytes => if bytes.length > 0 then some bytes else none
  | none => none

/-- The conversion of an `unsigned` to the `int` of a node attribute, as in
`node->start = d->start`, both of 32 bits: a value below 2^31 is kept, a
value from 2^31 on wraps to the negative number of the same bit pattern. -/
def intOfUnsigned (value : Nat) : Int :=
  if value % 4294967296 < 2147483648 then Int.ofNat (value % 4294967296)
  else Int.ofNat (value % 4294967296) - 4294967296

/-- The switch on `d->align` in the `MD_BLOCK_TH` and `MD_BLOCK_TD` cases. -/
def alignOf : MD_ALIGN → TextAlign
  | .MD_ALIGN_LEFT => .Left
  | .MD_ALIGN_CENTER => .Center
  | .MD_ALIGN_RIGHT => .Right
  | _ => .Default

/-- The callback `Impl::enterBlock`.  `none` stands for the undefined
`top()` of an empty stack in the `MD_BLOCK_HR` case. -/
def Impl.enterBlock (type : MD_BLOCKTYPE) (detail : type.Detail) (impl : Impl) : Option Impl :=
  match type, detail with
  | .MD_BLOCK_DOC, _ => some impl
  | .MD_BLOCK_QUOTE, _ => some (impl.pushNode (MarkdownNode.new .Blockquote))
  | .MD_BLOCK_UL, _ => some (impl.pushNode { MarkdownNode.new .List with ordered := some false })
  | .MD_BLOCK_OL, d =>
      some (impl.pushNode
        { MarkdownNode.new .List with
          ordered := some true, start := some (intOfUnsigned d.start) })
  | .MD_BLOCK_LI, d =>
      if d.is_task ≠ 0 then
        some (impl.pushNode
          { MarkdownNode.new .TaskListItem with
            checked := some (decide (d.task_mark = 120 ∨ d.task_mark = 88)) })
      else
        some (impl.pushNode (MarkdownNode.new .ListItem))
  | .MD_BLOCK_HR, _ => impl.flushText.topAddChild (MarkdownNode.new .HorizontalRule)
  | .MD_BLOCK_H, d =>
      some (impl.pushNode
        { MarkdownNode.new .Heading with level := some (intOfUnsigned d.level) })
  | .MD_BLOCK_CODE, d =>
      some (impl.pushNode { MarkdownNode.new .CodeBlock with language := d.lang.toOptional })
  | .MD_BLOCK_HTML, _ => some (impl.pushNode (MarkdownNode.new .HtmlBlock))
  | .MD_BLOCK_P, _ => some (impl.pushNode (MarkdownNode.new .Paragraph))
  | .MD_BLOCK_TABLE, _ => some (impl.pushNode (MarkdownNode.new .Table))
  | .MD_BLOCK_THEAD, _ => some (impl.pushNode (MarkdownNode.new .TableHead))
  | .MD_BLOCK_TBODY, _ => some (impl.pushNode (MarkdownNode.new .TableBody))
  | .MD_BLOCK_TR, _ => some (impl.pushNode (MarkdownNode.new .TableRow))
  | .MD_BLOCK_TH, d =>
      some (impl.pushNode
        { MarkdownNode.new .TableCell with
          isHeader := some true, align := some (alignOf d.align) })
  | .MD_BLOCK_TD, d =>
      some (impl.pushNode
        { MarkdownNode.new .TableCell with
          isHeader := some false, align := some (alignOf d.align) })

/-- The callback `Impl::leaveBlock`; the detail is not read. -/
def Impl.leaveBlock (type : MD_BLOCKTYPE) (_detail : type.Detail) (impl : Impl) : Impl :=
  match type with
  | .MD_BLOCK_DOC => impl
  | .MD_BLOCK_HR => impl
  | _ => impl.popNode

/-- The callback `Impl::enterSpan`. -/
def Impl.enterSpan (type : MD_SPANTYPE) (detail : type.Detail) (impl : Impl) : Impl :=
  match type, detail with
  | .MD_SPAN_EM, _ => impl.pushNode (MarkdownNode.new .Italic)
  | .MD_SPAN_STRONG, _ => impl.pushNode (MarkdownNode.new .Bold)
  | .MD_SPAN_DEL, _ => impl.pushNode (MarkdownNode.new .Strikethrough)
  | .MD_SPAN_A, d =>
      impl.pushNode
        { MarkdownNode.new .Link with href := d.href.toOptional, title := d.title.toOptional }
  | .MD_SPAN_IMG, d =>
      impl.pushNode
        { MarkdownNode.new .Image with href := d.src.toOptional, title := d.title.toOptional }
  | .MD_SPAN_CODE, _ => impl.pushNode (MarkdownNode.new .CodeInline)
  | .MD_SPAN_LATEXMATH, _ => impl.pushNode (MarkdownNode.new .MathInline)
  | .MD_SPAN_LATEXMATH_DISPLAY, _ => impl.pushNode (MarkdownNode.new .MathBlock)
  | .MD_SPAN_U, _ => impl.pushNode (MarkdownNode.new .Italic)
  | .MD_SPAN_WIKILINK, _ => impl.pushNode (MarkdownNode.new .Link)

/-- The first statement of `Impl::leaveSpan`: on a non-empty stack, a
`MD_SPAN_CODE` stores the buffer in `content` of the top and a `MD_SPAN_IMG`
stores it in `alt` of the top, and the buffer is cleared. -/
def Impl.assignSpanText (type : MD_SPANTYPE) (impl : Impl) : Impl :=
  match impl.nodeStack with
  | currentNode :: rest =>
      match type with
      | .MD_SPAN_CODE =>
          { nodeStack := { currentNode with content := some impl.currentText } :: rest,
            currentText := [] }
      | .MD_SPAN_IMG =>
          { nodeStack := { currentNode with alt := some impl.currentText } :: rest,
            currentText := [] }
      | _ => impl
  | [] => impl

/-- The callback `Impl::leaveSpan`; the detail is not read. -/
def Impl.leaveSpan (type : MD_SPANTYPE) (_detail : type.Detail) (impl : Impl) : Impl :=
  (impl.assignSpanText type).popNode

/-- The callback `Impl::text`, called with the pointer `text` and
`size = bytes.length`.  `none` as result stands for the undefined `top()` of
an empty stack. -/
def Impl.text (type : MD_TEXTTYPE) (text : Option ByteString) (impl : Impl) : Option Impl :=
  match text with
  | none => some impl
  | some bytes =>
      if bytes.length = 0 then some impl
      else
        match type with
        | .MD_TEXT_NULLCHAR => some { impl with currentText := impl.currentText ++ [0] }
        | .MD_TEXT_BR => impl.flushText.topAddChild (MarkdownNode.new .LineBreak)
        | .MD_TEXT_SOFTBR => impl.flushText.topAddChild (MarkdownNode.new .SoftBreak)
        | .MD_TEXT_HTML =>
            impl.flushText.topAddChild { MarkdownNode.new .HtmlInline with content := some bytes }
        | .MD_TEXT_ENTITY => some { impl with currentText := impl.currentText ++ bytes }
        | _ => some { impl with currentText := impl.currentText ++ bytes }

/-- The dispatch of one callback invocation. -/
def Impl.handle (impl : Impl) : Event → Option Impl
  | .enterBlock type detail => impl.enterBlock type detail
  | .leaveBlock type detail => some (impl.leaveBlock type detail)
  | .enterSpan type detail => some (impl.enterSpan type detail)
  | .leaveSpan type detail => some (impl.leaveSpan type detail)
  | .text type text => impl.text type text

/-- Modelled from the spec: the tokenizer `md_parse` is external.  It is
represented by the sequence of callback invocations it makes, which are run in
order on the state passed as `userdata`; every callback returns 0, so none
stops the run. -/
def md_parse : List Event → Impl → Option Impl
  | [], impl => some impl
  | event :: events, impl =>
      match impl.handle event with
      | some next => md_parse events next
      | none => none

/-- The method `MD4CParser::parse` on the instance state `impl`, with the
output of the tokenizer for the given text and options given as `events`.  The
result is the returned `root` and the state the instance is left in; `none`
when a callback met an undefined `top()` or when `root` is null. -/
def MD4CParser.parse (impl : Impl) (events : List Event) : Option (MarkdownNode × Impl) :=
  match md_parse events impl.reset with
  | some done =>
      match done.flushText.root with
      | some root => some (root, done.flushText)
      | none => none
  | none => none

/-! ## MarkdownTypes.hpp : the string functions -/

/-- The bytes of a string literal of the source; the literals hold ASCII
characters only. -/
def ascii (s : String) : ByteString :=
  s.toList.map fun c => Fin.ofNat c.toNat

/-- The function `nodeTypeToString`.  The switch covers every enumerator, so
the `return "unknown"` after it is not reached. -/
def nodeTypeToString : NodeType → ByteString
  | .Document => ascii "document"
  | .Heading => ascii "heading"
  | .Paragraph => ascii "paragraph"
  | .Text => ascii "text"
  | .Bold => ascii "bold"
  | .Italic => ascii "italic"
  | .Strikethrough => ascii "strikethrough"
  | .Link => ascii "link"
  | .Image => ascii "image"
  | .CodeInline => ascii "code_inline"
  | .CodeBlock => ascii "code_block"
  | .Blockquote => ascii "blockquote"
  | .HorizontalRule => ascii "horizontal_rule"
  | .LineBreak => ascii "line_break"
  | .SoftBreak => ascii "soft_break"
  | .Table => ascii "table"
  | .TableHead => ascii "table_head"
  | .TableBody => ascii "table_body"
  | .TableRow => ascii "table_row"
  | .TableCell => ascii "table_cell"
  | .List => ascii "list"
  | .ListItem => ascii "list_item"
  | .TaskListItem => ascii "task_list_item"
  | .MathInline => ascii "math_inline"
  | .MathBlock => ascii "math_block"
  | .HtmlBlock => ascii "html_block"
  | .HtmlInline => ascii "html_inline"

/-- The function `textAlignToString`. -/
def textAlignToString : TextAlign → ByteString
  | .Left => ascii "left"
  | .Center => ascii "center"
  | .Right => ascii "right"
  | _ => ascii ""

/-! ## HybridMarkdownParser.cpp : the serializer -/

/-- The output of `o << std::hex << std::setw(4) << std::setfill(0x30) << n`
(the fill character is the digit zero) for a non-negative `int`: the
lowercase hexadecimal digits of `n`, padded on the left with `0` to four
characters. -/
def hexWidth4 (n : Nat) : ByteString :=
  let digits := ascii (String.mk (Nat.toDigits 16 n))
  List.replicate (4 - digits.length) 48 ++ digits

/-- The body of the loop of `escapeJson`: what one `char` appends to the
stream.  The test that `c` lies between the characters 0x00 and 0x1f holds
for the bytes 0 to 31, whether `char` is signed or not. -/
def escapeJsonChar (c : Byte) : ByteString :=
  if c = 34 then ascii "\\\""
  else if c = 92 then ascii "\\\\"
  else if c = 8 then ascii "\\b"
  else if c = 12 then ascii "\\f"
  else if c = 10 then ascii "\\n"
  else if c = 13 then ascii "\\r"
  else if c = 9 then ascii "\\t"
  else if c.val ≤ 31 then ascii "\\u" ++ hexWidth4 c.val
  else [c]

/-- The function `escapeJson`. -/
def escapeJson : ByteString → ByteString
  | [] => []
  | c :: rest => escapeJsonChar c ++ escapeJson rest

/-- The output of `json << n` for an `int`, in decimal. -/
def intToJson (n : Int) : ByteString :=
  ascii (toString n)

/-- The output of `json << (b ? "true" : "false")`. -/
def boolToJson (b : Bool) : ByteString :=
  if b then ascii "true" else ascii "false"

/-- An optional string attribute: `if (has_value) json << label <<
escapeJson(value) << "\""`. -/
def stringField (label : ByteString) (value : Option ByteString) : ByteString :=
  match value with
  | some v => label ++ escapeJson v ++ ascii "\""
  | none => []

/-- An optional `int` attribute: `if (has_value) json << label << value`. -/
def intField (label : ByteString) (value : Option Int) : ByteString :=
  match value with
  | some v => label ++ intToJson v
  | none => []

/-- An optional `bool` attribute: `if (has_value) json << label <<
(value ? "true" : "false")`. -/
def boolField (label : ByteString) (value : Option Bool) : ByteString :=
  match value with
  | some v => label ++ boolToJson v
  | none => []

/-- The `align` attribute: emitted when present and `textAlignToString` does
not give the empty string. -/
def alignField (value : Option TextAlign) : ByteString :=
  match value with
  | some a =>
      if (textAlignToString a).isEmpty then []
      else ascii ",\"align\":\"" ++ textAlignToString a ++ ascii "\""
  | none => []

mutual
/-- The method `HybridMarkdownParser::nodeToJson`, for a non-null node. -/
def nodeToJson : MarkdownNode → ByteString
  | ⟨type, content, level, href, title, alt, language, ordered, start, checked, isHeader,
      align, children⟩ =>
      ascii "\x7b" ++
      (ascii "\"type\":\"" ++ nodeTypeToString type ++ ascii "\"") ++
      stringField (ascii ",\"content\":\"") content ++
      intField (ascii ",\"level\":") level ++
      stringField (ascii ",\"href\":\"") href ++
      stringField (ascii ",\"title\":\"") title ++
      stringField (ascii ",\"alt\":\"") alt ++
      stringField (ascii ",\"language\":\"") language ++
      boolField (ascii ",\"ordered\":") ordered ++
      intField (ascii ",\"start\":") start ++
      boolField (ascii ",\"checked\":") checked ++
      boolField (ascii ",\"isHeader\":") isHeader ++
      alignField align ++
      (if children.isEmpty then []
        else ascii ",\"children\":[" ++ childrenToJson 0 children ++ ascii "]") ++
      ascii "\x7d"

/-- The loop over `node->children` of `nodeToJson`, from index `i` on. -/
def childrenToJson : Nat → List MarkdownNode → ByteString
  | _, [] => []
  | i, child :: rest =>
      (if i > 0 then ascii "," else []) ++ nodeToJson child ++ childrenToJson (i + 1) rest
end

/-! ## The entry points: `MD4CParser::parse` on a text, `HybridMarkdownParser` -/

/-- The struct `ParserOptions` of MarkdownTypes.hpp. -/
structure ParserOptions where
  gfm : Bool := true
  math : Bool := true
  deriving DecidableEq, Repr

/-- Modelled from the spec: md4c.h and the tokenizer are not among the
sources.  The flag constants that `MD4CParser::parse` combines, and the
tokenizer as a fixed function of the text and the flags: `tokens text flags`
is the sequence of callbacks that `md_parse` makes. -/
structure Md4c where
  MD_FLAG_NOHTML : Nat
  MD_FLAG_TABLES : Nat
  MD_FLAG_STRIKETHROUGH : Nat
  MD_FLAG_TASKLISTS : Nat
  MD_FLAG_PERMISSIVEAUTOLINKS : Nat
  MD_FLAG_LATEXMATHSPANS : Nat
  tokens : ByteString → Nat → List Event

/-- The flags that `MD4CParser::parse` computes from the options. -/
def MD4CParser.flags (md : Md4c) (options : ParserOptions) : Nat :=
  let flags := md.MD_FLAG_NOHTML
  let flags :=
    if options.gfm then
      flags ||| md.MD_FLAG_TABLES ||| md.MD_FLAG_STRIKETHROUGH ||| md.MD_FLAG_TASKLISTS |||
        md.MD_FLAG_PERMISSIVEAUTOLINKS
    else flags
  if options.math then flags ||| md.MD_FLAG_LATEXMATHSPANS else flags

/-- The method `MD4CParser::parse(markdown, options)`: `MD4CParser.parse` on
the callbacks that the tokenizer makes for the text and the computed flags. -/
def MD4CParser.parseText (md : Md4c) (impl : Impl) (markdown : ByteString)
    (options : ParserOptions) : Option (MarkdownNode × Impl) :=
  MD4CParser.parse impl (md.tokens markdown (MD4CParser.flags md options))

/-- Modelled from the spec: the generated header HybridMarkdownParserSpec.hpp
is not among the sources.  The options record of the binding, in which each
of the two toggles may be omitted. -/
structure HybridParserOptions where
  gfm : Option Bool
  math : Option Bool
  deriving DecidableEq, Repr

/-- The method `HybridMarkdownParser::parse`, on the state of the member
`parser_`: the JSON text and the state `parser_` is left in. -/
def HybridMarkdownParser.parse (md : Md4c) (parser_ : Impl) (text : ByteString) :
    Option (ByteString × Impl) :=
  let opts : ParserOptions := { gfm := true, math := true }
  match MD4CParser.parseText md parser_ text opts with
  | some (ast, left) => some (nodeToJson ast, left)
  | none => none

/-- The method `HybridMarkdownParser::parseWithOptions`. -/
def HybridMarkdownParser.parseWithOptions (md : Md4c) (parser_ : Impl) (text : ByteString)
    (options : HybridParserOptions) : Option (ByteString × Impl) :=
  let internalOpts : ParserOptions :=
    { gfm := options.gfm.getD true, math := options.math.getD true }
  match MD4CParser.parseText md parser_ text internalOpts with
  | some (ast, left) => some (nodeToJson ast, left)
  | none => none

/-! ## Auxiliary definitions -/

/-- The kind of the bottom entry of a stack, if any. -/
def bottomKind : List MarkdownNode → Option NodeType
  | [] => none
  | [node] => some node.type
  | _ :: parent :: rest => bottomKind (parent :: rest)

/-- The categories of text callback whose bytes go to the pending buffer: all
but hard break, soft break and raw inline markup. -/
def isAppending : MD_TEXTTYPE → Bool
  | .MD_TEXT_BR => false
  | .MD_TEXT_SOFTBR => false
  | .MD_TEXT_HTML => false
  | _ => true

/-- A text callback that appends exactly the bytes it is called with: an
appending category, where a null-character callback carries the one zero byte
(md4c calls it with size 1) or nothing. -/
def appendsOwnBytes (type : MD_TEXTTYPE) (text : Option ByteString) : Bool :=
  isAppending type &&
    (type != .MD_TEXT_NULLCHAR || text.getD [] == [0] || text.getD [] == [])

/-- The bytes of a list of text callbacks, in order; a null pointer carries
none. -/
def bytesOf (texts : List (MD_TEXTTYPE × Option ByteString)) : ByteString :=
  (texts.map fun t => t.2.getD []).flatten

/-- The text callbacks as events. -/
def textEvents (texts : List (MD_TEXTTYPE × Option ByteString)) : List Event :=
  texts.map fun t => Event.text t.1 t.2

mutual
/-- The nodes of a tree in depth-first pre-order: the node itself, then the
nodes of its children from first to last. -/
def MarkdownNode.nodes : MarkdownNode → List MarkdownNode
  | ⟨type, content, level, href, title, alt, language, ordered, start, checked, isHeader,
      align, children⟩ =>
      ⟨type, content, level, href, title, alt, language, ordered, start, checked, isHeader,
        align, children⟩ :: nodesOfList children

/-- The nodes of a sequence of trees, tree after tree. -/
def nodesOfList : List MarkdownNode → List MarkdownNode
  | [] => []
  | node :: rest => node.nodes ++ nodesOfList rest
end

/-- The span types whose leave callback stores the buffer in an attribute:
`MD_SPAN_CODE` and `MD_SPAN_IMG`. -/
def isLeafSpan : MD_SPANTYPE → Bool
  | .MD_SPAN_CODE => true
  | .MD_SPAN_IMG => true
  | _ => false

/-- An event sequence in which every enterSpan of code_inline or image is
followed by text callbacks of buffer-appending categories only and then by a
leaveSpan of code_inline or image.  The flag tells whether such a span is
open at the start of the sequence. -/
def leafSpansClosed : Bool → List Event → Bool
  | inLeaf, [] => !inLeaf
  | true, .text type _ :: rest => isAppending type && leafSpansClosed true rest
  | true, .leaveSpan type _ :: rest => isLeafSpan type && leafSpansClosed false rest
  | true, _ :: _ => false
  | false, .enterSpan type _ :: rest => leafSpansClosed (isLeafSpan type) rest
  | false, _ :: rest => leafSpansClosed false rest

/-- Every code_inline node and every image node of the tree has no children. -/
def LeafSpansChildless (tree : MarkdownNode) : Prop :=
  ∀ n ∈ tree.nodes, n.type = .CodeInline ∨ n.type = .Image → n.children = []

/-- An open node that is neither code_inline nor image and whose finished
children all satisfy `LeafSpansChildless`. -/
def OpenNodeOk (node : MarkdownNode) : Prop :=
  node.type ≠ .CodeInline ∧ node.type ≠ .Image ∧
    ∀ c ∈ node.children, LeafSpansChildless c

/-- A state outside code_inline and image spans: the stack is non-empty and
each entry satisfies `OpenNodeOk`. -/
def OpenOk (impl : Impl) : Prop :=
  impl.nodeStack ≠ [] ∧ ∀ node ∈ impl.nodeStack, OpenNodeOk node

/-- A state inside a code_inline or image span: the top has no children and
the entries below, of which there is at least one, satisfy `OpenNodeOk`. -/
def InLeafOk (impl : Impl) : Prop :=
  ∃ top rest, impl.nodeStack = top :: rest ∧ top.children = [] ∧ rest ≠ [] ∧
    ∀ node ∈ rest, OpenNodeOk node

/-- The callbacks that push a node: every enterSpan, and every enterBlock
except those of the document and of a horizontal rule. -/
def Event.opens : Event → Bool
  | .enterBlock .MD_BLOCK_DOC _ => false
  | .enterBlock .MD_BLOCK_HR _ => false
  | .enterBlock _ _ => true
  | .enterSpan _ _ => true
  | _ => false

/-- The callbacks that call `popNode`: every leaveSpan, and every leaveBlock
except those of the document and of a horizontal rule. -/
def Event.closes : Event → Bool
  | .leaveBlock .MD_BLOCK_DOC _ => false
  | .leaveBlock .MD_BLOCK_HR _ => false
  | .leaveBlock _ _ => true
  | .leaveSpan _ _ => true
  | _ => false

/-- An event sequence that closes the `depth` nodes open at its start and
every node it opens, and closes nothing else. -/
def wellNested : Nat → List Event → Bool
  | depth, [] => depth == 0
  | depth, event :: rest =>
      if event.opens then wellNested (depth + 1) rest
      else if event.closes then
        match depth with
        | 0 => false
        | d + 1 => wellNested d rest
      else wellNested depth rest

/-- The state `impl` with the entries `below` put under its stack. -/
def Impl.onto (impl : Impl) (below : List MarkdownNode) : Impl :=
  { nodeStack := impl.nodeStack ++ below, currentText := impl.currentText }

/-- A complete list-item group: enterBlock(list item), a body, leaveBlock(list
item). -/
def listItemGroup (d : MD_BLOCK_LI_DETAIL) (body : List Event) : List Event :=
  Event.enterBlock .MD_BLOCK_LI d :: body ++ [Event.leaveBlock .MD_BLOCK_LI d]

/-- Complete list-item groups one after the other. -/
def listItemGroups (groups : List (MD_BLOCK_LI_DETAIL × List Event)) : List Event :=
  (groups.map fun g => listItemGroup g.1 g.2).flatten

/-- An example of list-item groups: a plain item holding text and inline code,
then an unchecked task item holding text. -/
def witnessGroups : List (MD_BLOCK_LI_DETAIL × List Event) :=
  [(⟨0, 0⟩, [.text .MD_TEXT_NORMAL (some [97]), .enterSpan .MD_SPAN_CODE (),
      .text .MD_TEXT_CODE (some [98]), .leaveSpan .MD_SPAN_CODE ()]),
    (⟨1, 32⟩, [.text .MD_TEXT_NORMAL (some [99])])]

/-- The property `P` holds of every node of the tree. -/
def AllNodes (P : MarkdownNode → Prop) (tree : MarkdownNode) : Prop :=
  ∀ n ∈ tree.nodes, P n

/-- A state whose stack is non-empty and in which `P` holds of every node
under every stack entry. -/
def StackAll (P : MarkdownNode → Prop) (impl : Impl) : Prop :=
  impl.nodeStack ≠ [] ∧ ∀ node ∈ impl.nodeStack, AllNodes P node

/-- A property of the kind and attributes of a node that every write of the
builder keeps: adding a child, storing `content` or `alt`, and that holds of
the text nodes and raw-markup nodes it creates and of every node without
content whose kind is none of text, html_inline, line_break, soft_break. -/
structure Maintained (P : MarkdownNode → Prop) : Prop where
  addChild : ∀ n c : MarkdownNode, P n → P (n.addChild c)
  content : ∀ (n : MarkdownNode) (b : ByteString), P n → P { n with content := some b }
  alt : ∀ (n : MarkdownNode) (b : ByteString), P n → P { n with alt := some b }
  text : ∀ b : ByteString, P { MarkdownNode.new .Text with content := some b }
  html : ∀ b : ByteString, P { MarkdownNode.new .HtmlInline with content := some b }
  container : ∀ n : MarkdownNode, n.content = none → n.type ≠ .Text →
    n.type ≠ .HtmlInline → n.type ≠ .LineBreak → n.type ≠ .SoftBreak → P n

/-- The text callbacks of hard-break and soft-break category. -/
def Event.isBreak : Event → Bool
  | .text .MD_TEXT_BR _ => true
  | .text .MD_TEXT_SOFTBR _ => true
  | _ => false

/-- An event sequence in which no callback that calls `popNode` arrives while
only the root is on the stack; `depth` is the number of stack entries above
the root at the start.  A truncated sequence qualifies. -/
def noStrayClose : Nat → List Event → Bool
  | _, [] => true
  | depth, event :: rest =>
      if event.opens then noStrayClose (depth + 1) rest
      else if event.closes then
        match depth with
        | 0 => false
        | d + 1 => noStrayClose d rest
      else noStrayClose depth rest

/-- No two adjacent nodes of the sequence are both text nodes. -/
def TextsApart (children : List MarkdownNode) : Prop :=
  List.Chain' (fun a b : MarkdownNode => ¬(a.type = .Text ∧ b.type = .Text)) children

/-- No node of the tree has two adjacent children that are both text nodes. -/
def TreeTextsApart (tree : MarkdownNode) : Prop :=
  ∀ n ∈ tree.nodes, TextsApart n.children

/-- An open node that is not a text node, whose children so far hold no two
adjacent text nodes and are trees without two adjacent text children. -/
def FrameApart (node : MarkdownNode) : Prop :=
  node.type ≠ .Text ∧ TextsApart node.children ∧ ∀ c ∈ node.children, TreeTextsApart c

/-- The last child of the node, if any, is not a text node. -/
def EndsOpen (node : MarkdownNode) : Prop :=
  ∀ x ∈ node.children.getLast?, x.type ≠ .Text

/-- A state between callbacks: every stack entry satisfies `FrameApart` and
the last child of the top is not a text node. -/
def ApartOk (impl : Impl) : Prop :=
  ∃ top rest, impl.nodeStack = top :: rest ∧ FrameApart top ∧ EndsOpen top ∧
    ∀ node ∈ rest, FrameApart node

/-- A JSON string literal: the escaped bytes between double quotes. -/
def quoted (v : ByteString) : ByteString :=
  ascii "\"" ++ escapeJson v ++ ascii "\""

/-- The lowercase name under which an alignment is serialized; the default
state has none. -/
def alignName : TextAlign → Option String
  | .Left => some "left"
  | .Center => some "center"
  | .Right => some "right"
  | .Default => none

/-- The members that `nodeToJson` emits after `type` for a node, as pairs of
key and value text, in emission order: one pair for each attribute that is
present (for `align`: present and not the default state), and one for the
children when there are any. -/
def jsonFields (n : MarkdownNode) : List (String × ByteString) :=
  (n.content.map fun v => ("content", quoted v)).toList ++
  (n.level.map fun v => ("level", intToJson v)).toList ++
  (n.href.map fun v => ("href", quoted v)).toList ++
  (n.title.map fun v => ("title", quoted v)).toList ++
  (n.alt.map fun v => ("alt", quoted v)).toList ++
  (n.language.map fun v => ("language", quoted v)).toList ++
  (n.ordered.map fun v => ("ordered", boolToJson v)).toList ++
  (n.start.map fun v => ("start", intToJson v)).toList ++
  (n.checked.map fun v => ("checked", boolToJson v)).toList ++
  (n.isHeader.map fun v => ("isHeader", boolToJson v)).toList ++
  ((n.align.bind alignName).map fun name =>
    ("align", ascii "\"" ++ ascii name ++ ascii "\"")).toList ++
  (if n.children.isEmpty then []
    else [("children",
      ascii "[" ++ (ascii ",").intercalate (n.children.map nodeToJson) ++ ascii "]")])

/-- The text of one member after `type`: a comma, the key between double
quotes, a colon and the value. -/
def renderField (member : String × ByteString) : ByteString :=
  ascii ",\"" ++ ascii member.1 ++ ascii "\":" ++ member.2

/-- The keys after `type`, in the order that the serializer is specified to
emit them. -/
def keyOrder : List String :=
  ["content", "level", "href", "title", "alt", "language", "ordered", "start", "checked",
    "isHeader", "align", "children"]

/-- Following the spec (4.3, lowercase hex digits): the character of one
hexadecimal digit, `0` to `9` and `a` to `f`. -/
def hexLowerSpec (d : Nat) : Byte :=
  if d < 10 then Fin.ofNat (48 + d) else Fin.ofNat (97 + (d - 10))

/-- Following the spec (4.3, string escaping): the escape of one byte.
Double quote and backslash get a backslash before them; backspace, form feed,
newline, carriage return and tab get their short escapes; any other byte
below 0x20 becomes backslash, `u`, `0`, `0` and its two lowercase hex digits;
every other byte passes through. -/
def escapeByteSpec (c : Byte) : ByteString :=
  if c.val = 0x22 then [0x5C, 0x22]
  else if c.val = 0x5C then [0x5C, 0x5C]
  else if c.val = 0x08 then [0x5C, 0x62]
  else if c.val = 0x0C then [0x5C, 0x66]
  else if c.val = 0x0A then [0x5C, 0x6E]
  else if c.val = 0x0D then [0x5C, 0x72]
  else if c.val = 0x09 then [0x5C, 0x74]
  else if c.val < 0x20 then
    [0x5C, 0x75, 0x30, 0x30, hexLowerSpec (c.val / 16), hexLowerSpec (c.val % 16)]
  else [c]

/-- The 27 enumerators of `NodeType`, in declaration order. -/
def allNodeTypes : List NodeType :=
  [.Document, .Heading, .Paragraph, .Text, .Bold, .Italic, .Strikethrough, .Link, .Image,
    .CodeInline, .CodeBlock, .Blockquote, .HorizontalRule, .LineBreak, .SoftBreak, .Table,
    .TableHead, .TableBody, .TableRow, .TableCell, .List, .ListItem, .TaskListItem,
    .MathInline, .MathBlock, .HtmlBlock, .HtmlInline]

/-- Following the JSON grammar (RFC 8259): the value of a hexadecimal digit,
in either case. -/
def hexDigitValue (c : Byte) : Option Nat :=
  if 0x30 ≤ c.val ∧ c.val ≤ 0x39 then some (c.val - 0x30)
  else if 0x61 ≤ c.val ∧ c.val ≤ 0x66 then some (c.val - 0x61 + 10)
  else if 0x41 ≤ c.val ∧ c.val ≤ 0x46 then some (c.val - 0x41 + 10)
  else none

/-- The UTF-8 encoding of a code point of the basic plane; a surrogate,
which stands for no character on its own, has none. -/
def utf8Encode (cp : Nat) : Option ByteString :=
  if cp < 0x80 then some [Fin.ofNat cp]
  else if cp < 0x800 then some [Fin.ofNat (0xC0 + cp / 64), Fin.ofNat (0x80 + cp % 64)]
  else if 0xD800 ≤ cp ∧ cp < 0xE000 then none
  else some [Fin.ofNat (0xE0 + cp / 4096), Fin.ofNat (0x80 + cp / 64 % 64),
    Fin.ofNat (0x80 + cp % 64)]

/-- Following the JSON grammar (RFC 8259): the character that a two-character
escape stands for, by the character after the backslash. -/
def simpleEscape (e : Byte) : Option Byte :=
  if e.val = 0x22 then some 0x22
  else if e.val = 0x5C then some 0x5C
  else if e.val = 0x2F then some 0x2F
  else if e.val = 0x62 then some 0x08
  else if e.val = 0x66 then some 0x0C
  else if e.val = 0x6E then some 0x0A
  else if e.val = 0x72 then some 0x0D
  else if e.val = 0x74 then some 0x09
  else none

/-- Following the JSON grammar (RFC 8259): the decoding of the characters
between the quotes of a string.  A raw double quote, a raw control character,
an unknown escape or a cut-off escape makes it fail; a u-escape gives the
UTF-8 bytes of its code point; every other byte stands for itself. -/
def jsonUnescape : ByteString → Option ByteString
  | [] => some []
  | c :: rest =>
      if c.val = 0x5C then
        match rest with
        | [] => none
        | e :: rest2 =>
            if e.val = 0x75 then
              match rest2 with
              | h1 :: h2 :: h3 :: h4 :: rest3 =>
                  match hexDigitValue h1, hexDigitValue h2, hexDigitValue h3,
                    hexDigitValue h4 with
                  | some d1, some d2, some d3, some d4 =>
                      match utf8Encode (((d1 * 16 + d2) * 16 + d3) * 16 + d4),
                        jsonUnescape rest3 with
                      | some bytes, some tail => some (bytes ++ tail)
                      | _, _ => none
                  | _, _, _, _ => none
              | _ => none
            else
              match simpleEscape e, jsonUnescape rest2 with
              | some b, some tail => some (b :: tail)
              | _, _ => none
      else if c.val = 0x22 ∨ c.val < 0x20 then none
      else
        match jsonUnescape rest with
        | some tail => some (c :: tail)
        | none => none

/-- Following the JSON grammar (RFC 8259): a decimal digit, `0` to `9`. -/
def IsDigit (c : Byte) : Prop :=
  0x30 ≤ c.val ∧ c.val ≤ 0x39

/-- Following the JSON grammar (RFC 8259): the integer part of a number, a
single `0` or a digit `1` to `9` followed by digits. -/
def JsonInt (s : ByteString) : Prop :=
  s = [0x30] ∨ ∃ d ds, s = d :: ds ∧ 0x31 ≤ d.val ∧ d.val ≤ 0x39 ∧ ∀ c ∈ ds, IsDigit c

/-- Following the JSON grammar (RFC 8259): the optional fraction of a number,
a point followed by at least one digit. -/
def JsonFrac (s : ByteString) : Prop :=
  s = [] ∨ ∃ ds, s = 0x2E :: ds ∧ ds ≠ [] ∧ ∀ c ∈ ds, IsDigit c

/-- Following the JSON grammar (RFC 8259): the optional exponent of a number,
`e` or `E`, an optional sign and at least one digit. -/
def JsonExp (s : ByteString) : Prop :=
  s = [] ∨ ∃ e sign ds, s = e :: (sign ++ ds) ∧ (e = 0x65 ∨ e = 0x45) ∧
    (sign = [] ∨ sign = [0x2B] ∨ sign = [0x2D]) ∧ ds ≠ [] ∧ ∀ c ∈ ds, IsDigit c

/-- Following the JSON grammar (RFC 8259): a number, an optional minus sign,
the integer part, the optional fraction and the optional exponent. -/
def JsonNumber (s : ByteString) : Prop :=
  ∃ sign int frac exp, s = sign ++ int ++ frac ++ exp ∧ (sign = [] ∨ sign = [0x2D]) ∧
    JsonInt int ∧ JsonFrac frac ∧ JsonExp exp

/-- Following the JSON grammar (RFC 8259): a string literal, a double quote,
characters that decode by the unescaping rules (so no raw double quote, no
raw control character, no unknown or cut-off escape) and a double quote. -/
def JsonString (s : ByteString) : Prop :=
  ∃ body, s = ascii "\"" ++ body ++ ascii "\"" ∧ (jsonUnescape body).isSome = true

/-- The text of one member of an object: the key, a colon and the value. -/
def renderMember (member : ByteString × ByteString) : ByteString :=
  member.1 ++ ascii ":" ++ member.2

/-- Following the JSON grammar (RFC 8259), without insignificant white space:
the texts that are a JSON value.  An array is a bracketed list of values
separated by commas; an object is a braced list of members separated by
commas, each a string literal, a colon and a value. -/
inductive Json : ByteString → Prop
  | string (s : ByteString) : JsonString s → Json s
  | number (s : ByteString) : JsonNumber s → Json s
  | litTrue : Json (ascii "true")
  | litFalse : Json (ascii "false")
  | litNull : Json (ascii "null")
  | array (items : List ByteString) : (∀ v ∈ items, Json v) →
      Json (ascii "[" ++ (ascii ",").intercalate items ++ ascii "]")
  | object (members : List (ByteString × ByteString)) :
      (∀ m ∈ members, JsonString m.1) → (∀ m ∈ members, Json m.2) →
      Json (ascii "\x7b" ++ (ascii ",").intercalate (members.map renderMember) ++
        ascii "\x7d")

/-- The members of the object that `nodeToJson` writes for a node, as pairs
of key literal and value text: `type` first, then the members of
`jsonFields`. -/
def jsonMembers (n : MarkdownNode) : List (ByteString × ByteString) :=
  (ascii "\"type\"", ascii "\"" ++ nodeTypeToString n.type ++ ascii "\"") ::
    (jsonFields n).map fun kv => (ascii "\"" ++ ascii kv.1 ++ ascii "\"", kv.2)

/-- The callbacks that the statement about lost text leaves out: the span
callbacks of code_inline and image, and the text callbacks of raw inline
markup.  Every other callback counts, stray leave callbacks included. -/
def Event.keepsText : Event → Bool
  | .enterSpan type _ => !isLeafSpan type
  | .leaveSpan type _ => !isLeafSpan type
  | .text .MD_TEXT_HTML _ => false
  | _ => true

/-- The bytes that a callback contributes to the pending buffer: for a text
callback of null-character category that carries bytes, one zero byte; for a
text callback of another buffer-appending category, the bytes it carries;
nothing for a callback that carries no byte (null pointer or size 0), for a
break or raw-markup callback, and for a block or span callback. -/
def Event.contributed : Event → ByteString
  | .text type (some bytes) =>
      if bytes.length = 0 then []
      else if type = .MD_TEXT_NULLCHAR then [0]
      else if isAppending type then bytes
      else []
  | _ => []

/-- The content that a node contributes as a text node: its content if its
kind is text, nothing otherwise. -/
def MarkdownNode.ownText (node : MarkdownNode) : ByteString :=
  if node.type = .Text then node.content.getD [] else []

/-- The concatenation, in depth-first pre-order, of the content of all text
nodes of a tree. -/
def MarkdownNode.texts (tree : MarkdownNode) : ByteString :=
  (tree.nodes.map MarkdownNode.ownText).flatten

/-- The text of the open nodes of a stack, from the bottom entry to the top:
the pre-order text of the tree that the stack stands for. -/
def stackTexts : List MarkdownNode → ByteString
  | [] => []
  | top :: rest => stackTexts rest ++ top.texts

/-- The text held by a state: the text of the tree built so far followed by
the pending buffer. -/
def Impl.heldText (impl : Impl) : ByteString :=
  stackTexts impl.nodeStack ++ impl.currentText

/-- The container kinds of a linearisation, each with the callback that opens
it and the callback that closes it: the document, and the kinds whose node
carries no attribute and that one pair of callbacks stands for. -/
def containerEvents : NodeType → Option (Event × Event)
  | .Document => some (.enterBlock .MD_BLOCK_DOC (), .leaveBlock .MD_BLOCK_DOC ())
  | .Paragraph => some (.enterBlock .MD_BLOCK_P (), .leaveBlock .MD_BLOCK_P ())
  | .Blockquote => some (.enterBlock .MD_BLOCK_QUOTE (), .leaveBlock .MD_BLOCK_QUOTE ())
  | .Bold => some (.enterSpan .MD_SPAN_STRONG (), .leaveSpan .MD_SPAN_STRONG ())
  | .Strikethrough => some (.enterSpan .MD_SPAN_DEL (), .leaveSpan .MD_SPAN_DEL ())
  | .Table => some (.enterBlock .MD_BLOCK_TABLE (), .leaveBlock .MD_BLOCK_TABLE ())
  | .TableHead => some (.enterBlock .MD_BLOCK_THEAD (), .leaveBlock .MD_BLOCK_THEAD ())
  | .TableBody => some (.enterBlock .MD_BLOCK_TBODY (), .leaveBlock .MD_BLOCK_TBODY ())
  | .TableRow => some (.enterBlock .MD_BLOCK_TR (), .leaveBlock .MD_BLOCK_TR ())
  | .HtmlBlock => some (.enterBlock .MD_BLOCK_HTML (), .leaveBlock .MD_BLOCK_HTML ())
  | .MathInline => some (.enterSpan .MD_SPAN_LATEXMATH (), .leaveSpan .MD_SPAN_LATEXMATH ())
  | .MathBlock =>
      some (.enterSpan .MD_SPAN_LATEXMATH_DISPLAY (), .leaveSpan .MD_SPAN_LATEXMATH_DISPLAY ())
  | _ => none

mutual
/-- The linearisation of a tree: for a text node one text callback of plain
category with its content; for a container its enter callback, the
linearisation of its children in order, and its leave callback.  A node of
another kind stands for no callback of its own. -/
def linearise : MarkdownNode → List Event
  | ⟨type, content, _, _, _, _, _, _, _, _, _, _, children⟩ =>
      if type = .Text then [.text .MD_TEXT_NORMAL content]
      else
        match containerEvents type with
        | some (enter, leave) => enter :: lineariseList children ++ [leave]
        | none => lineariseList children

/-- The linearisation of a sequence of trees, tree after tree. -/
def lineariseList : List MarkdownNode → List Event
  | [] => []
  | node :: rest => linearise node ++ lineariseList rest
end

/-- The attribute-free container kinds of a linearisable tree. -/
def plainKinds : List NodeType :=
  [.Paragraph, .Blockquote, .Bold, .Strikethrough, .Table, .TableHead, .TableBody, .TableRow,
    .HtmlBlock, .MathInline, .MathBlock]

/-- No attribute other than `content` is present. -/
def MarkdownNode.attributeFree (node : MarkdownNode) : Bool :=
  node.level.isNone && node.href.isNone && node.title.isNone && node.alt.isNone &&
    node.language.isNone && node.ordered.isNone && node.start.isNone &&
    node.checked.isNone && node.isHeader.isNone && node.align.isNone

/-- A text node as the builder makes them: kind text, a content that is not
empty, no other attribute and no child. -/
def MarkdownNode.isPlainText (node : MarkdownNode) : Bool :=
  node.type == .Text &&
    (match node.content with
      | some (_ :: _) => true
      | _ => false) &&
    node.attributeFree && node.children.isEmpty

/-- A container of one of the attribute-free kinds, without any attribute. -/
def MarkdownNode.isPlainContainer (node : MarkdownNode) : Bool :=
  plainKinds.contains node.type && node.content.isNone && node.attributeFree

/-- The first node of the sequence is a text node. -/
def startsWithText : List MarkdownNode → Bool
  | node :: _ => node.type == .Text
  | [] => false

/-- No two adjacent nodes of the sequence are both text nodes. -/
def noAdjacentTexts : List MarkdownNode → Bool
  | [] => true
  | node :: rest => !(node.type == .Text && startsWithText rest) && noAdjacentTexts rest

mutual
/-- A tree below the root of a linearisable document: a text node with
content that is not empty, or an attribute-free container whose children are
such trees, no two adjacent ones being text nodes. -/
def MarkdownNode.linearisable : MarkdownNode → Bool
  | ⟨type, content, level, href, title, alt, language, ordered, start, checked, isHeader,
      align, children⟩ =>
      MarkdownNode.isPlainText ⟨type, content, level, href, title, alt, language, ordered,
        start, checked, isHeader, align, children⟩ ||
      (MarkdownNode.isPlainContainer ⟨type, content, level, href, title, alt, language,
        ordered, start, checked, isHeader, align, children⟩ &&
        noAdjacentTexts children && linearisableList children)

/-- Every tree of the sequence is linearisable. -/
def linearisableList : List MarkdownNode → Bool
  | [] => true
  | node :: rest => node.linearisable && linearisableList rest
end

/-- A linearisable document: a document node without attributes whose
children are linearisable trees, no two adjacent ones being text nodes. -/
def MarkdownNode.linearisableDocument (tree : MarkdownNode) : Bool :=
  tree.type == .Document && tree.content.isNone && tree.attributeFree &&
    noAdjacentTexts tree.children && linearisableList tree.children

/-- The state with the given nodes added, in order, after the children of the
top of its stack. -/
def Impl.withChildren (impl : Impl) (nodes : List MarkdownNode) : Impl :=
  match impl.nodeStack with
  | top :: rest =>
      { nodeStack := { top with children := top.children ++ nodes } :: rest,
        currentText := impl.currentText }
  | [] => impl

/-- Running the linearisation of a linearisable tree on a state whose buffer
is empty if the tree is a text node: the run is defined, and after a flush
the tree is one more child of the top of the flushed start state; the buffer
is left empty unless the tree is a text node. -/
def BuildsNode (node : MarkdownNode) : Prop :=
  node.linearisable = true → ∀ impl : Impl, impl.nodeStack ≠ [] →
    (node.type = .Text → impl.currentText = []) →
    ∃ done, md_parse (linearise node) impl = some done ∧
      done.flushText = impl.flushText.withChildren [node] ∧
      (node.type ≠ .Text → done.currentText = [])

/-- Running the linearisation of a sequence of linearisable trees without
adjacent text nodes on a state whose buffer is empty if the first tree is a
text node: the run is defined, and after a flush the trees are further
children of the top of the flushed start state. -/
def BuildsList (nodes : List MarkdownNode) : Prop :=
  linearisableList nodes = true → noAdjacentTexts nodes = true →
    ∀ impl : Impl, impl.nodeStack ≠ [] →
    (startsWithText nodes = true → impl.currentText = []) →
    ∃ done, md_parse (lineariseList nodes) impl = some done ∧
      done.flushText = impl.flushText.withChildren nodes

/-- An example of a linearisable document: a paragraph holding text, a bold
span with text and text again, then an empty block quote and a table with an
empty head. -/
def witnessDocument : MarkdownNode :=
  { type := .Document,
    children :=
      [{ type := .Paragraph,
         children :=
           [{ type := .Text, content := some [97], children := [] },
            { type := .Bold,
              children := [{ type := .Text, content := some [98, 99], children := [] }] },
            { type := .Text, content := some [100], children := [] }] },
       { type := .Blockquote, children := [] },
       { type := .Table, children := [{ type := .TableHead, children := [] }] }] }

/-! ## Lemmas: the bottom of the stack -/

theorem bottomKind_head (a b : MarkdownNode) (rest : List MarkdownNode)
    (h : a.type = b.type) : bottomKind (a :: rest) = bottomKind (b :: rest) := by
  cases rest with
  | nil => simp [bottomKind, h]
  | cons p r => simp [bottomKind]

theorem bottomKind_push (a : MarkdownNode) (st : List MarkdownNode) (h : st ≠ []) :
    bottomKind (a :: st) = bottomKind st := by
  cases st with
  | nil => exact absurd rfl h
  | cons p r => simp [bottomKind]

theorem bottomKind_eq_none (st : List MarkdownNode) : bottomKind st = none ↔ st = [] := by
  induction st with
  | nil => simp [bottomKind]
  | cons a r ih =>
      cases r with
      | nil => simp [bottomKind]
      | cons p q => simpa [bottomKind] using ih

theorem bottomKind_ne_nil {st : List MarkdownNode} {k : NodeType}
    (h : bottomKind st = some k) : st ≠ [] := by
  intro e
  subst e
  simp [bottomKind] at h

theorem attachOpen_type (top : MarkdownNode) (rest : List MarkdownNode) :
    some (attachOpen top rest).type = bottomKind (top :: rest) := by
  induction rest generalizing top with
  | nil => simp [attachOpen, bottomKind]
  | cons p r ih =>
      rw [attachOpen, ih (p.addChild top)]
      simp only [bottomKind]
      exact bottomKind_head _ _ _ rfl

theorem flushText_bottomKind (impl : Impl) :
    bottomKind impl.flushText.nodeStack = bottomKind impl.nodeStack := by
  unfold Impl.flushText
  split
  · next _ _ top rest _ h =>
      rw [h]
      exact bottomKind_head _ _ _ rfl
  · rfl

theorem pushNode_bottomKind (impl : Impl) (node : MarkdownNode) (h : impl.nodeStack ≠ []) :
    bottomKind (impl.pushNode node).nodeStack = bottomKind impl.nodeStack := by
  have hf := flushText_bottomKind impl
  have hne : impl.flushText.nodeStack ≠ [] := by
    intro e
    rw [e] at hf
    exact h ((bottomKind_eq_none _).mp hf.symm)
  simp only [Impl.pushNode]
  rw [bottomKind_push _ _ hne, hf]

theorem popNode_bottomKind (impl : Impl) :
    bottomKind impl.popNode.nodeStack = bottomKind impl.nodeStack := by
  rw [← flushText_bottomKind impl]
  unfold Impl.popNode
  simp only
  split
  · next node parent rest h =>
      rw [h]
      simp only [bottomKind]
      exact bottomKind_head _ _ _ rfl
  · rfl

theorem assignSpanText_bottomKind (type : MD_SPANTYPE) (impl : Impl) :
    bottomKind (impl.assignSpanText type).nodeStack = bottomKind impl.nodeStack := by
  unfold Impl.assignSpanText
  split
  · next cur rest h =>
      split
      · rw [h]; exact bottomKind_head _ _ _ rfl
      · rw [h]; exact bottomKind_head _ _ _ rfl
      · rfl
  · rfl

theorem topAddChild_bottomKind (impl : Impl) (child : MarkdownNode) (k : NodeType)
    (h : bottomKind impl.nodeStack = some k) :
    ∃ next, impl.topAddChild child = some next ∧ bottomKind next.nodeStack = some k := by
  unfold Impl.topAddChild
  split
  · next top rest hs =>
      refine ⟨_, rfl, ?_⟩
      rw [hs] at h
      rw [← h]
      exact bottomKind_head _ _ _ rfl
  · next hs => rw [hs] at h; simp [bottomKind] at h

theorem enterBlock_bottomKind (type : MD_BLOCKTYPE) (detail : type.Detail) (impl : Impl)
    (k : NodeType) (h : bottomKind impl.nodeStack = some k) :
    ∃ next, impl.enterBlock type detail = some next ∧ bottomKind next.nodeStack = some k := by
  have hne := bottomKind_ne_nil h
  cases type <;> simp only [Impl.enterBlock]
  case MD_BLOCK_HR =>
    exact topAddChild_bottomKind _ _ k (by rw [flushText_bottomKind]; exact h)
  case MD_BLOCK_LI =>
    split <;> exact ⟨_, rfl, by rw [pushNode_bottomKind _ _ hne]; exact h⟩
  case MD_BLOCK_DOC => exact ⟨_, rfl, h⟩
  all_goals exact ⟨_, rfl, by rw [pushNode_bottomKind _ _ hne]; exact h⟩

theorem leaveBlock_bottomKind (type : MD_BLOCKTYPE) (detail : type.Detail) (impl : Impl) :
    bottomKind (impl.leaveBlock type detail).nodeStack = bottomKind impl.nodeStack := by
  cases type <;> simp only [Impl.leaveBlock] <;> first | rfl | exact popNode_bottomKind _

theorem enterSpan_bottomKind (type : MD_SPANTYPE) (detail : type.Detail) (impl : Impl)
    (h : impl.nodeStack ≠ []) :
    bottomKind (impl.enterSpan type detail).nodeStack = bottomKind impl.nodeStack := by
  cases type <;> simp only [Impl.enterSpan] <;> exact pushNode_bottomKind _ _ h

theorem leaveSpan_bottomKind (type : MD_SPANTYPE) (detail : type.Detail) (impl : Impl) :
    bottomKind (impl.leaveSpan type detail).nodeStack = bottomKind impl.nodeStack := by
  unfold Impl.leaveSpan
  rw [popNode_bottomKind, assignSpanText_bottomKind]

theorem text_bottomKind (type : MD_TEXTTYPE) (text : Option ByteString) (impl : Impl)
    (k : NodeType) (h : bottomKind impl.nodeStack = some k) :
    ∃ next, impl.text type text = some next ∧ bottomKind next.nodeStack = some k := by
  unfold Impl.text
  cases text with
  | none => exact ⟨_, rfl, h⟩
  | some bytes =>
      simp only
      split
      · exact ⟨_, rfl, h⟩
      · cases type <;> simp only
        case MD_TEXT_BR =>
          exact topAddChild_bottomKind _ _ k (by rw [flushText_bottomKind]; exact h)
        case MD_TEXT_SOFTBR =>
          exact topAddChild_bottomKind _ _ k (by rw [flushText_bottomKind]; exact h)
        case MD_TEXT_HTML =>
          exact topAddChild_bottomKind _ _ k (by rw [flushText_bottomKind]; exact h)
        all_goals exact ⟨_, rfl, h⟩

theorem handle_bottomKind (event : Event) (impl : Impl) (k : NodeType)
    (h : bottomKind impl.nodeStack = some k) :
    ∃ next, impl.handle event = some next ∧ bottomKind next.nodeStack = some k := by
  cases event with
  | enterBlock type detail => exact enterBlock_bottomKind type detail impl k h
  | leaveBlock type detail =>
      exact ⟨_, rfl, by rw [leaveBlock_bottomKind]; exact h⟩
  | enterSpan type detail =>
      exact ⟨_, rfl, by rw [enterSpan_bottomKind _ _ _ (bottomKind_ne_nil h)]; exact h⟩
  | leaveSpan type detail =>
      exact ⟨_, rfl, by rw [leaveSpan_bottomKind]; exact h⟩
  | text type text => exact text_bottomKind type text impl k h

theorem md_parse_bottomKind (events : List Event) (impl : Impl) (k : NodeType)
    (h : bottomKind impl.nodeStack = some k) :
    ∃ done, md_parse events impl = some done ∧ bottomKind done.nodeStack = some k := by
  induction events generalizing impl with
  | nil => exact ⟨impl, rfl, h⟩
  | cons event events ih =>
      obtain ⟨next, hn, hk⟩ := handle_bottomKind event impl k h
      obtain ⟨done, hd, hdk⟩ := ih next hk
      exact ⟨done, by simp only [md_parse, hn, hd], hdk⟩

theorem parse_bottomKind (impl : Impl) (events : List Event) :
    ∃ root final, MD4CParser.parse impl events = some (root, final) ∧
      root.type = NodeType.Document ∧ bottomKind final.nodeStack = some NodeType.Document := by
  obtain ⟨done, hd, hk⟩ :=
    md_parse_bottomKind events impl.reset NodeType.Document
      (by simp [Impl.reset, bottomKind, MarkdownNode.new])
  have hf := flushText_bottomKind done
  rw [hk] at hf
  cases hs : done.flushText.nodeStack with
  | nil => rw [hs] at hf; simp [bottomKind] at hf
  | cons top rest =>
      refine ⟨attachOpen top rest, done.flushText, ?_, ?_, hf⟩
      · simp only [MD4CParser.parse, hd, Impl.root, hs]
      · have := attachOpen_type top rest
        rw [← hs, hf] at this
        exact Option.some.inj this

/-! ## Lemmas: running events -/

theorem md_parse_append (first second : List Event) (impl : Impl) :
    md_parse (first ++ second) impl = (md_parse first impl).bind (md_parse second) := by
  induction first generalizing impl with
  | nil => rfl
  | cons event events ih =>
      simp only [List.cons_append, md_parse]
      cases impl.handle event with
      | none => rfl
      | some next => exact ih next

theorem flushText_nil (stack : List MarkdownNode) :
    Impl.flushText { nodeStack := stack, currentText := [] } =
      { nodeStack := stack, currentText := [] } := rfl

theorem flushText_cons (top : MarkdownNode) (rest : List MarkdownNode) (buffer : ByteString)
    (h : buffer ≠ []) :
    Impl.flushText { nodeStack := top :: rest, currentText := buffer } =
      { nodeStack := top.addChild { MarkdownNode.new .Text with content := some buffer } :: rest,
        currentText := [] } := by
  cases buffer with
  | nil => exact absurd rfl h
  | cons b bs => rfl

theorem text_appends (type : MD_TEXTTYPE) (text : Option ByteString) (impl : Impl)
    (h : appendsOwnBytes type text = true) :
    impl.text type text = some { impl with currentText := impl.currentText ++ text.getD [] } := by
  cases text with
  | none => simp [Impl.text]
  | some bytes =>
      cases bytes with
      | nil => simp [Impl.text]
      | cons b bs =>
          cases type <;> simp_all [Impl.text, appendsOwnBytes, isAppending]

theorem md_parse_textEvents (texts : List (MD_TEXTTYPE × Option ByteString)) (impl : Impl)
    (h : ∀ t ∈ texts, appendsOwnBytes t.1 t.2 = true) :
    md_parse (textEvents texts) impl =
      some { impl with currentText := impl.currentText ++ bytesOf texts } := by
  induction texts generalizing impl with
  | nil => simp [textEvents, md_parse, bytesOf]
  | cons t ts ih =>
      have ht := text_appends t.1 t.2 impl (h t (List.mem_cons_self _ _))
      have := ih { impl with currentText := impl.currentText ++ t.2.getD [] }
        (fun u hu => h u (List.mem_cons_of_mem _ hu))
      simp only [textEvents, List.map_cons, md_parse, Impl.handle, ht]
      simp only [textEvents] at this
      rw [this]
      simp [bytesOf]

theorem flushText_eq (impl : Impl) (h : impl.nodeStack ≠ []) :
    ∃ top rest, impl.flushText = { nodeStack := top :: rest, currentText := [] } := by
  obtain ⟨stack, buffer⟩ := impl
  cases stack with
  | nil => exact absurd rfl h
  | cons top rest =>
      cases buffer with
      | nil => exact ⟨top, rest, rfl⟩
      | cons b bs => exact ⟨_, rest, rfl⟩

theorem popNode_empty_buffer (node parent : MarkdownNode) (rest : List MarkdownNode) :
    Impl.popNode { nodeStack := node :: parent :: rest, currentText := [] } =
      { nodeStack := parent.addChild node :: rest, currentText := [] } := rfl

theorem md_parse_leafSpan (impl : Impl) (type : MD_SPANTYPE) (detail : type.Detail)
    (texts : List (MD_TEXTTYPE × Option ByteString))
    (hown : ∀ t ∈ texts, appendsOwnBytes t.1 t.2 = true) (hs : impl.nodeStack ≠ []) :
    ∃ node top rest,
      impl.enterSpan type detail =
        { nodeStack := node :: top :: rest, currentText := [] } ∧
      impl.flushText.nodeStack = top :: rest ∧
      md_parse (Event.enterSpan type detail :: textEvents texts) impl =
        some { nodeStack := node :: top :: rest, currentText := bytesOf texts } := by
  obtain ⟨top, rest, hf⟩ := flushText_eq impl hs
  have hpush : ∀ node, impl.pushNode node =
      { nodeStack := node :: top :: rest, currentText := [] } := by
    intro node
    simp only [Impl.pushNode, hf]
  have henter : ∃ node, impl.enterSpan type detail =
      { nodeStack := node :: top :: rest, currentText := [] } := by
    cases type <;> exact ⟨_, hpush _⟩
  obtain ⟨node, hnode⟩ := henter
  refine ⟨node, top, rest, hnode, by rw [hf], ?_⟩
  have hrun := md_parse_textEvents texts
    { nodeStack := node :: top :: rest, currentText := [] } hown
  simp only [md_parse, Impl.handle, hnode]
  rw [hrun]
  rfl

/-! ## Lemmas: code_inline and image nodes -/

theorem nodes_eq (node : MarkdownNode) : node.nodes = node :: nodesOfList node.children := by
  cases node
  simp [MarkdownNode.nodes]

theorem mem_nodesOfList (x : MarkdownNode) (trees : List MarkdownNode) :
    x ∈ nodesOfList trees ↔ ∃ c ∈ trees, x ∈ c.nodes := by
  induction trees with
  | nil => simp [nodesOfList]
  | cons t ts ih => simp [nodesOfList, ih]

theorem leafSpansChildless_of_no_children (node : MarkdownNode) (h : node.children = []) :
    LeafSpansChildless node := by
  intro n hn _
  rw [nodes_eq, h] at hn
  simp [nodesOfList] at hn
  rw [hn]
  exact h

theorem leafSpansChildless_of_open (node : MarkdownNode) (h : OpenNodeOk node) :
    LeafSpansChildless node := by
  intro n hn hk
  rw [nodes_eq] at hn
  rcases List.mem_cons.mp hn with rfl | hn
  · rcases hk with hk | hk
    · exact absurd hk h.1
    · exact absurd hk h.2.1
  · obtain ⟨c, hc, hx⟩ := (mem_nodesOfList n _).mp hn
    exact h.2.2 c hc n hx hk

theorem openNodeOk_addChild (parent child : MarkdownNode) (hp : OpenNodeOk parent)
    (hc : LeafSpansChildless child) : OpenNodeOk (parent.addChild child) := by
  refine ⟨hp.1, hp.2.1, ?_⟩
  intro c hmem
  simp only [MarkdownNode.addChild, List.mem_append, List.mem_singleton] at hmem
  rcases hmem with h | h
  · exact hp.2.2 c h
  · rw [h]
    exact hc

theorem openOk_flushText (impl : Impl) (h : OpenOk impl) : OpenOk impl.flushText := by
  unfold Impl.flushText
  split
  · next _ _ top rest _ hs =>
      refine ⟨List.cons_ne_nil _ _, ?_⟩
      intro node hmem
      rcases List.mem_cons.mp hmem with rfl | hmem
      · exact openNodeOk_addChild _ _ (h.2 top (by rw [hs]; exact List.mem_cons_self _ _))
          (leafSpansChildless_of_no_children _ rfl)
      · exact h.2 node (by rw [hs]; exact List.mem_cons_of_mem _ hmem)
  · exact h

theorem openOk_pushNode (impl : Impl) (node : MarkdownNode) (h : OpenOk impl)
    (hn : OpenNodeOk node) : OpenOk (impl.pushNode node) := by
  have hf := openOk_flushText impl h
  refine ⟨List.cons_ne_nil _ _, ?_⟩
  intro n hmem
  rcases List.mem_cons.mp hmem with rfl | hmem
  · exact hn
  · exact hf.2 n hmem

theorem openOk_popNode (impl : Impl) (h : OpenOk impl) : OpenOk impl.popNode := by
  have hf := openOk_flushText impl h
  unfold Impl.popNode
  simp only
  split
  · next node parent rest hs =>
      refine ⟨List.cons_ne_nil _ _, ?_⟩
      intro n hmem
      rcases List.mem_cons.mp hmem with rfl | hmem
      · exact openNodeOk_addChild _ _
          (hf.2 parent (by rw [hs]; exact List.mem_cons_of_mem _ (List.mem_cons_self _ _)))
          (leafSpansChildless_of_open _ (hf.2 node (by rw [hs]; exact List.mem_cons_self _ _)))
      · exact hf.2 n
          (by rw [hs]; exact List.mem_cons_of_mem _ (List.mem_cons_of_mem _ hmem))
  · exact hf

theorem openOk_topAddChild (impl : Impl) (child : MarkdownNode) (h : OpenOk impl)
    (hc : child.children = []) :
    ∃ next, impl.topAddChild child = some next ∧ OpenOk next := by
  unfold Impl.topAddChild
  split
  · next top rest hs =>
      refine ⟨_, rfl, List.cons_ne_nil _ _, ?_⟩
      intro n hmem
      rcases List.mem_cons.mp hmem with rfl | hmem
      · exact openNodeOk_addChild _ _ (h.2 top (by rw [hs]; exact List.mem_cons_self _ _))
          (leafSpansChildless_of_no_children _ hc)
      · exact h.2 n (by rw [hs]; exact List.mem_cons_of_mem _ hmem)
  · next hs => exact absurd hs h.1

theorem openOk_assignSpanText (type : MD_SPANTYPE) (impl : Impl) (h : OpenOk impl) :
    OpenOk (impl.assignSpanText type) := by
  unfold Impl.assignSpanText
  split
  · next cur rest hs =>
      have hcur := h.2 cur (by rw [hs]; exact List.mem_cons_self _ _)
      have hrest : ∀ n ∈ rest, OpenNodeOk n :=
        fun n hn => h.2 n (by rw [hs]; exact List.mem_cons_of_mem _ hn)
      split
      · refine ⟨List.cons_ne_nil _ _, ?_⟩
        intro n hmem
        rcases List.mem_cons.mp hmem with rfl | hmem
        · exact hcur
        · exact hrest n hmem
      · refine ⟨List.cons_ne_nil _ _, ?_⟩
        intro n hmem
        rcases List.mem_cons.mp hmem with rfl | hmem
        · exact hcur
        · exact hrest n hmem
      · exact h
  · exact h

theorem openNodeOk_new (type : NodeType) (h1 : type ≠ .CodeInline) (h2 : type ≠ .Image) :
    OpenNodeOk (MarkdownNode.new type) :=
  ⟨h1, h2, fun _ hc => absurd hc (List.not_mem_nil _)⟩

theorem openOk_enterBlock (type : MD_BLOCKTYPE) (detail : type.Detail) (impl : Impl)
    (h : OpenOk impl) :
    ∃ next, impl.enterBlock type detail = some next ∧ OpenOk next := by
  have hnew : ∀ node : MarkdownNode, node.type ≠ .CodeInline → node.type ≠ .Image →
      node.children = [] → OpenOk (impl.pushNode node) := by
    intro node h1 h2 h3
    exact openOk_pushNode impl node h ⟨h1, h2, fun c hc => by rw [h3] at hc; cases hc⟩
  cases type <;> simp only [Impl.enterBlock]
  case MD_BLOCK_HR => exact openOk_topAddChild _ _ (openOk_flushText impl h) rfl
  case MD_BLOCK_LI =>
    split
    · exact ⟨_, rfl, hnew _ (by simp [MarkdownNode.new]) (by simp [MarkdownNode.new]) rfl⟩
    · exact ⟨_, rfl, hnew _ (by simp [MarkdownNode.new]) (by simp [MarkdownNode.new]) rfl⟩
  case MD_BLOCK_DOC => exact ⟨_, rfl, h⟩
  all_goals
    exact ⟨_, rfl, hnew _ (by simp [MarkdownNode.new]) (by simp [MarkdownNode.new]) rfl⟩

theorem openOk_leaveBlock (type : MD_BLOCKTYPE) (detail : type.Detail) (impl : Impl)
    (h : OpenOk impl) : OpenOk (impl.leaveBlock type detail) := by
  cases type <;> simp only [Impl.leaveBlock] <;> first | exact h | exact openOk_popNode _ h

theorem openOk_leaveSpan (type : MD_SPANTYPE) (detail : type.Detail) (impl : Impl)
    (h : OpenOk impl) : OpenOk (impl.leaveSpan type detail) :=
  openOk_popNode _ (openOk_assignSpanText type impl h)

theorem openOk_enterSpan (type : MD_SPANTYPE) (detail : type.Detail) (impl : Impl)
    (h : OpenOk impl) (hk : isLeafSpan type = false) : OpenOk (impl.enterSpan type detail) := by
  have hnew : ∀ node : MarkdownNode, node.type ≠ .CodeInline → node.type ≠ .Image →
      node.children = [] → OpenOk (impl.pushNode node) := by
    intro node h1 h2 h3
    exact openOk_pushNode impl node h ⟨h1, h2, fun c hc => by rw [h3] at hc; cases hc⟩
  cases type <;> simp only [Impl.enterSpan] <;>
    first
    | (simp [isLeafSpan] at hk; done)
    | exact hnew _ (by simp [MarkdownNode.new]) (by simp [MarkdownNode.new]) rfl

theorem inLeafOk_enterSpan (type : MD_SPANTYPE) (detail : type.Detail) (impl : Impl)
    (h : OpenOk impl) : InLeafOk (impl.enterSpan type detail) := by
  have hf := openOk_flushText impl h
  have hnew : ∀ node : MarkdownNode, node.children = [] → InLeafOk (impl.pushNode node) :=
    fun node hc => ⟨node, impl.flushText.nodeStack, rfl, hc, hf.1, hf.2⟩
  cases type <;> simp only [Impl.enterSpan] <;> exact hnew _ rfl

theorem openOk_text (type : MD_TEXTTYPE) (text : Option ByteString) (impl : Impl)
    (h : OpenOk impl) : ∃ next, impl.text type text = some next ∧ OpenOk next := by
  unfold Impl.text
  cases text with
  | none => exact ⟨_, rfl, h⟩
  | some bytes =>
      simp only
      split
      · exact ⟨_, rfl, h⟩
      · cases type <;> simp only
        case MD_TEXT_BR => exact openOk_topAddChild _ _ (openOk_flushText impl h) rfl
        case MD_TEXT_SOFTBR => exact openOk_topAddChild _ _ (openOk_flushText impl h) rfl
        case MD_TEXT_HTML => exact openOk_topAddChild _ _ (openOk_flushText impl h) rfl
        all_goals exact ⟨_, rfl, h⟩

theorem inLeafOk_text (type : MD_TEXTTYPE) (text : Option ByteString) (impl : Impl)
    (h : InLeafOk impl) (ha : isAppending type = true) :
    ∃ next, impl.text type text = some next ∧ InLeafOk next := by
  unfold Impl.text
  cases text with
  | none => exact ⟨_, rfl, h⟩
  | some bytes =>
      simp only
      split
      · exact ⟨_, rfl, h⟩
      · cases type <;> simp only <;>
          first
          | (simp [isAppending] at ha; done)
          | exact ⟨_, rfl, h⟩

theorem openOk_leaveSpan_inLeaf (type : MD_SPANTYPE) (detail : type.Detail) (impl : Impl)
    (h : InLeafOk impl) (hk : isLeafSpan type = true) : OpenOk (impl.leaveSpan type detail) := by
  obtain ⟨top, rest, hs, hc, hne, hrest⟩ := h
  obtain ⟨stack, buffer⟩ := impl
  simp only at hs
  subst hs
  cases rest with
  | nil => exact absurd rfl hne
  | cons parent lower =>
      have hparent := hrest parent (List.mem_cons_self _ _)
      have hlower : ∀ n ∈ lower, OpenNodeOk n := fun n hn => hrest n (List.mem_cons_of_mem _ hn)
      have done : ∀ node : MarkdownNode, node.children = [] →
          OpenOk { nodeStack := parent.addChild node :: lower, currentText := [] } := by
        intro node hnode
        refine ⟨List.cons_ne_nil _ _, ?_⟩
        intro n hmem
        rcases List.mem_cons.mp hmem with rfl | hmem
        · exact openNodeOk_addChild _ _ hparent (leafSpansChildless_of_no_children _ hnode)
        · exact hlower n hmem
      cases type <;> first
        | (simp [isLeafSpan] at hk; done)
        | exact done _ hc

theorem md_parse_leafSpansClosed (events : List Event) (inLeaf : Bool) (impl : Impl)
    (hc : leafSpansClosed inLeaf events = true)
    (h : if inLeaf = true then InLeafOk impl else OpenOk impl) :
    ∃ done, md_parse events impl = some done ∧ OpenOk done := by
  induction events generalizing inLeaf impl with
  | nil =>
      cases inLeaf with
      | true => simp [leafSpansClosed] at hc
      | false => exact ⟨impl, rfl, by simpa using h⟩
  | cons event events ih =>
      cases inLeaf with
      | true =>
          have h : InLeafOk impl := by simpa using h
          cases event with
          | text type text =>
              simp only [leafSpansClosed, Bool.and_eq_true] at hc
              obtain ⟨next, hn, hok⟩ := inLeafOk_text type text impl h hc.1
              obtain ⟨done, hd, hdone⟩ := ih true next hc.2 (by simpa using hok)
              exact ⟨done, by simp only [md_parse, Impl.handle, hn, hd], hdone⟩
          | leaveSpan type detail =>
              simp only [leafSpansClosed, Bool.and_eq_true] at hc
              have hok := openOk_leaveSpan_inLeaf type detail impl h hc.1
              obtain ⟨done, hd, hdone⟩ := ih false _ hc.2 (by simpa using hok)
              exact ⟨done, by simp only [md_parse, Impl.handle, hd], hdone⟩
          | enterBlock type detail => simp [leafSpansClosed] at hc
          | leaveBlock type detail => simp [leafSpansClosed] at hc
          | enterSpan type detail => simp [leafSpansClosed] at hc
      | false =>
          have h : OpenOk impl := by simpa using h
          cases event with
          | text type text =>
              simp only [leafSpansClosed] at hc
              obtain ⟨next, hn, hok⟩ := openOk_text type text impl h
              obtain ⟨done, hd, hdone⟩ := ih false next hc (by simpa using hok)
              exact ⟨done, by simp only [md_parse, Impl.handle, hn, hd], hdone⟩
          | leaveSpan type detail =>
              simp only [leafSpansClosed] at hc
              have hok := openOk_leaveSpan type detail impl h
              obtain ⟨done, hd, hdone⟩ := ih false _ hc (by simpa using hok)
              exact ⟨done, by simp only [md_parse, Impl.handle, hd], hdone⟩
          | enterBlock type detail =>
              simp only [leafSpansClosed] at hc
              obtain ⟨next, hn, hok⟩ := openOk_enterBlock type detail impl h
              obtain ⟨done, hd, hdone⟩ := ih false next hc (by simpa using hok)
              exact ⟨done, by simp only [md_parse, Impl.handle, hn, hd], hdone⟩
          | leaveBlock type detail =>
              simp only [leafSpansClosed] at hc
              have hok := openOk_leaveBlock type detail impl h
              obtain ⟨done, hd, hdone⟩ := ih false _ hc (by simpa using hok)
              exact ⟨done, by simp only [md_parse, Impl.handle, hd], hdone⟩
          | enterSpan type detail =>
              simp only [leafSpansClosed] at hc
              cases hk : isLeafSpan type with
              | true =>
                  rw [hk] at hc
                  have hok := inLeafOk_enterSpan type detail impl h
                  obtain ⟨done, hd, hdone⟩ := ih true _ hc (by simpa using hok)
                  exact ⟨done, by simp only [md_parse, Impl.handle, hd], hdone⟩
              | false =>
                  rw [hk] at hc
                  have hok := openOk_enterSpan type detail impl h hk
                  obtain ⟨done, hd, hdone⟩ := ih false _ hc (by simpa using hok)
                  exact ⟨done, by simp only [md_parse, Impl.handle, hd], hdone⟩

theorem leafSpansChildless_attachOpen (top : MarkdownNode) (rest : List MarkdownNode)
    (ht : LeafSpansChildless top) (hr : ∀ n ∈ rest, OpenNodeOk n) :
    LeafSpansChildless (attachOpen top rest) := by
  induction rest generalizing top with
  | nil => exact ht
  | cons parent lower ih =>
      exact ih (parent.addChild top)
        (leafSpansChildless_of_open _
          (openNodeOk_addChild _ _ (hr parent (List.mem_cons_self _ _)) ht))
        (fun n hn => hr n (List.mem_cons_of_mem _ hn))

/-! ## Lemmas: well-nested sequences act on the top of the stack only -/

theorem flushText_onto (impl : Impl) (below : List MarkdownNode) (h : impl.nodeStack ≠ []) :
    (impl.onto below).flushText = impl.flushText.onto below := by
  obtain ⟨stack, buffer⟩ := impl
  cases stack with
  | nil => exact absurd rfl h
  | cons top rest =>
      cases buffer with
      | nil => rfl
      | cons b bs => rfl

theorem flushText_length (impl : Impl) :
    impl.flushText.nodeStack.length = impl.nodeStack.length := by
  obtain ⟨stack, buffer⟩ := impl
  cases stack with
  | nil => cases buffer <;> rfl
  | cons top rest => cases buffer <;> rfl

theorem pushNode_onto (impl : Impl) (node : MarkdownNode) (below : List MarkdownNode)
    (h : impl.nodeStack ≠ []) :
    (impl.onto below).pushNode node = (impl.pushNode node).onto below := by
  simp only [Impl.pushNode, flushText_onto impl below h]
  rfl

theorem pushNode_length (impl : Impl) (node : MarkdownNode) :
    (impl.pushNode node).nodeStack.length = impl.nodeStack.length + 1 := by
  simp [Impl.pushNode, flushText_length]

theorem popNode_onto (impl : Impl) (below : List MarkdownNode)
    (h : 2 ≤ impl.nodeStack.length) :
    (impl.onto below).popNode = impl.popNode.onto below := by
  have hne : impl.nodeStack ≠ [] := by
    intro e
    rw [e] at h
    simp at h
  have hlen := flushText_length impl
  unfold Impl.popNode
  simp only [flushText_onto impl below hne]
  cases hs : impl.flushText.nodeStack with
  | nil => rw [hs] at hlen; simp at hlen; omega
  | cons node r =>
      cases r with
      | nil => rw [hs] at hlen; simp at hlen; omega
      | cons parent lower =>
          simp only [Impl.onto, hs, List.cons_append]

theorem popNode_length (impl : Impl) (h : 2 ≤ impl.nodeStack.length) :
    impl.popNode.nodeStack.length + 1 = impl.nodeStack.length := by
  have hlen := flushText_length impl
  unfold Impl.popNode
  simp only
  cases hs : impl.flushText.nodeStack with
  | nil => rw [hs] at hlen; simp at hlen; omega
  | cons node r =>
      cases r with
      | nil => rw [hs] at hlen; simp at hlen; omega
      | cons parent lower =>
          rw [hs] at hlen
          simp only [List.length_cons] at hlen ⊢
          omega

theorem topAddChild_onto (impl : Impl) (child : MarkdownNode) (below : List MarkdownNode)
    (h : impl.nodeStack ≠ []) :
    ∃ next, impl.topAddChild child = some next ∧
      (impl.onto below).topAddChild child = some (next.onto below) ∧
      next.nodeStack.length = impl.nodeStack.length := by
  obtain ⟨stack, buffer⟩ := impl
  cases stack with
  | nil => exact absurd rfl h
  | cons top rest => exact ⟨_, rfl, rfl, rfl⟩

theorem assignSpanText_onto (type : MD_SPANTYPE) (impl : Impl) (below : List MarkdownNode)
    (h : impl.nodeStack ≠ []) :
    (impl.onto below).assignSpanText type = (impl.assignSpanText type).onto below ∧
      (impl.assignSpanText type).nodeStack.length = impl.nodeStack.length := by
  obtain ⟨stack, buffer⟩ := impl
  cases stack with
  | nil => exact absurd rfl h
  | cons top rest => cases type <;> exact ⟨rfl, rfl⟩

theorem handle_onto (event : Event) (impl : Impl) (below : List MarkdownNode)
    (h : impl.nodeStack ≠ []) (hc : event.closes = true → 2 ≤ impl.nodeStack.length) :
    ∃ next, impl.handle event = some next ∧
      (impl.onto below).handle event = some (next.onto below) ∧
      (event.opens = true → next.nodeStack.length = impl.nodeStack.length + 1) ∧
      (event.closes = true → next.nodeStack.length + 1 = impl.nodeStack.length) ∧
      (event.opens = false → event.closes = false →
        next.nodeStack.length = impl.nodeStack.length) := by
  have hflen := flushText_length impl
  have hfne : impl.flushText.nodeStack ≠ [] := by
    intro e
    rw [e] at hflen
    exact h (List.length_eq_zero.mp hflen.symm)
  have push : ∀ node, ∃ next, some (impl.pushNode node) = some next ∧
      some ((impl.onto below).pushNode node) = some (next.onto below) ∧
      next.nodeStack.length = impl.nodeStack.length + 1 :=
    fun node => ⟨_, rfl, by rw [pushNode_onto impl node below h], pushNode_length impl node⟩
  have leaf : ∀ child, ∃ next, impl.flushText.topAddChild child = some next ∧
      (impl.onto below).flushText.topAddChild child = some (next.onto below) ∧
      next.nodeStack.length = impl.nodeStack.length := by
    intro child
    obtain ⟨next, h1, h2, h3⟩ := topAddChild_onto impl.flushText child below hfne
    exact ⟨next, h1, by rw [flushText_onto impl below h]; exact h2, by rw [h3, hflen]⟩
  cases event with
  | enterBlock type detail =>
      cases type <;> simp only [Impl.handle, Impl.enterBlock]
      case MD_BLOCK_DOC => exact ⟨impl, rfl, rfl, by simp [Event.opens], by simp [Event.closes],
        fun _ _ => rfl⟩
      case MD_BLOCK_HR =>
        obtain ⟨next, h1, h2, h3⟩ := leaf (MarkdownNode.new .HorizontalRule)
        exact ⟨next, h1, h2, by simp [Event.opens], by simp [Event.closes], fun _ _ => h3⟩
      case MD_BLOCK_LI =>
        split
        · obtain ⟨next, h1, h2, h3⟩ := push
            { MarkdownNode.new .TaskListItem with
              checked := some (decide (detail.task_mark = 120 ∨ detail.task_mark = 88)) }
          exact ⟨next, h1, h2, fun _ => h3, by simp [Event.closes], by simp [Event.opens]⟩
        · obtain ⟨next, h1, h2, h3⟩ := push (MarkdownNode.new .ListItem)
          exact ⟨next, h1, h2, fun _ => h3, by simp [Event.closes], by simp [Event.opens]⟩
      all_goals
        obtain ⟨next, h1, h2, h3⟩ := push _
        exact ⟨next, h1, h2, fun _ => h3, by simp [Event.closes], by simp [Event.opens]⟩
  | leaveBlock type detail =>
      cases type <;> simp only [Impl.handle, Impl.leaveBlock]
      case MD_BLOCK_DOC => exact ⟨impl, rfl, rfl, by simp [Event.opens], by simp [Event.closes],
        fun _ _ => rfl⟩
      case MD_BLOCK_HR => exact ⟨impl, rfl, rfl, by simp [Event.opens], by simp [Event.closes],
        fun _ _ => rfl⟩
      all_goals
        have h2 : 2 ≤ impl.nodeStack.length := hc (by simp [Event.closes])
        exact ⟨_, rfl, by rw [popNode_onto impl below h2], by simp [Event.opens],
          fun _ => popNode_length impl h2, by simp [Event.closes]⟩
  | enterSpan type detail =>
      simp only [Impl.handle]
      have key : ∃ node, impl.enterSpan type detail = impl.pushNode node ∧
          (impl.onto below).enterSpan type detail = (impl.onto below).pushNode node := by
        cases type <;> exact ⟨_, rfl, rfl⟩
      obtain ⟨node, hk1, hk2⟩ := key
      rw [hk1, hk2]
      obtain ⟨next, h1, h2, h3⟩ := push node
      exact ⟨next, h1, h2, fun _ => h3, by simp [Event.closes], by simp [Event.opens]⟩
  | leaveSpan type detail =>
      simp only [Impl.handle, Impl.leaveSpan]
      have h2 : 2 ≤ impl.nodeStack.length := hc (by simp [Event.closes])
      obtain ⟨ha, hl⟩ := assignSpanText_onto type impl below h
      refine ⟨_, rfl, ?_, by simp [Event.opens], fun _ => ?_, by simp [Event.closes]⟩
      · rw [ha, popNode_onto _ below (by rw [hl]; exact h2)]
      · rw [popNode_length _ (by rw [hl]; exact h2), hl]
  | text type text =>
      simp only [Impl.handle, Impl.text]
      cases text with
      | none => exact ⟨impl, rfl, rfl, by simp [Event.opens], by simp [Event.closes],
          fun _ _ => rfl⟩
      | some bytes =>
          simp only
          split
          · exact ⟨impl, rfl, rfl, by simp [Event.opens], by simp [Event.closes],
              fun _ _ => rfl⟩
          · cases type <;> simp only
            case MD_TEXT_BR =>
              obtain ⟨next, h1, h2, h3⟩ := leaf (MarkdownNode.new .LineBreak)
              exact ⟨next, h1, h2, by simp [Event.opens], by simp [Event.closes], fun _ _ => h3⟩
            case MD_TEXT_SOFTBR =>
              obtain ⟨next, h1, h2, h3⟩ := leaf (MarkdownNode.new .SoftBreak)
              exact ⟨next, h1, h2, by simp [Event.opens], by simp [Event.closes], fun _ _ => h3⟩
            case MD_TEXT_HTML =>
              obtain ⟨next, h1, h2, h3⟩ :=
                leaf { MarkdownNode.new .HtmlInline with content := some bytes }
              exact ⟨next, h1, h2, by simp [Event.opens], by simp [Event.closes], fun _ _ => h3⟩
            all_goals
              exact ⟨_, rfl, rfl, by simp [Event.opens], by simp [Event.closes],
                fun _ _ => rfl⟩

theorem md_parse_cons (event : Event) (events : List Event) (impl next : Impl)
    (h : impl.handle event = some next) :
    md_parse (event :: events) impl = md_parse events next := by
  simp only [md_parse, h]

theorem md_parse_onto (events : List Event) (depth : Nat) (impl : Impl)
    (below : List MarkdownNode) (hw : wellNested depth events = true)
    (hlen : impl.nodeStack.length = depth + 1) :
    ∃ done, md_parse events impl = some done ∧ done.nodeStack.length = 1 ∧
      md_parse events (impl.onto below) = some (done.onto below) := by
  induction events generalizing depth impl with
  | nil =>
      simp only [wellNested, beq_iff_eq] at hw
      subst hw
      exact ⟨impl, rfl, hlen, rfl⟩
  | cons event events ih =>
      have hne : impl.nodeStack ≠ [] := by
        intro e
        rw [e] at hlen
        simp at hlen
      simp only [wellNested] at hw
      by_cases ho : event.opens = true
      · rw [if_pos ho] at hw
        obtain ⟨next, h1, h2, h3, _, _⟩ := handle_onto event impl below hne (by
          intro hc
          cases event with
          | enterBlock type detail => cases type <;> simp [Event.closes] at hc
          | enterSpan type detail => simp [Event.closes] at hc
          | leaveBlock type detail => cases type <;> simp [Event.opens] at ho
          | leaveSpan type detail => simp [Event.opens] at ho
          | text type text => simp [Event.opens] at ho)
        obtain ⟨done, hd, hl, hb⟩ := ih (depth + 1) next hw (by rw [h3 ho, hlen])
        exact ⟨done, by simp only [md_parse, h1, hd], hl, by simp only [md_parse, h2, hb]⟩
      · rw [if_neg ho] at hw
        by_cases hc : event.closes = true
        · rw [if_pos hc] at hw
          cases depth with
          | zero => simp at hw
          | succ d =>
              simp only at hw
              obtain ⟨next, h1, h2, _, h4, _⟩ :=
                handle_onto event impl below hne (fun _ => by rw [hlen]; omega)
              obtain ⟨done, hd, hl, hb⟩ := ih d next hw (by have := h4 hc; omega)
              exact ⟨done, by simp only [md_parse, h1, hd], hl,
                by simp only [md_parse, h2, hb]⟩
        · rw [if_neg hc] at hw
          obtain ⟨next, h1, h2, _, _, h5⟩ :=
            handle_onto event impl below hne (fun h => absurd h hc)
          obtain ⟨done, hd, hl, hb⟩ := ih depth next hw (by
            rw [h5 (by simpa using ho) (by simpa using hc), hlen])
          exact ⟨done, by simp only [md_parse, h1, hd], hl, by simp only [md_parse, h2, hb]⟩

theorem md_parse_listItemGroup (d : MD_BLOCK_LI_DETAIL) (body : List Event)
    (hw : wellNested 0 body = true) :
    ∃ item,
      item.type = (if d.is_task ≠ 0 then NodeType.TaskListItem else NodeType.ListItem) ∧
      ∀ (parent : MarkdownNode) (rest : List MarkdownNode),
        md_parse (listItemGroup d body) { nodeStack := parent :: rest, currentText := [] } =
          some { nodeStack := parent.addChild item :: rest, currentText := [] } := by
  have henter : ∃ li : MarkdownNode,
      li.type = (if d.is_task ≠ 0 then NodeType.TaskListItem else NodeType.ListItem) ∧
      ∀ (parent : MarkdownNode) (rest : List MarkdownNode),
        Impl.enterBlock .MD_BLOCK_LI d { nodeStack := parent :: rest, currentText := [] } =
          some { nodeStack := li :: parent :: rest, currentText := [] } := by
    by_cases ht : d.is_task ≠ 0
    · refine ⟨{ MarkdownNode.new .TaskListItem with
          checked := some (decide (d.task_mark = 120 ∨ d.task_mark = 88)) }, ?_, ?_⟩
      · rw [if_pos ht]
        rfl
      · intro parent rest
        simp only [Impl.enterBlock, if_pos ht, Impl.pushNode, flushText_nil]
    · refine ⟨MarkdownNode.new .ListItem, ?_, ?_⟩
      · rw [if_neg ht]
        rfl
      · intro parent rest
        simp only [Impl.enterBlock, if_neg ht, Impl.pushNode, flushText_nil]
  obtain ⟨li, hli, hent⟩ := henter
  have hiso : ∃ done, md_parse body { nodeStack := [li], currentText := [] } = some done ∧
      bottomKind done.nodeStack = some li.type :=
    md_parse_bottomKind body _ li.type rfl
  obtain ⟨done, hd, hk⟩ := hiso
  have hrun : ∀ below, ∃ done2, md_parse body { nodeStack := [li], currentText := [] } =
      some done2 ∧ done2.nodeStack.length = 1 ∧
      md_parse body (Impl.onto { nodeStack := [li], currentText := [] } below) =
        some (done2.onto below) :=
    fun below => md_parse_onto body 0 _ below hw rfl
  obtain ⟨done2, hd2, hl, _⟩ := hrun []
  rw [hd] at hd2
  have hdd : done2 = done := (Option.some.inj hd2).symm
  subst hdd
  obtain ⟨stack, buffer⟩ := done2
  simp only at hl hk
  cases stack with
  | nil => simp at hl
  | cons li2 r =>
      cases r with
      | cons x y => simp at hl
      | nil =>
          simp only [bottomKind, Option.some.injEq] at hk
          have hfl := flushText_eq { nodeStack := [li2], currentText := buffer }
            (List.cons_ne_nil _ _)
          obtain ⟨item, r2, hf⟩ := hfl
          have hflen := flushText_length { nodeStack := [li2], currentText := buffer }
          rw [hf] at hflen
          simp only [List.length_cons, List.length_nil] at hflen
          have hr2 : r2 = [] := by
            cases r2 with
            | nil => rfl
            | cons a b => simp at hflen
          subst hr2
          have hkf := flushText_bottomKind { nodeStack := [li2], currentText := buffer }
          rw [hf] at hkf
          simp only [bottomKind, Option.some.injEq] at hkf
          refine ⟨item, by rw [hkf, hk, hli], ?_⟩
          intro parent rest
          obtain ⟨done3, hd3, _, hon⟩ := hrun (parent :: rest)
          rw [hd] at hd3
          have h3 : done3 = { nodeStack := [li2], currentText := buffer } :=
            (Option.some.inj hd3).symm
          subst h3
          have hpop : Impl.popNode
              (Impl.onto { nodeStack := [li2], currentText := buffer } (parent :: rest)) =
              { nodeStack := parent.addChild item :: rest, currentText := [] } := by
            have hfo := flushText_onto { nodeStack := [li2], currentText := buffer }
              (parent :: rest) (List.cons_ne_nil li2 [])
            unfold Impl.popNode
            simp only [hfo, hf]
            rfl
          have hon2 : md_parse body { nodeStack := li :: parent :: rest, currentText := [] } =
              some (Impl.onto { nodeStack := [li2], currentText := buffer } (parent :: rest)) :=
            hon
          have hleave : md_parse [Event.leaveBlock .MD_BLOCK_LI d]
              (Impl.onto { nodeStack := [li2], currentText := buffer } (parent :: rest)) =
              some { nodeStack := parent.addChild item :: rest, currentText := [] } := by
            simp only [md_parse, Impl.handle, Impl.leaveBlock, hpop]
          have hcons : md_parse (Event.enterBlock .MD_BLOCK_LI d :: body)
              { nodeStack := parent :: rest, currentText := [] } =
              md_parse body { nodeStack := li :: parent :: rest, currentText := [] } :=
            md_parse_cons _ _ _ _ (hent parent rest)
          rw [listItemGroup, md_parse_append, hcons, hon2, Option.some_bind, hleave]

theorem md_parse_listItemGroups (groups : List (MD_BLOCK_LI_DETAIL × List Event))
    (hw : ∀ g ∈ groups, wellNested 0 g.2 = true) :
    ∃ items : List MarkdownNode,
      List.Forall₂
        (fun (g : MD_BLOCK_LI_DETAIL × List Event) (item : MarkdownNode) =>
          item.type = (if g.1.is_task ≠ 0 then NodeType.TaskListItem else NodeType.ListItem) ∧
          md_parse (listItemGroup g.1 g.2)
              { nodeStack := [MarkdownNode.new .Document], currentText := [] } =
            some { nodeStack := [(MarkdownNode.new .Document).addChild item],
                   currentText := [] })
        groups items ∧
      ∀ (parent : MarkdownNode) (rest : List MarkdownNode),
        md_parse (listItemGroups groups) { nodeStack := parent :: rest, currentText := [] } =
          some { nodeStack := { parent with children := parent.children ++ items } :: rest,
                 currentText := [] } := by
  induction groups with
  | nil =>
      refine ⟨[], List.Forall₂.nil, ?_⟩
      intro parent rest
      cases parent
      simp [listItemGroups, md_parse]
  | cons g gs ih =>
      obtain ⟨item, hty, hg⟩ := md_parse_listItemGroup g.1 g.2 (hw g (List.mem_cons_self _ _))
      obtain ⟨items, hall, hgs⟩ := ih (fun x hx => hw x (List.mem_cons_of_mem _ hx))
      refine ⟨item :: items, List.Forall₂.cons ⟨hty, hg _ _⟩ hall, ?_⟩
      intro parent rest
      have hsplit : listItemGroups (g :: gs) = listItemGroup g.1 g.2 ++ listItemGroups gs := by
        simp [listItemGroups]
      rw [hsplit, md_parse_append, hg parent rest, Option.some_bind, hgs]
      simp [MarkdownNode.addChild]

/-! ## Lemmas: properties of kind and attributes that hold of every node -/

theorem allNodes_of_no_children (P : MarkdownNode → Prop) (node : MarkdownNode)
    (hc : node.children = []) (hp : P node) : AllNodes P node := by
  intro n hn
  rw [nodes_eq, hc] at hn
  simp [nodesOfList] at hn
  rw [hn]
  exact hp

theorem allNodes_self (P : MarkdownNode → Prop) (node : MarkdownNode) (h : AllNodes P node) :
    P node :=
  h node (by rw [nodes_eq]; exact List.mem_cons_self _ _)

theorem allNodes_child (P : MarkdownNode → Prop) (node c : MarkdownNode)
    (h : AllNodes P node) (hc : c ∈ node.children) : AllNodes P c := by
  intro n hn
  apply h
  rw [nodes_eq]
  exact List.mem_cons_of_mem _ ((mem_nodesOfList n _).mpr ⟨c, hc, hn⟩)

theorem allNodes_intro (P : MarkdownNode → Prop) (node : MarkdownNode) (hp : P node)
    (hc : ∀ c ∈ node.children, AllNodes P c) : AllNodes P node := by
  intro n hn
  rw [nodes_eq] at hn
  rcases List.mem_cons.mp hn with rfl | hn
  · exact hp
  · obtain ⟨c, hmem, hx⟩ := (mem_nodesOfList n _).mp hn
    exact hc c hmem n hx

theorem allNodes_addChild (P : MarkdownNode → Prop) (hP : Maintained P)
    (parent child : MarkdownNode) (hp : AllNodes P parent) (hc : AllNodes P child) :
    AllNodes P (parent.addChild child) := by
  apply allNodes_intro
  · exact hP.addChild _ _ (allNodes_self P parent hp)
  · intro c hmem
    simp only [MarkdownNode.addChild, List.mem_append, List.mem_singleton] at hmem
    rcases hmem with h | h
    · exact allNodes_child P parent c hp h
    · rw [h]
      exact hc

theorem allNodes_content (P : MarkdownNode → Prop) (hP : Maintained P) (node : MarkdownNode)
    (b : ByteString) (h : AllNodes P node) : AllNodes P { node with content := some b } :=
  allNodes_intro P _ (hP.content _ _ (allNodes_self P node h))
    (fun c hc => allNodes_child P node c h hc)

theorem allNodes_alt (P : MarkdownNode → Prop) (hP : Maintained P) (node : MarkdownNode)
    (b : ByteString) (h : AllNodes P node) : AllNodes P { node with alt := some b } :=
  allNodes_intro P _ (hP.alt _ _ (allNodes_self P node h))
    (fun c hc => allNodes_child P node c h hc)

theorem stackAll_cons (P : MarkdownNode → Prop) (top : MarkdownNode)
    (rest : List MarkdownNode) (buffer : ByteString) (ht : AllNodes P top)
    (hr : ∀ n ∈ rest, AllNodes P n) :
    StackAll P { nodeStack := top :: rest, currentText := buffer } :=
  ⟨List.cons_ne_nil _ _, fun n hn => by
    rcases List.mem_cons.mp hn with rfl | hn
    · exact ht
    · exact hr n hn⟩

theorem stackAll_flushText (P : MarkdownNode → Prop) (hP : Maintained P) (impl : Impl)
    (h : StackAll P impl) : StackAll P impl.flushText := by
  unfold Impl.flushText
  split
  · next _ _ top rest _ hs =>
      exact stackAll_cons P _ _ _
        (allNodes_addChild P hP _ _ (h.2 top (by rw [hs]; exact List.mem_cons_self _ _))
          (allNodes_of_no_children P _ rfl (hP.text _)))
        (fun n hn => h.2 n (by rw [hs]; exact List.mem_cons_of_mem _ hn))
  · exact h

theorem stackAll_pushNode (P : MarkdownNode → Prop) (hP : Maintained P) (impl : Impl)
    (node : MarkdownNode) (h : StackAll P impl) (hn : AllNodes P node) :
    StackAll P (impl.pushNode node) :=
  stackAll_cons P _ _ _ hn (stackAll_flushText P hP impl h).2

theorem stackAll_popNode (P : MarkdownNode → Prop) (hP : Maintained P) (impl : Impl)
    (h : StackAll P impl) : StackAll P impl.popNode := by
  have hf := stackAll_flushText P hP impl h
  unfold Impl.popNode
  simp only
  split
  · next node parent rest hs =>
      exact stackAll_cons P _ _ _
        (allNodes_addChild P hP _ _
          (hf.2 parent (by rw [hs]; exact List.mem_cons_of_mem _ (List.mem_cons_self _ _)))
          (hf.2 node (by rw [hs]; exact List.mem_cons_self _ _)))
        (fun n hn => hf.2 n
          (by rw [hs]; exact List.mem_cons_of_mem _ (List.mem_cons_of_mem _ hn)))
  · exact hf

theorem stackAll_topAddChild (P : MarkdownNode → Prop) (hP : Maintained P) (impl : Impl)
    (child : MarkdownNode) (h : StackAll P impl) (hc : AllNodes P child) :
    ∃ next, impl.topAddChild child = some next ∧ StackAll P next := by
  unfold Impl.topAddChild
  split
  · next top rest hs =>
      exact ⟨_, rfl, stackAll_cons P _ _ _
        (allNodes_addChild P hP _ _ (h.2 top (by rw [hs]; exact List.mem_cons_self _ _)) hc)
        (fun n hn => h.2 n (by rw [hs]; exact List.mem_cons_of_mem _ hn))⟩
  · next hs => exact absurd hs h.1

theorem stackAll_assignSpanText (P : MarkdownNode → Prop) (hP : Maintained P)
    (type : MD_SPANTYPE) (impl : Impl) (h : StackAll P impl) :
    StackAll P (impl.assignSpanText type) := by
  unfold Impl.assignSpanText
  split
  · next cur rest hs =>
      have hcur := h.2 cur (by rw [hs]; exact List.mem_cons_self _ _)
      have hrest : ∀ n ∈ rest, AllNodes P n :=
        fun n hn => h.2 n (by rw [hs]; exact List.mem_cons_of_mem _ hn)
      split
      · exact stackAll_cons P _ _ _ (allNodes_content P hP cur _ hcur) hrest
      · exact stackAll_cons P _ _ _ (allNodes_alt P hP cur _ hcur) hrest
      · exact h
  · exact h

theorem stackAll_push_container (P : MarkdownNode → Prop) (hP : Maintained P) (impl : Impl)
    (node : MarkdownNode) (h : StackAll P impl) (h0 : node.children = [])
    (h1 : node.content = none) (h2 : node.type ≠ .Text) (h3 : node.type ≠ .HtmlInline)
    (h4 : node.type ≠ .LineBreak) (h5 : node.type ≠ .SoftBreak) :
    StackAll P (impl.pushNode node) :=
  stackAll_pushNode P hP impl node h
    (allNodes_of_no_children P node h0 (hP.container node h1 h2 h3 h4 h5))

theorem stackAll_enterBlock (P : MarkdownNode → Prop) (hP : Maintained P)
    (type : MD_BLOCKTYPE) (detail : type.Detail) (impl : Impl) (h : StackAll P impl) :
    ∃ next, impl.enterBlock type detail = some next ∧ StackAll P next := by
  cases type <;> simp only [Impl.enterBlock]
  case MD_BLOCK_HR =>
    exact stackAll_topAddChild P hP _ _ (stackAll_flushText P hP impl h)
      (allNodes_of_no_children P _ rfl
        (hP.container _ rfl (by simp [MarkdownNode.new]) (by simp [MarkdownNode.new])
          (by simp [MarkdownNode.new]) (by simp [MarkdownNode.new])))
  case MD_BLOCK_LI =>
    split
    · exact ⟨_, rfl, stackAll_push_container P hP impl _ h rfl rfl (by simp [MarkdownNode.new])
        (by simp [MarkdownNode.new]) (by simp [MarkdownNode.new]) (by simp [MarkdownNode.new])⟩
    · exact ⟨_, rfl, stackAll_push_container P hP impl _ h rfl rfl (by simp [MarkdownNode.new])
        (by simp [MarkdownNode.new]) (by simp [MarkdownNode.new]) (by simp [MarkdownNode.new])⟩
  case MD_BLOCK_DOC => exact ⟨_, rfl, h⟩
  all_goals
    exact ⟨_, rfl, stackAll_push_container P hP impl _ h rfl rfl (by simp [MarkdownNode.new])
      (by simp [MarkdownNode.new]) (by simp [MarkdownNode.new]) (by simp [MarkdownNode.new])⟩

theorem stackAll_leaveBlock (P : MarkdownNode → Prop) (hP : Maintained P)
    (type : MD_BLOCKTYPE) (detail : type.Detail) (impl : Impl) (h : StackAll P impl) :
    StackAll P (impl.leaveBlock type detail) := by
  cases type <;> simp only [Impl.leaveBlock] <;>
    first | exact h | exact stackAll_popNode P hP _ h

theorem stackAll_enterSpan (P : MarkdownNode → Prop) (hP : Maintained P)
    (type : MD_SPANTYPE) (detail : type.Detail) (impl : Impl) (h : StackAll P impl) :
    StackAll P (impl.enterSpan type detail) := by
  cases type <;> simp only [Impl.enterSpan] <;>
    exact stackAll_push_container P hP impl _ h rfl rfl (by simp [MarkdownNode.new])
      (by simp [MarkdownNode.new]) (by simp [MarkdownNode.new]) (by simp [MarkdownNode.new])

theorem stackAll_leaveSpan (P : MarkdownNode → Prop) (hP : Maintained P)
    (type : MD_SPANTYPE) (detail : type.Detail) (impl : Impl) (h : StackAll P impl) :
    StackAll P (impl.leaveSpan type detail) :=
  stackAll_popNode P hP _ (stackAll_assignSpanText P hP type impl h)

theorem stackAll_text (P : MarkdownNode → Prop) (hP : Maintained P)
    (type : MD_TEXTTYPE) (text : Option ByteString) (impl : Impl) (h : StackAll P impl)
    (hbr : type = .MD_TEXT_BR → P (MarkdownNode.new .LineBreak))
    (hsoft : type = .MD_TEXT_SOFTBR → P (MarkdownNode.new .SoftBreak)) :
    ∃ next, impl.text type text = some next ∧ StackAll P next := by
  have hkeep : ∀ buffer, StackAll P { impl with currentText := buffer } :=
    fun _ => ⟨h.1, h.2⟩
  unfold Impl.text
  cases text with
  | none => exact ⟨_, rfl, h⟩
  | some bytes =>
      simp only
      split
      · exact ⟨_, rfl, h⟩
      · cases type <;> simp only
        case MD_TEXT_BR =>
          exact stackAll_topAddChild P hP _ _ (stackAll_flushText P hP impl h)
            (allNodes_of_no_children P _ rfl (hbr rfl))
        case MD_TEXT_SOFTBR =>
          exact stackAll_topAddChild P hP _ _ (stackAll_flushText P hP impl h)
            (allNodes_of_no_children P _ rfl (hsoft rfl))
        case MD_TEXT_HTML =>
          exact stackAll_topAddChild P hP _ _ (stackAll_flushText P hP impl h)
            (allNodes_of_no_children P _ rfl (hP.html bytes))
        all_goals exact ⟨_, rfl, hkeep _⟩

theorem stackAll_handle (P : MarkdownNode → Prop) (hP : Maintained P) (event : Event)
    (impl : Impl) (h : StackAll P impl)
    (hbr : event.isBreak = true →
      P (MarkdownNode.new .LineBreak) ∧ P (MarkdownNode.new .SoftBreak)) :
    ∃ next, impl.handle event = some next ∧ StackAll P next := by
  cases event with
  | enterBlock type detail => exact stackAll_enterBlock P hP type detail impl h
  | leaveBlock type detail => exact ⟨_, rfl, stackAll_leaveBlock P hP type detail impl h⟩
  | enterSpan type detail => exact ⟨_, rfl, stackAll_enterSpan P hP type detail impl h⟩
  | leaveSpan type detail => exact ⟨_, rfl, stackAll_leaveSpan P hP type detail impl h⟩
  | text type text =>
      exact stackAll_text P hP type text impl h
        (fun ht => (hbr (by rw [ht]; rfl)).1) (fun ht => (hbr (by rw [ht]; rfl)).2)

theorem stackAll_md_parse (P : MarkdownNode → Prop) (hP : Maintained P) (events : List Event)
    (impl : Impl) (h : StackAll P impl)
    (hbr : ∀ e ∈ events, e.isBreak = true →
      P (MarkdownNode.new .LineBreak) ∧ P (MarkdownNode.new .SoftBreak)) :
    ∃ done, md_parse events impl = some done ∧ StackAll P done := by
  induction events generalizing impl with
  | nil => exact ⟨impl, rfl, h⟩
  | cons event events ih =>
      obtain ⟨next, hn, hok⟩ :=
        stackAll_handle P hP event impl h (hbr event (List.mem_cons_self _ _))
      obtain ⟨done, hd, hdone⟩ := ih next hok (fun e he => hbr e (List.mem_cons_of_mem _ he))
      exact ⟨done, by simp only [md_parse, hn, hd], hdone⟩

theorem allNodes_attachOpen (P : MarkdownNode → Prop) (hP : Maintained P) (top : MarkdownNode)
    (rest : List MarkdownNode) (ht : AllNodes P top) (hr : ∀ n ∈ rest, AllNodes P n) :
    AllNodes P (attachOpen top rest) := by
  induction rest generalizing top with
  | nil => exact ht
  | cons parent lower ih =>
      exact ih (parent.addChild top)
        (allNodes_addChild P hP _ _ (hr parent (List.mem_cons_self _ _)) ht)
        (fun n hn => hr n (List.mem_cons_of_mem _ hn))

theorem allNodes_parse (P : MarkdownNode → Prop) (hP : Maintained P) (impl : Impl)
    (events : List Event)
    (hbr : ∀ e ∈ events, e.isBreak = true →
      P (MarkdownNode.new .LineBreak) ∧ P (MarkdownNode.new .SoftBreak)) :
    ∃ root final, MD4CParser.parse impl events = some (root, final) ∧ AllNodes P root := by
  have hreset : StackAll P impl.reset :=
    stackAll_cons P _ _ _
      (allNodes_of_no_children P _ rfl
        (hP.container _ rfl (by simp [MarkdownNode.new]) (by simp [MarkdownNode.new])
          (by simp [MarkdownNode.new]) (by simp [MarkdownNode.new])))
      (fun n hn => absurd hn (List.not_mem_nil _))
  obtain ⟨done, hd, hok⟩ := stackAll_md_parse P hP events impl.reset hreset hbr
  have hf := stackAll_flushText P hP done hok
  cases hs : done.flushText.nodeStack with
  | nil => exact absurd hs hf.1
  | cons top rest =>
      refine ⟨attachOpen top rest, done.flushText, ?_, ?_⟩
      · simp only [MD4CParser.parse, hd, Impl.root, hs]
      · exact allNodes_attachOpen P hP top rest
          (hf.2 top (by rw [hs]; exact List.mem_cons_self _ _))
          (fun n hn => hf.2 n (by rw [hs]; exact List.mem_cons_of_mem _ hn))

/-! ## Lemmas: adjacent text children -/

theorem treeTextsApart_of_frame (node : MarkdownNode) (h : FrameApart node) :
    TreeTextsApart node := by
  intro n hn
  rw [nodes_eq] at hn
  rcases List.mem_cons.mp hn with rfl | hn
  · exact h.2.1
  · obtain ⟨c, hc, hx⟩ := (mem_nodesOfList n _).mp hn
    exact h.2.2 c hc n hx

theorem treeTextsApart_of_no_children (node : MarkdownNode) (h : node.children = []) :
    TreeTextsApart node := by
  intro n hn
  rw [nodes_eq, h] at hn
  simp [nodesOfList] at hn
  rw [hn, h]
  exact List.chain'_nil

theorem frameApart_addChild_text (node : MarkdownNode) (buffer : ByteString)
    (h : FrameApart node) (he : EndsOpen node) :
    FrameApart (node.addChild { MarkdownNode.new .Text with content := some buffer }) := by
  refine ⟨h.1, ?_, ?_⟩
  · refine List.Chain'.append h.2.1 (List.chain'_singleton _) ?_
    intro x hx y _ hboth
    exact he x hx hboth.1
  · intro c hmem
    simp only [MarkdownNode.addChild, List.mem_append, List.mem_singleton] at hmem
    rcases hmem with hm | hm
    · exact h.2.2 c hm
    · rw [hm]
      exact treeTextsApart_of_no_children _ rfl

theorem frameApart_addChild_other (node child : MarkdownNode) (h : FrameApart node)
    (hk : child.type ≠ .Text) (ht : TreeTextsApart child) :
    FrameApart (node.addChild child) ∧ EndsOpen (node.addChild child) := by
  refine ⟨⟨h.1, ?_, ?_⟩, ?_⟩
  · refine List.Chain'.append h.2.1 (List.chain'_singleton _) ?_
    intro x _ y hy hboth
    simp only [List.head?_cons, Option.mem_def, Option.some.injEq] at hy
    rw [← hy] at hboth
    exact hk hboth.2
  · intro c hmem
    simp only [MarkdownNode.addChild, List.mem_append, List.mem_singleton] at hmem
    rcases hmem with hm | hm
    · exact h.2.2 c hm
    · rw [hm]
      exact ht
  · intro x hx
    simp only [MarkdownNode.addChild, List.getLast?_concat, Option.mem_def,
      Option.some.injEq] at hx
    rw [← hx]
    exact hk

theorem apartOk_flushText (impl : Impl) (h : ApartOk impl) :
    ∃ top rest, impl.flushText = { nodeStack := top :: rest, currentText := [] } ∧
      FrameApart top ∧ (∀ node ∈ rest, FrameApart node) ∧
      (impl.currentText = [] → EndsOpen top) ∧
      rest.length + 1 = impl.nodeStack.length := by
  obtain ⟨top, rest, hs, ht, he, hr⟩ := h
  obtain ⟨stack, buffer⟩ := impl
  simp only at hs
  subst hs
  cases buffer with
  | nil => exact ⟨top, rest, rfl, ht, hr, fun _ => he, rfl⟩
  | cons b bs =>
      exact ⟨_, rest, rfl, frameApart_addChild_text top (b :: bs) ht he, hr,
        fun hb => (by cases hb), rfl⟩

theorem endsOpen_of_no_children (node : MarkdownNode) (h : node.children = []) :
    EndsOpen node := by
  intro x hx
  rw [h] at hx
  cases hx

theorem apartOk_pushNode (impl : Impl) (node : MarkdownNode) (h : ApartOk impl)
    (hk : node.type ≠ .Text) (hc : node.children = []) : ApartOk (impl.pushNode node) := by
  obtain ⟨top, rest, hf, ht, hr, _, _⟩ := apartOk_flushText impl h
  refine ⟨node, top :: rest, by simp only [Impl.pushNode, hf], ?_, ?_, ?_⟩
  · refine ⟨hk, by rw [TextsApart, hc]; exact List.chain'_nil, ?_⟩
    intro c hmem
    rw [hc] at hmem
    cases hmem
  · exact endsOpen_of_no_children node hc
  · intro n hn
    rcases List.mem_cons.mp hn with rfl | hn
    · exact ht
    · exact hr n hn

theorem apartOk_popNode (impl : Impl) (h : ApartOk impl) (hlen : 2 ≤ impl.nodeStack.length) :
    ApartOk impl.popNode := by
  obtain ⟨top, rest, hf, ht, hr, _, hl⟩ := apartOk_flushText impl h
  cases rest with
  | nil => simp at hl; omega
  | cons parent lower =>
      have hp := frameApart_addChild_other parent top (hr parent (List.mem_cons_self _ _))
        ht.1 (treeTextsApart_of_frame top ht)
      refine ⟨parent.addChild top, lower, by simp only [Impl.popNode, hf], hp.1, hp.2, ?_⟩
      intro n hn
      exact hr n (List.mem_cons_of_mem _ hn)

theorem apartOk_flush_topAddChild (impl : Impl) (child : MarkdownNode) (h : ApartOk impl)
    (hk : child.type ≠ .Text) (hc : child.children = []) :
    ∃ next, impl.flushText.topAddChild child = some next ∧ ApartOk next := by
  obtain ⟨top, rest, hf, ht, hr, _, _⟩ := apartOk_flushText impl h
  have hp := frameApart_addChild_other top child ht hk (treeTextsApart_of_no_children child hc)
  exact ⟨{ nodeStack := top.addChild child :: rest, currentText := [] },
    by rw [hf]; rfl, top.addChild child, rest, rfl, hp.1, hp.2, hr⟩

theorem apartOk_assignSpanText (type : MD_SPANTYPE) (impl : Impl) (h : ApartOk impl) :
    ApartOk (impl.assignSpanText type) := by
  obtain ⟨top, rest, hs, ht, he, hr⟩ := h
  obtain ⟨stack, buffer⟩ := impl
  simp only at hs
  subst hs
  cases type <;>
    first
    | exact ⟨top, rest, rfl, ht, he, hr⟩
    | exact ⟨_, rest, rfl, ht, he, hr⟩

theorem assignSpanText_length (type : MD_SPANTYPE) (impl : Impl) :
    (impl.assignSpanText type).nodeStack.length = impl.nodeStack.length := by
  obtain ⟨stack, buffer⟩ := impl
  cases stack with
  | nil => rfl
  | cons top rest => cases type <;> rfl

theorem apartOk_handle (event : Event) (impl : Impl) (h : ApartOk impl)
    (hc : event.closes = true → 2 ≤ impl.nodeStack.length) :
    ∃ next, impl.handle event = some next ∧ ApartOk next := by
  have hkeep : ∀ buffer, ApartOk { impl with currentText := buffer } := by
    intro buffer
    obtain ⟨top, rest, hs, ht, he, hr⟩ := h
    exact ⟨top, rest, hs, ht, he, hr⟩
  cases event with
  | enterBlock type detail =>
      cases type <;> simp only [Impl.handle, Impl.enterBlock]
      case MD_BLOCK_DOC => exact ⟨impl, rfl, h⟩
      case MD_BLOCK_HR =>
        exact apartOk_flush_topAddChild impl _ h (by simp [MarkdownNode.new]) rfl
      case MD_BLOCK_LI =>
        split
        · exact ⟨_, rfl, apartOk_pushNode impl _ h (by simp [MarkdownNode.new]) rfl⟩
        · exact ⟨_, rfl, apartOk_pushNode impl _ h (by simp [MarkdownNode.new]) rfl⟩
      all_goals exact ⟨_, rfl, apartOk_pushNode impl _ h (by simp [MarkdownNode.new]) rfl⟩
  | leaveBlock type detail =>
      cases type <;> simp only [Impl.handle, Impl.leaveBlock]
      case MD_BLOCK_DOC => exact ⟨impl, rfl, h⟩
      case MD_BLOCK_HR => exact ⟨impl, rfl, h⟩
      all_goals exact ⟨_, rfl, apartOk_popNode impl h (hc (by simp [Event.closes]))⟩
  | enterSpan type detail =>
      cases type <;> simp only [Impl.handle, Impl.enterSpan] <;>
        exact ⟨_, rfl, apartOk_pushNode impl _ h (by simp [MarkdownNode.new]) rfl⟩
  | leaveSpan type detail =>
      refine ⟨_, rfl, apartOk_popNode _ (apartOk_assignSpanText type impl h) ?_⟩
      rw [assignSpanText_length]
      exact hc (by simp [Event.closes])
  | text type text =>
      simp only [Impl.handle, Impl.text]
      cases text with
      | none => exact ⟨impl, rfl, h⟩
      | some bytes =>
          simp only
          split
          · exact ⟨impl, rfl, h⟩
          · cases type <;> simp only
            case MD_TEXT_BR =>
              exact apartOk_flush_topAddChild impl _ h (by simp [MarkdownNode.new]) rfl
            case MD_TEXT_SOFTBR =>
              exact apartOk_flush_topAddChild impl _ h (by simp [MarkdownNode.new]) rfl
            case MD_TEXT_HTML =>
              exact apartOk_flush_topAddChild impl _ h (by simp [MarkdownNode.new]) rfl
            all_goals exact ⟨_, rfl, hkeep _⟩

theorem apartOk_md_parse (events : List Event) (depth : Nat) (impl : Impl)
    (hn : noStrayClose depth events = true) (hlen : impl.nodeStack.length = depth + 1)
    (h : ApartOk impl) : ∃ done, md_parse events impl = some done ∧ ApartOk done := by
  induction events generalizing depth impl with
  | nil => exact ⟨impl, rfl, h⟩
  | cons event events ih =>
      have hne : impl.nodeStack ≠ [] := by
        intro e
        rw [e] at hlen
        simp at hlen
      simp only [noStrayClose] at hn
      by_cases ho : event.opens = true
      · rw [if_pos ho] at hn
        have hnc : event.closes = true → 2 ≤ impl.nodeStack.length := by
          intro hc
          cases event with
          | enterBlock type detail => cases type <;> simp [Event.closes] at hc
          | enterSpan type detail => simp [Event.closes] at hc
          | leaveBlock type detail => cases type <;> simp [Event.opens] at ho
          | leaveSpan type detail => simp [Event.opens] at ho
          | text type text => simp [Event.opens] at ho
        obtain ⟨next, h1, _, h3, _, _⟩ := handle_onto event impl [] hne hnc
        obtain ⟨next2, h1b, hok⟩ := apartOk_handle event impl h hnc
        rw [h1] at h1b
        cases h1b
        obtain ⟨done, hd, hdone⟩ := ih (depth + 1) next hn (by rw [h3 ho, hlen]) hok
        exact ⟨done, by simp only [md_parse, h1, hd], hdone⟩
      · rw [if_neg ho] at hn
        by_cases hc : event.closes = true
        · rw [if_pos hc] at hn
          cases depth with
          | zero => simp at hn
          | succ d =>
              simp only at hn
              have hnc : event.closes = true → 2 ≤ impl.nodeStack.length :=
                fun _ => by rw [hlen]; omega
              obtain ⟨next, h1, _, _, h4, _⟩ := handle_onto event impl [] hne hnc
              obtain ⟨next2, h1b, hok⟩ := apartOk_handle event impl h hnc
              rw [h1] at h1b
              cases h1b
              obtain ⟨done, hd, hdone⟩ := ih d next hn (by have := h4 hc; omega) hok
              exact ⟨done, by simp only [md_parse, h1, hd], hdone⟩
        · rw [if_neg hc] at hn
          have hnc : event.closes = true → 2 ≤ impl.nodeStack.length := fun hx => absurd hx hc
          obtain ⟨next, h1, _, _, _, h5⟩ := handle_onto event impl [] hne hnc
          obtain ⟨next2, h1b, hok⟩ := apartOk_handle event impl h hnc
          rw [h1] at h1b
          cases h1b
          obtain ⟨done, hd, hdone⟩ := ih depth next hn
            (by rw [h5 (by simpa using ho) (by simpa using hc), hlen]) hok
          exact ⟨done, by simp only [md_parse, h1, hd], hdone⟩

theorem treeTextsApart_attachOpen (top : MarkdownNode) (rest : List MarkdownNode)
    (ht : FrameApart top) (hr : ∀ n ∈ rest, FrameApart n) :
    TreeTextsApart (attachOpen top rest) := by
  induction rest generalizing top with
  | nil => exact treeTextsApart_of_frame top ht
  | cons parent lower ih =>
      exact ih (parent.addChild top)
        (frameApart_addChild_other parent top (hr parent (List.mem_cons_self _ _)) ht.1
          (treeTextsApart_of_frame top ht)).1
        (fun n hn => hr n (List.mem_cons_of_mem _ hn))

/-! ## Lemmas: the serializer -/

theorem childrenToJson_succ (i : Nat) (children : List MarkdownNode) :
    childrenToJson (i + 1) children =
      (children.map fun c => ascii "," ++ nodeToJson c).flatten := by
  induction children generalizing i with
  | nil => simp [childrenToJson]
  | cons c cs ih =>
      rw [childrenToJson, ih (i + 1)]
      simp

theorem intercalate_cons (sep x : ByteString) (xs : List ByteString) :
    sep.intercalate (x :: xs) = x ++ (xs.map fun y => sep ++ y).flatten := by
  induction xs generalizing x with
  | nil => simp [List.intercalate]
  | cons y ys ih =>
      have h := ih y
      simp only [List.intercalate, List.intersperse, List.flatten_cons, List.map_cons] at h ⊢
      rw [h]
      simp

theorem childrenToJson_zero (children : List MarkdownNode) :
    childrenToJson 0 children = (ascii ",").intercalate (children.map nodeToJson) := by
  cases children with
  | nil => simp [childrenToJson, List.intercalate]
  | cons c cs =>
      rw [childrenToJson, childrenToJson_succ, List.map_cons, intercalate_cons, List.map_map]
      simp only [Nat.lt_irrefl, gt_iff_lt, if_false, List.nil_append]
      rfl

theorem stringField_eq (label : ByteString) (key : String)
    (hl : label = ascii ",\"" ++ ascii key ++ ascii "\":" ++ ascii "\"")
    (value : Option ByteString) :
    stringField label value =
      ((value.map fun v => (key, quoted v)).toList.map renderField).flatten := by
  cases value with
  | none => rfl
  | some v => simp [stringField, renderField, quoted, hl]

theorem intField_eq (label : ByteString) (key : String)
    (hl : label = ascii ",\"" ++ ascii key ++ ascii "\":") (value : Option Int) :
    intField label value =
      ((value.map fun v => (key, intToJson v)).toList.map renderField).flatten := by
  cases value with
  | none => rfl
  | some v => simp [intField, renderField, hl]

theorem boolField_eq (label : ByteString) (key : String)
    (hl : label = ascii ",\"" ++ ascii key ++ ascii "\":") (value : Option Bool) :
    boolField label value =
      ((value.map fun v => (key, boolToJson v)).toList.map renderField).flatten := by
  cases value with
  | none => rfl
  | some v => simp [boolField, renderField, hl]

theorem alignField_eq (value : Option TextAlign) :
    alignField value =
      (((value.bind alignName).map fun name =>
        ("align", ascii "\"" ++ ascii name ++ ascii "\"")).toList.map renderField).flatten := by
  cases value with
  | none => rfl
  | some a => cases a <;> rfl

theorem nodeToJson_fields (n : MarkdownNode) :
    nodeToJson n =
      ascii "\x7b\"type\":\"" ++ nodeTypeToString n.type ++ ascii "\"" ++
        ((jsonFields n).map renderField).flatten ++ ascii "\x7d" := by
  obtain ⟨type, content, level, href, title, alt, language, ordered, start, checked,
    isHeader, align, children⟩ := n
  have hc : (if children.isEmpty then []
        else ascii ",\"children\":[" ++ childrenToJson 0 children ++ ascii "]") =
      ((if children.isEmpty then []
        else [("children",
          ascii "[" ++ (ascii ",").intercalate (children.map nodeToJson) ++
            ascii "]")]).map renderField).flatten := by
    cases children with
    | nil => rfl
    | cons c cs =>
        rw [childrenToJson_zero]
        simp only [List.isEmpty_cons, Bool.false_eq_true, if_false, List.map_cons, List.map_nil,
          List.flatten_cons, List.flatten_nil, renderField, List.append_nil]
        have hk : ascii ",\"children\":[" = ascii ",\"" ++ ascii "children" ++ ascii "\":" ++
            ascii "[" := by rfl
        rw [hk]
        simp only [List.append_assoc]
  rw [nodeToJson, hc,
    stringField_eq _ "content" (by rfl) content, intField_eq _ "level" (by rfl) level,
    stringField_eq _ "href" (by rfl) href, stringField_eq _ "title" (by rfl) title,
    stringField_eq _ "alt" (by rfl) alt, stringField_eq _ "language" (by rfl) language,
    boolField_eq _ "ordered" (by rfl) ordered, intField_eq _ "start" (by rfl) start,
    boolField_eq _ "checked" (by rfl) checked, boolField_eq _ "isHeader" (by rfl) isHeader,
    alignField_eq align]
  have hb : ascii "\x7b\"type\":\"" = ascii "\x7b" ++ ascii "\"type\":\"" := by rfl
  simp only [jsonFields, List.map_append, List.flatten_append, List.append_assoc, hb]

theorem keys_toList_sublist {α : Type} (key : String) (f : α → ByteString)
    (value : Option α) :
    ((value.map fun v => (key, f v)).toList.map Prod.fst).Sublist [key] := by
  cases value with
  | none => simp
  | some v => simp

theorem jsonFields_keys_sublist (n : MarkdownNode) :
    ((jsonFields n).map Prod.fst).Sublist keyOrder := by
  have hsplit : keyOrder = ["content"] ++ ["level"] ++ ["href"] ++ ["title"] ++ ["alt"] ++
      ["language"] ++ ["ordered"] ++ ["start"] ++ ["checked"] ++ ["isHeader"] ++ ["align"] ++
      ["children"] := rfl
  rw [hsplit]
  simp only [jsonFields, List.map_append]
  refine List.Sublist.append (List.Sublist.append (List.Sublist.append (List.Sublist.append
    (List.Sublist.append (List.Sublist.append (List.Sublist.append (List.Sublist.append
    (List.Sublist.append (List.Sublist.append (List.Sublist.append ?_ ?_) ?_) ?_) ?_) ?_) ?_)
    ?_) ?_) ?_) ?_) ?_
  · exact keys_toList_sublist "content" quoted n.content
  · exact keys_toList_sublist "level" intToJson n.level
  · exact keys_toList_sublist "href" quoted n.href
  · exact keys_toList_sublist "title" quoted n.title
  · exact keys_toList_sublist "alt" quoted n.alt
  · exact keys_toList_sublist "language" quoted n.language
  · exact keys_toList_sublist "ordered" boolToJson n.ordered
  · exact keys_toList_sublist "start" intToJson n.start
  · exact keys_toList_sublist "checked" boolToJson n.checked
  · exact keys_toList_sublist "isHeader" boolToJson n.isHeader
  · exact keys_toList_sublist "align" (fun name => ascii "\"" ++ ascii name ++ ascii "\"")
      (n.align.bind alignName)
  · cases n.children with
    | nil => simp
    | cons c cs => simp

theorem mem_keys_toList {α : Type} (key other : String) (f : α → ByteString)
    (value : Option α) :
    key ∈ (value.map fun v => (other, f v)).toList.map Prod.fst ↔
      key = other ∧ value ≠ none := by
  cases value with
  | none => simp
  | some v => simp

theorem mem_jsonFields_keys (n : MarkdownNode) (key : String) :
    key ∈ (jsonFields n).map Prod.fst ↔
      (key = "content" ∧ n.content ≠ none) ∨ (key = "level" ∧ n.level ≠ none) ∨
      (key = "href" ∧ n.href ≠ none) ∨ (key = "title" ∧ n.title ≠ none) ∨
      (key = "alt" ∧ n.alt ≠ none) ∨ (key = "language" ∧ n.language ≠ none) ∨
      (key = "ordered" ∧ n.ordered ≠ none) ∨ (key = "start" ∧ n.start ≠ none) ∨
      (key = "checked" ∧ n.checked ≠ none) ∨ (key = "isHeader" ∧ n.isHeader ≠ none) ∨
      (key = "align" ∧ n.align.bind alignName ≠ none) ∨
      (key = "children" ∧ n.children ≠ []) := by
  have hchildren : key ∈ (if n.children.isEmpty then []
      else [("children",
        ascii "[" ++ (ascii ",").intercalate (n.children.map nodeToJson) ++
          ascii "]")]).map Prod.fst ↔ key = "children" ∧ n.children ≠ [] := by
    cases n.children with
    | nil => simp
    | cons c cs => simp
  simp only [jsonFields, List.map_append, List.mem_append, mem_keys_toList, hchildren,
    or_assoc]

set_option maxRecDepth 100000 in
theorem escapeJsonChar_eq_spec : ∀ c : Byte, escapeJsonChar c = escapeByteSpec c := by
  decide

/-! ## Lemmas: the effect of single callbacks -/

theorem bottomKind_eq_getLast (stack : List MarkdownNode) :
    bottomKind stack = stack.getLast?.map MarkdownNode.type := by
  induction stack with
  | nil => rfl
  | cons a rest ih =>
      cases rest with
      | nil => rfl
      | cons b lower =>
          rw [List.getLast?_cons_cons, ← ih]
          rfl

theorem flushText_stack (top : MarkdownNode) (rest : List MarkdownNode)
    (buffer : ByteString) :
    Impl.flushText { nodeStack := top :: rest, currentText := buffer } =
      { nodeStack :=
          (if buffer = [] then top
            else top.addChild ⟨.Text, some buffer, none, none, none, none, none, none, none,
              none, none, none, []⟩) :: rest,
        currentText := [] } := by
  cases buffer with
  | nil => rfl
  | cons b bs => rfl

/-! ## Lemmas: decoding escaped strings -/

theorem jsonUnescape_plain (c : Byte) (rest : ByteString) (hc : ¬c.val = 0x5C)
    (hq : ¬(c.val = 0x22 ∨ c.val < 0x20)) :
    jsonUnescape (c :: rest) = (jsonUnescape rest).map (fun tail => c :: tail) := by
  rw [jsonUnescape.eq_def]
  simp only [if_neg hc, if_neg hq]
  cases jsonUnescape rest <;> rfl

theorem jsonUnescape_simple (c e : Byte) (rest : ByteString) (hc : c.val = 0x5C)
    (he : ¬e.val = 0x75) :
    jsonUnescape (c :: e :: rest) =
      (simpleEscape e).bind fun b => (jsonUnescape rest).map (fun tail => b :: tail) := by
  rw [jsonUnescape.eq_def]
  simp only [if_pos hc, if_neg he]
  cases simpleEscape e <;> cases jsonUnescape rest <;> rfl

theorem jsonUnescape_unicode (c e h1 h2 h3 h4 : Byte) (rest : ByteString)
    (hc : c.val = 0x5C) (he : e.val = 0x75) :
    jsonUnescape (c :: e :: h1 :: h2 :: h3 :: h4 :: rest) =
      (hexDigitValue h1).bind fun d1 => (hexDigitValue h2).bind fun d2 =>
        (hexDigitValue h3).bind fun d3 => (hexDigitValue h4).bind fun d4 =>
          (utf8Encode (((d1 * 16 + d2) * 16 + d3) * 16 + d4)).bind fun bytes =>
            (jsonUnescape rest).map (fun tail => bytes ++ tail) := by
  rw [jsonUnescape.eq_def]
  simp only [if_pos hc, if_pos he]
  cases hexDigitValue h1 <;> cases hexDigitValue h2 <;> cases hexDigitValue h3 <;>
    cases hexDigitValue h4 <;> try rfl
  simp only [Option.some_bind]
  cases utf8Encode _ <;> cases jsonUnescape rest <;> rfl

theorem jsonUnescape_cut (c e : Byte) (rest : ByteString) (hc : c.val = 0x5C)
    (he : e.val = 0x75) (hlen : rest.length < 4) : jsonUnescape (c :: e :: rest) = none := by
  rw [jsonUnescape.eq_def]
  simp only [if_pos hc, if_pos he]
  match rest, hlen with
  | [], _ => rfl
  | [_], _ => rfl
  | [_, _], _ => rfl
  | [_, _, _], _ => rfl
  | _ :: _ :: _ :: _ :: _, hlen => simp at hlen; omega

theorem jsonUnescape_append_aux (b : ByteString) :
    ∀ (n : Nat) (a x : ByteString), a.length ≤ n → jsonUnescape a = some x →
      jsonUnescape (a ++ b) = (jsonUnescape b).map (fun tail => x ++ tail) := by
  intro n
  induction n with
  | zero =>
      intro a x hlen h
      have ha : a = [] := List.length_eq_zero.mp (Nat.le_zero.mp hlen)
      subst ha
      simp only [jsonUnescape, Option.some.injEq] at h
      subst h
      rw [List.nil_append]
      cases jsonUnescape b <;> rfl
  | succ n ih =>
      intro a x hlen h
      cases a with
      | nil =>
          simp only [jsonUnescape, Option.some.injEq] at h
          subst h
          rw [List.nil_append]
          cases jsonUnescape b <;> rfl
      | cons c rest =>
          simp only [List.length_cons] at hlen
          by_cases hc : c.val = 0x5C
          · cases rest with
            | nil => simp [jsonUnescape, hc] at h
            | cons e rest2 =>
                simp only [List.length_cons] at hlen
                by_cases he : e.val = 0x75
                · by_cases hshort : rest2.length < 4
                  · rw [jsonUnescape_cut c e rest2 hc he hshort] at h
                    cases h
                  · obtain ⟨h1, h2, h3, h4, rest3, hr⟩ :
                        ∃ h1 h2 h3 h4 rest3, rest2 = h1 :: h2 :: h3 :: h4 :: rest3 := by
                      match rest2, hshort with
                      | [], hshort => simp at hshort
                      | [_], hshort => simp at hshort
                      | [_, _], hshort => simp at hshort
                      | [_, _, _], hshort => simp at hshort
                      | a1 :: a2 :: a3 :: a4 :: r, _ => exact ⟨a1, a2, a3, a4, r, rfl⟩
                    subst hr
                    rw [jsonUnescape_unicode c e h1 h2 h3 h4 rest3 hc he] at h
                    simp only [List.cons_append]
                    rw [jsonUnescape_unicode c e h1 h2 h3 h4 (rest3 ++ b) hc he]
                    cases hd1 : hexDigitValue h1 <;> rw [hd1] at h <;>
                      try (simp at h; done)
                    cases hd2 : hexDigitValue h2 <;> rw [hd2] at h <;>
                      try (simp at h; done)
                    cases hd3 : hexDigitValue h3 <;> rw [hd3] at h <;>
                      try (simp at h; done)
                    cases hd4 : hexDigitValue h4 <;> rw [hd4] at h <;>
                      try (simp at h; done)
                    simp only [Option.some_bind] at h ⊢
                    cases hu : utf8Encode _ <;> rw [hu] at h <;> try (simp at h; done)
                    simp only [Option.some_bind] at h ⊢
                    cases ht : jsonUnescape rest3 <;> rw [ht] at h <;>
                      try (simp at h; done)
                    simp only [Option.map_some', Option.some.injEq] at h
                    subst h
                    rw [ih rest3 _ (by simp only [List.length_cons] at hlen; omega) ht]
                    cases jsonUnescape b <;> simp
                · rw [jsonUnescape_simple c e rest2 hc he] at h
                  simp only [List.cons_append]
                  rw [jsonUnescape_simple c e (rest2 ++ b) hc he]
                  cases hs : simpleEscape e <;> rw [hs] at h <;> try (simp at h; done)
                  simp only [Option.some_bind] at h ⊢
                  cases ht : jsonUnescape rest2 <;> rw [ht] at h <;> try (simp at h; done)
                  simp only [Option.map_some', Option.some.injEq] at h
                  subst h
                  rw [ih rest2 _ (by omega) ht]
                  cases jsonUnescape b <;> simp
          · by_cases hq : c.val = 0x22 ∨ c.val < 0x20
            · rw [jsonUnescape.eq_def] at h
              simp only [if_neg hc, if_pos hq] at h
              cases h
            · rw [jsonUnescape_plain c rest hc hq] at h
              simp only [List.cons_append]
              rw [jsonUnescape_plain c (rest ++ b) hc hq]
              cases ht : jsonUnescape rest <;> rw [ht] at h <;> try (simp at h; done)
              simp only [Option.map_some', Option.some.injEq] at h
              subst h
              rw [ih rest _ (by omega) ht]
              cases jsonUnescape b <;> simp

theorem jsonUnescape_append (a b x : ByteString) (h : jsonUnescape a = some x) :
    jsonUnescape (a ++ b) = (jsonUnescape b).map (fun tail => x ++ tail) :=
  jsonUnescape_append_aux b a.length a x (Nat.le_refl _) h

set_option maxRecDepth 100000 in
theorem jsonUnescape_escapeJsonChar : ∀ c : Byte, jsonUnescape (escapeJsonChar c) = some [c] := by
  decide

theorem jsonUnescape_escapeJson (s : ByteString) : jsonUnescape (escapeJson s) = some s := by
  induction s with
  | nil => rfl
  | cons c rest ih =>
      rw [escapeJson, jsonUnescape_append _ _ _ (jsonUnescape_escapeJsonChar c), ih]
      rfl

theorem digitChar_toNat : ∀ k, k < 10 → (Nat.digitChar k).toNat = 48 + k := by
  decide

/-- The decimal digits that `Nat.toDigitsCore` puts before the accumulator:
all are digits, zero gives the single digit `0`, and a positive number starts
with a digit that is not `0`. -/
theorem toDigitsCore_decimal (fuel : Nat) : ∀ (n : Nat) (acc : List Char), n < fuel →
    ∃ ds, Nat.toDigitsCore 10 fuel n acc = ds ++ acc ∧
      (∀ c ∈ ds, 48 ≤ c.toNat ∧ c.toNat ≤ 57) ∧ (n = 0 → ds = ['0']) ∧
      (0 < n → ∃ d rest, ds = d :: rest ∧ 49 ≤ d.toNat ∧ d.toNat ≤ 57) := by
  induction fuel with
  | zero => intro n acc h; omega
  | succ fuel ih =>
      intro n acc h
      have hd := digitChar_toNat (n % 10) (Nat.mod_lt _ (by decide))
      by_cases hz : n / 10 = 0
      · refine ⟨[Nat.digitChar (n % 10)], ?_, ?_, ?_, ?_⟩
        · simp [Nat.toDigitsCore, hz]
        · intro c hc
          rw [List.mem_singleton] at hc
          subst hc
          omega
        · intro h0
          subst h0
          rfl
        · intro hpos
          refine ⟨Nat.digitChar (n % 10), [], rfl, ?_, ?_⟩ <;> omega
      · obtain ⟨ds, hds, hall, _, hpos⟩ :=
          ih (n / 10) (Nat.digitChar (n % 10) :: acc) (by omega)
        obtain ⟨d, rest, hdr, hlo, hhi⟩ := hpos (by omega)
        refine ⟨ds ++ [Nat.digitChar (n % 10)], ?_, ?_, ?_, ?_⟩
        · simp [Nat.toDigitsCore, hz, hds]
        · intro c hc
          rcases List.mem_append.mp hc with hc | hc
          · exact hall c hc
          · rw [List.mem_singleton] at hc
            subst hc
            omega
        · intro h0
          omega
        · intro _
          exact ⟨d, rest ++ [Nat.digitChar (n % 10)], by rw [hdr]; rfl, hlo, hhi⟩

theorem ascii_digit (c : Char) (h : 48 ≤ c.toNat ∧ c.toNat ≤ 57) :
    ((Fin.ofNat c.toNat : Byte)).val = c.toNat := by
  show c.toNat % 256 = c.toNat
  omega

theorem ascii_append (a b : String) : ascii (a ++ b) = ascii a ++ ascii b := by
  simp [ascii, String.toList, String.data_append]

/-- The decimal text of a natural number is the integer part of a JSON
number. -/
theorem jsonInt_repr (m : Nat) : JsonInt (ascii (Nat.repr m)) := by
  obtain ⟨ds, hds, hall, hzero, hpos⟩ := toDigitsCore_decimal (m + 1) m [] (by omega)
  have hrepr : ascii (Nat.repr m) = ds.map fun c => (Fin.ofNat c.toNat : Byte) := by
    show List.map _ (Nat.toDigitsCore 10 (m + 1) m []) = _
    rw [hds, List.append_nil]
  rw [hrepr]
  rcases Nat.eq_zero_or_pos m with h0 | h0
  · left
    rw [hzero h0]
    rfl
  · right
    obtain ⟨d, rest, hdr, hlo, hhi⟩ := hpos h0
    subst hdr
    refine ⟨Fin.ofNat d.toNat, rest.map fun c => (Fin.ofNat c.toNat : Byte),
      List.map_cons _ _ _, ?_, ?_, ?_⟩
    · rw [ascii_digit d ⟨by omega, hhi⟩]
      exact hlo
    · rw [ascii_digit d ⟨by omega, hhi⟩]
      exact hhi
    · intro c hc
      obtain ⟨x, hx, rfl⟩ := List.mem_map.mp hc
      have hxd := hall x (List.mem_cons_of_mem _ hx)
      show 0x30 ≤ (Fin.ofNat x.toNat : Byte).val ∧ (Fin.ofNat x.toNat : Byte).val ≤ 0x39
      rw [ascii_digit x hxd]
      exact hxd

/-- The output of `json << n` for an `int` is a JSON number. -/
theorem jsonNumber_intToJson (n : Int) : JsonNumber (intToJson n) := by
  cases n with
  | ofNat m =>
      refine ⟨[], ascii (Nat.repr m), [], [], ?_, Or.inl rfl, jsonInt_repr m, Or.inl rfl,
        Or.inl rfl⟩
      simp only [List.nil_append, List.append_nil]
      rfl
  | negSucc m =>
      refine ⟨[0x2D], ascii (Nat.repr (m + 1)), [], [], ?_, Or.inr rfl, jsonInt_repr (m + 1),
        Or.inl rfl, Or.inl rfl⟩
      simp only [List.append_nil]
      show ascii ("-" ++ Nat.repr (m + 1)) = _
      rw [ascii_append]
      rfl

theorem jsonString_quoted (v : ByteString) : JsonString (quoted v) :=
  ⟨escapeJson v, rfl, by rw [jsonUnescape_escapeJson]; rfl⟩

theorem json_boolToJson (b : Bool) : Json (boolToJson b) := by
  cases b
  · exact Json.litFalse
  · exact Json.litTrue

theorem jsonString_nodeType (t : NodeType) :
    JsonString (ascii "\"" ++ nodeTypeToString t ++ ascii "\"") := by
  refine ⟨nodeTypeToString t, rfl, ?_⟩
  cases t <;> decide

theorem jsonString_alignName (a : TextAlign) (name : String) (h : alignName a = some name) :
    JsonString (ascii "\"" ++ ascii name ++ ascii "\"") := by
  refine ⟨ascii name, rfl, ?_⟩
  cases a <;> simp [alignName] at h <;> subst h <;> decide

theorem jsonString_key : ∀ key ∈ keyOrder,
    JsonString (ascii "\"" ++ ascii key ++ ascii "\"") := by
  intro key hk
  refine ⟨ascii key, rfl, ?_⟩
  revert key
  decide

theorem json_toList_field {α : Type} (key : String) (f : α → ByteString)
    (hf : ∀ v, Json (f v)) (value : Option α) :
    ∀ kv ∈ (value.map fun v => (key, f v)).toList, Json kv.2 := by
  intro kv hkv
  cases value with
  | none => simp at hkv
  | some v =>
      simp at hkv
      subst hkv
      exact hf v

/-- Every value among `jsonFields n` is a JSON value when the output for
each child is. -/
theorem json_jsonFields (n : MarkdownNode)
    (hch : ∀ c ∈ n.children, Json (nodeToJson c)) :
    ∀ kv ∈ jsonFields n, Json kv.2 := by
  intro kv hkv
  have hq : ∀ v, Json (quoted v) := fun v => Json.string _ (jsonString_quoted v)
  have hi : ∀ v, Json (intToJson v) := fun v => Json.number _ (jsonNumber_intToJson v)
  simp only [jsonFields, List.mem_append] at hkv
  rcases hkv with (((((((((((h | h) | h) | h) | h) | h) | h) | h) | h) | h) | h) | h)
  · exact json_toList_field "content" quoted hq n.content kv h
  · exact json_toList_field "level" intToJson hi n.level kv h
  · exact json_toList_field "href" quoted hq n.href kv h
  · exact json_toList_field "title" quoted hq n.title kv h
  · exact json_toList_field "alt" quoted hq n.alt kv h
  · exact json_toList_field "language" quoted hq n.language kv h
  · exact json_toList_field "ordered" boolToJson json_boolToJson n.ordered kv h
  · exact json_toList_field "start" intToJson hi n.start kv h
  · exact json_toList_field "checked" boolToJson json_boolToJson n.checked kv h
  · exact json_toList_field "isHeader" boolToJson json_boolToJson n.isHeader kv h
  · cases ha : n.align with
    | none => simp [ha] at h
    | some a =>
        cases hn : alignName a with
        | none => simp [ha, hn] at h
        | some name =>
            simp [ha, hn] at h
            subst h
            exact Json.string _ (jsonString_alignName a name hn)
  · cases hc : n.children with
    | nil => simp [hc] at h
    | cons c cs =>
        simp only [hc, List.isEmpty_cons, Bool.false_eq_true, if_false,
          List.mem_singleton] at h
        subst h
        rw [← hc]
        refine Json.array _ ?_
        intro v hv
        obtain ⟨c, hc, rfl⟩ := List.mem_map.mp hv
        exact hch c hc

theorem flatten_members (l : List (String × ByteString)) :
    (((l.map fun kv => (ascii "\"" ++ ascii kv.1 ++ ascii "\"", kv.2)).map renderMember).map
      fun y => ascii "," ++ y).flatten = (l.map renderField).flatten := by
  induction l with
  | nil => rfl
  | cons kv l ih =>
      simp only [List.map_cons, List.flatten_cons, ih]
      congr 1
      simp only [renderMember, renderField, List.append_assoc]
      rfl

/-- The output of `nodeToJson` is the object of `jsonMembers`. -/
theorem nodeToJson_members (n : MarkdownNode) :
    nodeToJson n = ascii "\x7b" ++ (ascii ",").intercalate ((jsonMembers n).map renderMember) ++
      ascii "\x7d" := by
  rw [nodeToJson_fields, jsonMembers, List.map_cons, intercalate_cons, flatten_members]
  simp only [renderMember, List.append_assoc]
  rfl

/-- The members of `jsonMembers n` are well formed when the output for each
child is a JSON value. -/
theorem jsonMembers_valid (n : MarkdownNode)
    (hch : ∀ c ∈ n.children, Json (nodeToJson c)) :
    ∀ m ∈ jsonMembers n, JsonString m.1 ∧ Json m.2 := by
  intro m hm
  rw [jsonMembers, List.mem_cons] at hm
  rcases hm with hm | hm
  · subst hm
    exact ⟨⟨ascii "type", rfl, by decide⟩, Json.string _ (jsonString_nodeType n.type)⟩
  · obtain ⟨kv, hkv, rfl⟩ := List.mem_map.mp hm
    refine ⟨jsonString_key kv.1 ?_, json_jsonFields n hch kv hkv⟩
    exact (jsonFields_keys_sublist n).subset (List.mem_map_of_mem _ hkv)

/-- The output of `nodeToJson` is a JSON value, for every node tree. -/
theorem json_nodeToJson (n : MarkdownNode) : Json (nodeToJson n) := by
  refine MarkdownNode.rec (motive_1 := fun n => Json (nodeToJson n))
    (motive_2 := fun cs => ∀ c ∈ cs, Json (nodeToJson c)) ?_ ?_ ?_ n
  · intro type content level href title alt language ordered start checked isHeader align
      children ih
    rw [nodeToJson_members]
    exact Json.object _ (fun m hm => (jsonMembers_valid _ ih m hm).1)
      (fun m hm => (jsonMembers_valid _ ih m hm).2)
  · intro c hc
    cases hc
  · intro head tail hh ht c hc
    rcases List.mem_cons.mp hc with h | h
    · subst h
      exact hh
    · exact ht c h

/-! ## Lemmas: the text held by a state -/

theorem nodesOfList_append (a b : List MarkdownNode) :
    nodesOfList (a ++ b) = nodesOfList a ++ nodesOfList b := by
  induction a with
  | nil => simp [nodesOfList]
  | cons x xs ih => simp [nodesOfList, ih]

theorem texts_eq (node : MarkdownNode) :
    node.texts =
      node.ownText ++ ((nodesOfList node.children).map MarkdownNode.ownText).flatten := by
  simp [MarkdownNode.texts, nodes_eq]

theorem texts_addChild (parent child : MarkdownNode) :
    (parent.addChild child).texts = parent.texts ++ child.texts := by
  rw [texts_eq, texts_eq parent]
  have h1 : (parent.addChild child).ownText = parent.ownText := rfl
  have h2 : (parent.addChild child).children = parent.children ++ [child] := rfl
  rw [h1, h2, nodesOfList_append]
  simp [nodesOfList, MarkdownNode.texts]

theorem texts_leaf (node : MarkdownNode) (ht : node.type ≠ .Text) (hc : node.children = []) :
    node.texts = [] := by
  rw [texts_eq, hc]
  simp [nodesOfList, MarkdownNode.ownText, ht]

theorem texts_textNode (bytes : ByteString) :
    ({ MarkdownNode.new .Text with content := some bytes } : MarkdownNode).texts = bytes := by
  rw [texts_eq]
  simp [nodesOfList, MarkdownNode.ownText, MarkdownNode.new]

theorem texts_attachOpen (top : MarkdownNode) (rest : List MarkdownNode) :
    (attachOpen top rest).texts = stackTexts (top :: rest) := by
  induction rest generalizing top with
  | nil => simp [attachOpen, stackTexts]
  | cons p r ih =>
      rw [attachOpen, ih (p.addChild top)]
      simp [stackTexts, texts_addChild]

theorem heldText_flushText (impl : Impl) : impl.flushText.heldText = impl.heldText := by
  obtain ⟨stack, buffer⟩ := impl
  cases stack with
  | nil => cases buffer <;> rfl
  | cons top rest =>
      cases buffer with
      | nil => rfl
      | cons b bs =>
          rw [flushText_cons top rest (b :: bs) (List.cons_ne_nil _ _)]
          simp [Impl.heldText, stackTexts, texts_addChild, texts_textNode]

theorem flushText_ne_nil (impl : Impl) (h : impl.nodeStack ≠ []) :
    impl.flushText.nodeStack ≠ [] := by
  obtain ⟨top, rest, hf⟩ := flushText_eq impl h
  rw [hf]
  exact List.cons_ne_nil _ _

theorem heldText_pushNode (impl : Impl) (node : MarkdownNode) (ht : node.type ≠ .Text)
    (hc : node.children = []) : (impl.pushNode node).heldText = impl.heldText := by
  rw [← heldText_flushText impl]
  simp [Impl.pushNode, Impl.heldText, stackTexts, texts_leaf node ht hc]

theorem heldText_popNode (impl : Impl) : impl.popNode.heldText = impl.heldText := by
  rw [← heldText_flushText impl]
  simp only [Impl.popNode]
  cases hs : impl.flushText.nodeStack with
  | nil => rfl
  | cons node below =>
      cases below with
      | nil => simp [hs]
      | cons parent rest =>
          simp [Impl.heldText, hs, stackTexts, texts_addChild]

theorem popNode_ne_nil (impl : Impl) (h : impl.nodeStack ≠ []) :
    impl.popNode.nodeStack ≠ [] := by
  have hf := flushText_ne_nil impl h
  simp only [Impl.popNode]
  cases hs : impl.flushText.nodeStack with
  | nil => exact absurd hs hf
  | cons node below =>
      cases below with
      | nil => simp [hs]
      | cons parent rest => simp

theorem heldText_topAddChild (impl : Impl) (child : MarkdownNode) (ht : child.type ≠ .Text)
    (hc : child.children = []) (h : impl.nodeStack ≠ []) :
    ∃ next, impl.flushText.topAddChild child = some next ∧ next.nodeStack ≠ [] ∧
      next.heldText = impl.heldText := by
  obtain ⟨top, rest, hf⟩ := flushText_eq impl h
  refine ⟨{ nodeStack := top.addChild child :: rest, currentText := [] }, ?_,
    List.cons_ne_nil _ _, ?_⟩
  · rw [hf]
    rfl
  · rw [← heldText_flushText impl, hf]
    simp [Impl.heldText, stackTexts, texts_addChild, texts_leaf child ht hc]

theorem pushNode_ne_nil (impl : Impl) (node : MarkdownNode) :
    (impl.pushNode node).nodeStack ≠ [] :=
  List.cons_ne_nil _ _

/-- One callback other than those left out adds the bytes it contributes to
the text held by the state, and nothing else. -/
theorem heldText_handle (event : Event) (impl : Impl) (h : impl.nodeStack ≠ [])
    (hk : event.keepsText = true) :
    ∃ next, impl.handle event = some next ∧ next.nodeStack ≠ [] ∧
      next.heldText = impl.heldText ++ event.contributed := by
  have hpush : ∀ node : MarkdownNode, node.type ≠ .Text → node.children = [] →
      (impl.pushNode node).nodeStack ≠ [] ∧
        (impl.pushNode node).heldText = impl.heldText ++ [] := by
    intro node ht hc
    exact ⟨pushNode_ne_nil impl node, by rw [heldText_pushNode impl node ht hc, List.append_nil]⟩
  have hpop : impl.popNode.nodeStack ≠ [] ∧ impl.popNode.heldText = impl.heldText ++ [] :=
    ⟨popNode_ne_nil impl h, by rw [heldText_popNode, List.append_nil]⟩
  have hsame : impl.nodeStack ≠ [] ∧ impl.heldText = impl.heldText ++ [] :=
    ⟨h, by rw [List.append_nil]⟩
  have hadd : ∀ child : MarkdownNode, child.type ≠ .Text → child.children = [] →
      ∃ next, impl.flushText.topAddChild child = some next ∧ next.nodeStack ≠ [] ∧
        next.heldText = impl.heldText ++ [] := by
    intro child ht hc
    obtain ⟨next, hn, hne, hh⟩ := heldText_topAddChild impl child ht hc h
    exact ⟨next, hn, hne, by rw [hh, List.append_nil]⟩
  cases event with
  | enterBlock type detail =>
      cases type with
      | MD_BLOCK_DOC => exact ⟨impl, rfl, hsame⟩
      | MD_BLOCK_HR => exact hadd _ (fun hx => by cases hx) rfl
      | MD_BLOCK_LI =>
          by_cases ht : detail.is_task ≠ 0
          · refine ⟨_, ?_, hpush
              { MarkdownNode.new .TaskListItem with
                checked := some (decide (detail.task_mark = 120 ∨ detail.task_mark = 88)) }
              (fun hx => by cases hx) rfl⟩
            simp only [Impl.handle, Impl.enterBlock, if_pos ht]
          · refine ⟨_, ?_, hpush (MarkdownNode.new .ListItem) (fun hx => by cases hx) rfl⟩
            simp only [Impl.handle, Impl.enterBlock, if_neg ht]
      | _ => exact ⟨_, rfl, hpush _ (fun hx => by cases hx) rfl⟩
  | leaveBlock type detail =>
      cases type with
      | MD_BLOCK_DOC => exact ⟨impl, rfl, hsame⟩
      | MD_BLOCK_HR => exact ⟨impl, rfl, hsame⟩
      | _ => exact ⟨_, rfl, hpop⟩
  | enterSpan type detail =>
      cases type <;> first
        | (simp [Event.keepsText, isLeafSpan] at hk; done)
        | exact ⟨_, rfl, hpush _ (fun hx => by cases hx) rfl⟩
  | leaveSpan type detail =>
      have ha : impl.assignSpanText type = impl := by
        cases type <;> first
          | (simp [Event.keepsText, isLeafSpan] at hk; done)
          | (simp only [Impl.assignSpanText]; cases impl.nodeStack <;> rfl)
      exact ⟨impl.popNode, by simp only [Impl.handle, Impl.leaveSpan, ha], hpop⟩
  | text type text =>
      cases text with
      | none => exact ⟨impl, rfl, hsame⟩
      | some bytes =>
          cases bytes with
          | nil => exact ⟨impl, rfl, hsame⟩
          | cons b bs =>
              cases type with
              | MD_TEXT_BR => exact hadd _ (fun hx => by cases hx) rfl
              | MD_TEXT_SOFTBR => exact hadd _ (fun hx => by cases hx) rfl
              | MD_TEXT_HTML => simp [Event.keepsText] at hk
              | _ =>
                  refine ⟨_, rfl, h, ?_⟩
                  simp [Impl.heldText, Event.contributed, isAppending]

theorem heldText_md_parse (events : List Event) (impl : Impl) (h : impl.nodeStack ≠ [])
    (hk : ∀ e ∈ events, e.keepsText = true) :
    ∃ done, md_parse events impl = some done ∧ done.nodeStack ≠ [] ∧
      done.heldText = impl.heldText ++ (events.map Event.contributed).flatten := by
  induction events generalizing impl with
  | nil => exact ⟨impl, rfl, h, by simp⟩
  | cons event events ih =>
      obtain ⟨next, hn, hne, hh⟩ :=
        heldText_handle event impl h (hk event (List.mem_cons_self _ _))
      obtain ⟨done, hd, hdne, hdh⟩ := ih next hne (fun e he => hk e (List.mem_cons_of_mem _ he))
      refine ⟨done, by rw [md_parse_cons event events impl next hn, hd], hdne, ?_⟩
      rw [hdh, hh]
      simp

/-! ## Lemmas: building a linearised tree -/

theorem withChildren_nil (impl : Impl) : impl.withChildren [] = impl := by
  obtain ⟨stack, buffer⟩ := impl
  cases stack with
  | nil => rfl
  | cons top rest =>
      cases top
      simp [Impl.withChildren]

theorem withChildren_append (impl : Impl) (a b : List MarkdownNode) :
    (impl.withChildren a).withChildren b = impl.withChildren (a ++ b) := by
  obtain ⟨stack, buffer⟩ := impl
  cases stack with
  | nil => rfl
  | cons top rest => simp [Impl.withChildren]

theorem withChildren_ne_nil (impl : Impl) (nodes : List MarkdownNode)
    (h : impl.nodeStack ≠ []) : (impl.withChildren nodes).nodeStack ≠ [] := by
  obtain ⟨stack, buffer⟩ := impl
  cases stack with
  | nil => exact absurd rfl h
  | cons top rest => simp [Impl.withChildren]

theorem ne_nil_of_flushText (impl : Impl) (h : impl.flushText.nodeStack ≠ []) :
    impl.nodeStack ≠ [] := by
  intro he
  apply h
  have hl := flushText_length impl
  rw [he] at hl
  exact List.length_eq_zero.mp hl

theorem assignSpanText_other (type : MD_SPANTYPE) (impl : Impl)
    (h : isLeafSpan type = false) : impl.assignSpanText type = impl := by
  cases type <;> first
    | (simp [isLeafSpan] at h; done)
    | (simp only [Impl.assignSpanText]; cases impl.nodeStack <;> rfl)

/-- The callbacks of an attribute-free container kind push a new node of the
kind and pop it. -/
theorem containerEvents_plain (kind : NodeType) (h : plainKinds.contains kind = true) :
    ∃ enter leave, containerEvents kind = some (enter, leave) ∧
      (∀ impl : Impl, impl.handle enter = some (impl.pushNode (MarkdownNode.new kind))) ∧
      (∀ impl : Impl, impl.handle leave = some impl.popNode) := by
  cases kind <;> first
    | (simp [plainKinds] at h; done)
    | exact ⟨_, _, rfl, fun _ => rfl, fun _ => rfl⟩
    | exact ⟨_, _, rfl, fun _ => rfl, fun impl => by
        simp only [Impl.handle, Impl.leaveSpan]
        rw [assignSpanText_other]
        rfl⟩

/-- A container: its enter callback, a body that after a flush leaves the
given children under the new node, and its leave callback add the finished
container to the top of the stack. -/
theorem md_parse_container (kind : NodeType) (enter leave : Event) (body : List Event)
    (children : List MarkdownNode)
    (henter : ∀ impl : Impl, impl.handle enter = some (impl.pushNode (MarkdownNode.new kind)))
    (hleave : ∀ impl : Impl, impl.handle leave = some impl.popNode)
    (hbody : ∀ impl : Impl, impl.nodeStack ≠ [] → impl.currentText = [] →
      ∃ done, md_parse body impl = some done ∧
        done.flushText = impl.flushText.withChildren children)
    (impl : Impl) (h : impl.nodeStack ≠ []) :
    ∃ done, md_parse (enter :: body ++ [leave]) impl = some done ∧
      done = impl.flushText.withChildren
        [⟨kind, none, none, none, none, none, none, none, none, none, none, none, children⟩] ∧
      done.currentText = [] := by
  obtain ⟨top, rest, hf⟩ := flushText_eq impl h
  have hpush : impl.pushNode (MarkdownNode.new kind) =
      { nodeStack := MarkdownNode.new kind :: top :: rest, currentText := [] } := by
    simp only [Impl.pushNode, hf]
  obtain ⟨inner, hrun, hinner⟩ :=
    hbody { nodeStack := MarkdownNode.new kind :: top :: rest, currentText := [] }
      (List.cons_ne_nil _ _) rfl
  rw [flushText_nil] at hinner
  refine ⟨_, ?_, rfl, ?_⟩
  · rw [List.cons_append, md_parse_cons enter _ impl _ (henter impl), md_parse_append, hpush,
      hrun, Option.some_bind, md_parse_cons leave [] inner _ (hleave inner)]
    simp only [md_parse, Impl.popNode, hinner, Impl.withChildren, hf]
    rfl
  · rw [hf]
    rfl

theorem buildsList_nil : BuildsList [] := by
  intro _ _ impl _ _
  exact ⟨impl, rfl, (withChildren_nil _).symm⟩

theorem buildsList_cons (head : MarkdownNode) (tail : List MarkdownNode)
    (hh : BuildsNode head) (ht : BuildsList tail) : BuildsList (head :: tail) := by
  intro hlin hadj impl hne hstart
  simp only [linearisableList, Bool.and_eq_true] at hlin
  simp only [noAdjacentTexts, Bool.and_eq_true, Bool.not_eq_true', Bool.and_eq_false_iff,
    beq_eq_false_iff_ne, ne_eq] at hadj
  obtain ⟨mid, hmid, hflush, hbuf⟩ := hh hlin.1 impl hne (fun htext => hstart (by
    simp [startsWithText, htext]))
  have hmne : mid.nodeStack ≠ [] := by
    apply ne_nil_of_flushText
    rw [hflush]
    exact withChildren_ne_nil _ _ (flushText_ne_nil impl hne)
  obtain ⟨done, hdone, hres⟩ := ht hlin.2 hadj.2 mid hmne (fun hs => by
    rcases hadj.1 with hn | hn
    · exact hbuf hn
    · rw [hn] at hs
      cases hs)
  refine ⟨done, ?_, ?_⟩
  · rw [lineariseList, md_parse_append, hmid, Option.some_bind, hdone]
  · rw [hres, hflush, withChildren_append]
    rfl

theorem buildsNode_of_children (type : NodeType) (content : Option ByteString)
    (level : Option Int) (href title alt language : Option ByteString) (ordered : Option Bool)
    (start : Option Int) (checked isHeader : Option Bool) (align : Option TextAlign)
    (children : List MarkdownNode) (hc : BuildsList children) :
    BuildsNode ⟨type, content, level, href, title, alt, language, ordered, start, checked,
      isHeader, align, children⟩ := by
  intro hlin impl hne hbuf
  simp only [MarkdownNode.linearisable, Bool.or_eq_true, Bool.and_eq_true] at hlin
  rcases hlin with htext | ⟨⟨hcont, hadj⟩, hkids⟩
  · simp only [MarkdownNode.isPlainText, MarkdownNode.attributeFree, Bool.and_eq_true,
      beq_iff_eq, Option.isNone_iff_eq_none, List.isEmpty_iff] at htext
    obtain ⟨⟨⟨hty, hct⟩, ⟨⟨⟨⟨⟨⟨⟨⟨⟨h1, h2⟩, h3⟩, h4⟩, h5⟩, h6⟩, h7⟩, h8⟩, h9⟩, h10⟩⟩, hch⟩ := htext
    subst hty h1 h2 h3 h4 h5 h6 h7 h8 h9 h10 hch
    cases content with
    | none => simp at hct
    | some bytes =>
        cases bytes with
        | nil => simp at hct
        | cons b bs =>
            obtain ⟨stack, buffer⟩ := impl
            have hb : buffer = [] := hbuf rfl
            subst hb
            cases stack with
            | nil => exact absurd rfl hne
            | cons top rest =>
                refine ⟨{ nodeStack := top :: rest, currentText := b :: bs }, rfl, rfl, ?_⟩
                intro hx
                exact absurd rfl hx
  · simp only [MarkdownNode.isPlainContainer, MarkdownNode.attributeFree, Bool.and_eq_true,
      Option.isNone_iff_eq_none] at hcont
    obtain ⟨⟨hkind, hct⟩, ⟨⟨⟨⟨⟨⟨⟨⟨⟨h1, h2⟩, h3⟩, h4⟩, h5⟩, h6⟩, h7⟩, h8⟩, h9⟩, h10⟩⟩ := hcont
    subst hct h1 h2 h3 h4 h5 h6 h7 h8 h9 h10
    obtain ⟨enter, leave, hev, henter, hleave⟩ := containerEvents_plain type hkind
    have hnt : type ≠ .Text := by
      intro hx
      subst hx
      simp [plainKinds] at hkind
    have hl : linearise ⟨type, none, none, none, none, none, none, none, none, none, none,
        none, children⟩ = enter :: lineariseList children ++ [leave] := by
      simp only [linearise, if_neg hnt, hev]
    obtain ⟨done, hrun, hdone, hempty⟩ := md_parse_container type enter leave
      (lineariseList children) children henter hleave
      (fun state hs hb => hc hkids hadj state hs (fun _ => hb)) impl hne
    refine ⟨done, by rw [hl, hrun], ?_, fun _ => hempty⟩
    rw [hdone]
    obtain ⟨top, rest, hf⟩ := flushText_eq impl hne
    rw [hf]
    rfl

theorem buildsList_all (nodes : List MarkdownNode) : BuildsList nodes :=
  MarkdownNode.rec_1 (motive_1 := BuildsNode) (motive_2 := BuildsList)
    buildsNode_of_children buildsList_nil buildsList_cons nodes

/-! ## Properties of the builder -/

/-- C1: for every event sequence, whatever state the instance was left in
before, `parse` returns a tree (no undefined access, no null root) whose root
has kind document. -/
theorem parse_root_is_document (impl : Impl) (events : List Event) :
    ∃ root final, MD4CParser.parse impl events = some (root, final) ∧
      root.type = NodeType.Document := by
  obtain ⟨root, final, hp, ht, _⟩ := parse_bottomKind impl events
  exact ⟨root, final, hp, ht⟩

/-- C2: for the empty event sequence, and for the pair enterBlock(document),
leaveBlock(document) that the tokenizer emits for empty input, `parse` returns
a document node with no attribute present and no children. -/
theorem parse_empty_input (impl : Impl) :
    (MD4CParser.parse impl []).map Prod.fst =
        some ⟨.Document, none, none, none, none, none, none, none, none, none, none, none,
          []⟩ ∧
      (MD4CParser.parse impl
          [.enterBlock .MD_BLOCK_DOC (), .leaveBlock .MD_BLOCK_DOC ()]).map Prod.fst =
        some ⟨.Document, none, none, none, none, none, none, none, none, none, none, none,
          []⟩ :=
  ⟨rfl, rfl⟩

/-- C3: text coalescing.  For every list of plain or entity text callbacks whose
bytes together are non-empty, the sequence enterBlock(paragraph), those
callbacks, leaveBlock(paragraph) yields a document with exactly one child, a
paragraph, which has exactly one child, a text node whose content is the
concatenation of the bytes in order. -/
theorem paragraph_text_coalesces (impl : Impl) (texts : List (MD_TEXTTYPE × Option ByteString))
    (hcat : ∀ t ∈ texts, t.1 = .MD_TEXT_NORMAL ∨ t.1 = .MD_TEXT_ENTITY)
    (hne : bytesOf texts ≠ []) :
    (MD4CParser.parse impl
        (Event.enterBlock .MD_BLOCK_P () :: textEvents texts ++
          [Event.leaveBlock .MD_BLOCK_P ()])).map Prod.fst =
      some ⟨.Document, none, none, none, none, none, none, none, none, none, none, none,
        [⟨.Paragraph, none, none, none, none, none, none, none, none, none, none, none,
          [⟨.Text, some (bytesOf texts), none, none, none, none, none, none, none, none, none,
            none, []⟩]⟩]⟩ := by
  have hown : ∀ t ∈ texts, appendsOwnBytes t.1 t.2 = true := by
    intro t ht
    rcases hcat t ht with h | h <;> simp [appendsOwnBytes, isAppending, h]
  have hrun := md_parse_textEvents texts
    { nodeStack := [MarkdownNode.new .Paragraph, MarkdownNode.new .Document], currentText := [] }
    hown
  have hleave : md_parse [Event.leaveBlock .MD_BLOCK_P ()]
      { nodeStack := [MarkdownNode.new .Paragraph, MarkdownNode.new .Document],
        currentText := [] ++ bytesOf texts } =
      some
        { nodeStack := [(MarkdownNode.new .Document).addChild
            ((MarkdownNode.new .Paragraph).addChild
              { MarkdownNode.new .Text with content := some (bytesOf texts) })],
          currentText := [] } := by
    simp only [md_parse, Impl.handle, Impl.leaveBlock, Impl.popNode, List.nil_append,
      flushText_cons _ _ _ hne]
  have hall : md_parse (Event.enterBlock .MD_BLOCK_P () :: textEvents texts ++
        [Event.leaveBlock .MD_BLOCK_P ()]) impl.reset =
      some
        { nodeStack := [(MarkdownNode.new .Document).addChild
            ((MarkdownNode.new .Paragraph).addChild
              { MarkdownNode.new .Text with content := some (bytesOf texts) })],
          currentText := [] } := by
    show md_parse (textEvents texts ++ [Event.leaveBlock .MD_BLOCK_P ()])
      { nodeStack := [MarkdownNode.new .Paragraph, MarkdownNode.new .Document],
        currentText := [] } = _
    rw [md_parse_append, hrun]
    exact hleave
  simp only [MD4CParser.parse, hall]
  rfl

/-- The witness of C3: "Hello " and "world" delivered as two plain callbacks. -/
theorem paragraph_text_coalesces_witness :
    (MD4CParser.parse {}
        (Event.enterBlock .MD_BLOCK_P () ::
          textEvents [(.MD_TEXT_NORMAL, some [72, 101, 108, 108, 111, 32]),
            (.MD_TEXT_NORMAL, some [119, 111, 114, 108, 100])] ++
          [Event.leaveBlock .MD_BLOCK_P ()])).map Prod.fst =
      some ⟨.Document, none, none, none, none, none, none, none, none, none, none, none,
        [⟨.Paragraph, none, none, none, none, none, none, none, none, none, none, none,
          [⟨.Text, some (bytesOf [(.MD_TEXT_NORMAL, some [72, 101, 108, 108, 111, 32]),
              (.MD_TEXT_NORMAL, some [119, 111, 114, 108, 100])]),
            none, none, none, none, none, none, none, none, none, none, []⟩]⟩]⟩ :=
  paragraph_text_coalesces {} _ (by decide) (by decide)

/-- C4, as stated, fails: a plain callback and a hard-break callback delivered
between enterSpan(code_inline) and leaveSpan(code_inline) leave the code_inline
node with the empty content (not the three bytes delivered) and with two
children, a text node and a line_break node. -/
theorem code_inline_break_counterexample :
    (MD4CParser.parse {}
        [.enterSpan .MD_SPAN_CODE (), .text .MD_TEXT_NORMAL (some [97, 98]),
          .text .MD_TEXT_BR (some [10]), .leaveSpan .MD_SPAN_CODE ()]).map
      (fun r => r.1.children.map
        (fun n => (n.type, n.content, n.children.map (fun c => (c.type, c.content))))) =
    some [(.CodeInline, some [], [(.Text, some [97, 98]), (.LineBreak, none)])] := by
  rfl

/-- C4, amended: for every list (possibly empty) of text callbacks of the
buffer-appending categories (plain, entity, code, math, and null-character
carrying its one zero byte) delivered between enterSpan(code_inline) and
leaveSpan(code_inline), the node added to the top of the stack is a
code_inline node whose content is present and equal to the concatenation of
the bytes of the callbacks, with no other attribute and no children. -/
theorem code_inline_takes_buffer (impl : Impl)
    (texts : List (MD_TEXTTYPE × Option ByteString))
    (hown : ∀ t ∈ texts, appendsOwnBytes t.1 t.2 = true) (hs : impl.nodeStack ≠ []) :
    ∃ top rest,
      impl.flushText.nodeStack = top :: rest ∧
      md_parse (Event.enterSpan .MD_SPAN_CODE () :: textEvents texts ++
          [Event.leaveSpan .MD_SPAN_CODE ()]) impl =
        some
          { nodeStack :=
              top.addChild ⟨.CodeInline, some (bytesOf texts), none, none, none, none, none,
                none, none, none, none, none, []⟩ :: rest,
            currentText := [] } := by
  obtain ⟨node, top, rest, hnode, hf, hrun⟩ :=
    md_parse_leafSpan impl .MD_SPAN_CODE () texts hown hs
  refine ⟨top, rest, hf, ?_⟩
  have hn : node = MarkdownNode.new .CodeInline := by
    have h := hnode
    simp only [Impl.enterSpan, Impl.pushNode] at h
    injection h with h1 _
    injection h1 with h2 _
    exact h2.symm
  rw [md_parse_append, hrun, hn]
  rfl

/-- The witness of C4 amended: the four bytes "code" delivered as two code
callbacks inside a paragraph. -/
theorem code_inline_takes_buffer_witness :
    ∃ top rest,
      (Impl.flushText
          ⟨[MarkdownNode.new .Paragraph, MarkdownNode.new .Document], []⟩).nodeStack =
        top :: rest ∧
      md_parse (Event.enterSpan .MD_SPAN_CODE () ::
          textEvents [(.MD_TEXT_CODE, some [99, 111]), (.MD_TEXT_CODE, some [100, 101])] ++
          [Event.leaveSpan .MD_SPAN_CODE ()])
          ⟨[MarkdownNode.new .Paragraph, MarkdownNode.new .Document], []⟩ =
        some
          { nodeStack :=
              top.addChild ⟨.CodeInline,
                some (bytesOf [(.MD_TEXT_CODE, some [99, 111]), (.MD_TEXT_CODE, some [100, 101])]),
                none, none, none, none, none, none, none, none, none, none, []⟩ :: rest,
            currentText := [] } :=
  code_inline_takes_buffer ⟨[MarkdownNode.new .Paragraph, MarkdownNode.new .Document], []⟩
    [(.MD_TEXT_CODE, some [99, 111]), (.MD_TEXT_CODE, some [100, 101])] (by decide)
    (List.cons_ne_nil _ _)

/-- C5, as stated, fails: for the callbacks of `![a` newline `b](src)`, a
plain callback, a soft-break callback and a plain callback inside the image
span, the image node gets alt "b" (not the three bytes delivered) and two
children, a text node and a soft_break node. -/
theorem image_break_counterexample :
    (MD4CParser.parse {}
        [.enterSpan .MD_SPAN_IMG ⟨⟨some [115, 114, 99]⟩, ⟨none⟩⟩,
          .text .MD_TEXT_NORMAL (some [97]), .text .MD_TEXT_SOFTBR (some [10]),
          .text .MD_TEXT_NORMAL (some [98]),
          .leaveSpan .MD_SPAN_IMG ⟨⟨some [115, 114, 99]⟩, ⟨none⟩⟩]).map
      (fun r => r.1.children.map
        (fun n => (n.type, n.href, n.alt, n.children.map (fun c => (c.type, c.content))))) =
    some [(.Image, some [115, 114, 99], some [98], [(.Text, some [97]), (.SoftBreak, none)])] := by
  rfl

/-- C5, amended: for every non-empty source string and every list of text
callbacks of the buffer-appending categories (plain, entity, code, math, and
null-character carrying its one zero byte) delivered between enterSpan(image)
with that source and leaveSpan(image), the node added to the top of the stack
is an image node with href equal to the source, alt equal to the concatenation
of the bytes of the callbacks, no content attribute and no children. -/
theorem image_takes_buffer (impl : Impl) (src : ByteString) (title : MD_ATTRIBUTE)
    (texts : List (MD_TEXTTYPE × Option ByteString)) (hsrc : src ≠ [])
    (hown : ∀ t ∈ texts, appendsOwnBytes t.1 t.2 = true) (hs : impl.nodeStack ≠ []) :
    ∃ top rest,
      impl.flushText.nodeStack = top :: rest ∧
      md_parse (Event.enterSpan .MD_SPAN_IMG ⟨⟨some src⟩, title⟩ :: textEvents texts ++
          [Event.leaveSpan .MD_SPAN_IMG ⟨⟨some src⟩, title⟩]) impl =
        some
          { nodeStack :=
              top.addChild ⟨.Image, none, none, some src, title.toOptional,
                some (bytesOf texts), none, none, none, none, none, none, []⟩ :: rest,
            currentText := [] } := by
  obtain ⟨node, top, rest, hnode, hf, hrun⟩ :=
    md_parse_leafSpan impl .MD_SPAN_IMG ⟨⟨some src⟩, title⟩ texts hown hs
  refine ⟨top, rest, hf, ?_⟩
  have hlen : src.length > 0 := List.length_pos.mpr hsrc
  have hn : node = { MarkdownNode.new .Image with
      href := some src, title := title.toOptional } := by
    have h := hnode
    simp only [Impl.enterSpan, Impl.pushNode, MD_ATTRIBUTE.toOptional, hlen, if_true] at h
    injection h with h1 _
    injection h1 with h2 _
    exact h2.symm
  rw [md_parse_append, hrun, hn]
  rfl

/-- The witness of C5 amended: source "src" and the three bytes "alt"
delivered as one plain callback under the document. -/
theorem image_takes_buffer_witness :
    ∃ top rest,
      (Impl.flushText ⟨[MarkdownNode.new .Document], []⟩).nodeStack = top :: rest ∧
      md_parse (Event.enterSpan .MD_SPAN_IMG ⟨⟨some [115, 114, 99]⟩, ⟨none⟩⟩ ::
          textEvents [(.MD_TEXT_NORMAL, some [97, 108, 116])] ++
          [Event.leaveSpan .MD_SPAN_IMG ⟨⟨some [115, 114, 99]⟩, ⟨none⟩⟩])
          ⟨[MarkdownNode.new .Document], []⟩ =
        some
          { nodeStack :=
              top.addChild ⟨.Image, none, none, some [115, 114, 99],
                MD_ATTRIBUTE.toOptional ⟨none⟩,
                some (bytesOf [(.MD_TEXT_NORMAL, some [97, 108, 116])]),
                none, none, none, none, none, none, []⟩ :: rest,
            currentText := [] } :=
  image_takes_buffer ⟨[MarkdownNode.new .Document], []⟩ [115, 114, 99] ⟨none⟩
    [(.MD_TEXT_NORMAL, some [97, 108, 116])] (by decide) (by decide) (List.cons_ne_nil _ _)

/-- C6, as stated, fails: for the callbacks of `![*a*](src)`, where an
emphasis span is delivered inside the image span, the image node of the
resulting tree has one child, an italic node. -/
theorem image_nested_span_counterexample :
    (MD4CParser.parse {}
        [.enterSpan .MD_SPAN_IMG ⟨⟨some [115, 114, 99]⟩, ⟨none⟩⟩,
          .enterSpan .MD_SPAN_EM (), .text .MD_TEXT_NORMAL (some [97]),
          .leaveSpan .MD_SPAN_EM (),
          .leaveSpan .MD_SPAN_IMG ⟨⟨some [115, 114, 99]⟩, ⟨none⟩⟩]).map
      (fun r => r.1.nodes.map (fun n => (n.type, n.children.map (fun c => c.type)))) =
    some [(.Document, [.Image]), (.Image, [.Italic]), (.Italic, [.Text]), (.Text, [])] := by
  rfl

/-- C6, amended: for every event sequence in which each enterSpan of
code_inline or image is followed only by text callbacks of buffer-appending
categories and then by a leaveSpan of code_inline or image, every code_inline
node and every image node of the resulting tree has an empty child
sequence. -/
theorem leaf_spans_childless (impl : Impl) (events : List Event)
    (h : leafSpansClosed false events = true) :
    ∃ root final, MD4CParser.parse impl events = some (root, final) ∧
      ∀ n ∈ root.nodes, n.type = .CodeInline ∨ n.type = .Image → n.children = [] := by
  have hreset : OpenOk impl.reset :=
    ⟨List.cons_ne_nil _ _, fun n hn => by
      simp only [Impl.reset, List.mem_singleton] at hn
      rw [hn]
      exact openNodeOk_new _ (by simp) (by simp)⟩
  obtain ⟨done, hd, hok⟩ :=
    md_parse_leafSpansClosed events false impl.reset h (by simpa using hreset)
  have hf := openOk_flushText done hok
  cases hs : done.flushText.nodeStack with
  | nil => exact absurd hs hf.1
  | cons top rest =>
      refine ⟨attachOpen top rest, done.flushText, ?_, ?_⟩
      · simp only [MD4CParser.parse, hd, Impl.root, hs]
      · exact leafSpansChildless_attachOpen top rest
          (leafSpansChildless_of_open _ (hf.2 top (by rw [hs]; exact List.mem_cons_self _ _)))
          (fun n hn => hf.2 n (by rw [hs]; exact List.mem_cons_of_mem _ hn))

/-- The witness of C6 amended: the callbacks of a paragraph holding text, an
inline code span and an image. -/
theorem leaf_spans_childless_witness :
    ∃ root final,
      MD4CParser.parse {}
        [.enterBlock .MD_BLOCK_DOC (), .enterBlock .MD_BLOCK_P (),
          .text .MD_TEXT_NORMAL (some [97]),
          .enterSpan .MD_SPAN_CODE (), .text .MD_TEXT_CODE (some [98]),
          .leaveSpan .MD_SPAN_CODE (),
          .enterSpan .MD_SPAN_IMG ⟨⟨some [115]⟩, ⟨none⟩⟩,
          .text .MD_TEXT_NORMAL (some [99]),
          .leaveSpan .MD_SPAN_IMG ⟨⟨some [115]⟩, ⟨none⟩⟩,
          .leaveBlock .MD_BLOCK_P (), .leaveBlock .MD_BLOCK_DOC ()] = some (root, final) ∧
      ∀ n ∈ root.nodes, n.type = .CodeInline ∨ n.type = .Image → n.children = [] :=
  leaf_spans_childless {} _ (by decide)

/-- C7, evaluated at the failing input: on the state that `reset` leaves (the
stack holds only the root, the buffer is empty), leaveSpan(code_inline) makes
the content attribute of the root present (the empty string) and
leaveSpan(image) makes its alt attribute present, although both were absent;
`parse` then returns a document root carrying that attribute. -/
theorem stray_leaveSpan_writes_root :
    (Impl.reset {}).nodeStack.map (fun n => (n.type, n.content, n.alt)) =
        [(.Document, none, none)] ∧
      (Impl.leaveSpan .MD_SPAN_CODE () (Impl.reset {})).nodeStack.map
          (fun n => (n.type, n.content, n.alt)) = [(.Document, some [], none)] ∧
      (Impl.leaveSpan .MD_SPAN_IMG ⟨⟨none⟩, ⟨none⟩⟩ (Impl.reset {})).nodeStack.map
          (fun n => (n.type, n.content, n.alt)) = [(.Document, none, some [])] ∧
      (MD4CParser.parse {} [.leaveSpan .MD_SPAN_CODE ()]).map (fun r => r.1.content) =
        some (some []) := by
  refine ⟨rfl, rfl, rfl, rfl⟩

/-- C8: for every list-item detail, enterBlock(list item) pushes a node which,
when the task marker is present, has kind task_list_item and a checked
attribute that is present, true when the mark is `x` or `X` and false for
every other mark, and which, when the task marker is absent, has kind
list_item and no checked attribute. -/
theorem list_item_kind_and_checked (impl : Impl) (d : MD_BLOCK_LI_DETAIL) :
    ∃ node rest,
      (impl.enterBlock .MD_BLOCK_LI d).map Impl.nodeStack = some (node :: rest) ∧
      (d.is_task ≠ 0 →
        node.type = .TaskListItem ∧
        (d.task_mark = 120 ∨ d.task_mark = 88 → node.checked = some true) ∧
        (¬(d.task_mark = 120 ∨ d.task_mark = 88) → node.checked = some false)) ∧
      (d.is_task = 0 → node.type = .ListItem ∧ node.checked = none) := by
  by_cases ht : d.is_task = 0
  · refine ⟨MarkdownNode.new .ListItem, impl.flushText.nodeStack, ?_, ?_, ?_⟩
    · simp [Impl.enterBlock, ht, Impl.pushNode]
    · intro h
      exact absurd ht h
    · intro _
      exact ⟨rfl, rfl⟩
  · refine ⟨{ MarkdownNode.new .TaskListItem with
        checked := some (decide (d.task_mark = 120 ∨ d.task_mark = 88)) },
      impl.flushText.nodeStack, ?_, ?_, ?_⟩
    · simp [Impl.enterBlock, ht, Impl.pushNode]
    · intro _
      refine ⟨rfl, ?_, ?_⟩
      · intro hm
        simp [hm]
      · intro hm
        simp [hm]
    · intro h
      exact absurd h ht

/-- C9, as stated, fails: the start index of the callback is an `unsigned`
and the attribute an `int`, so an index from 2^31 on is not stored as it is.
The index 4294967295 gives the attribute start = -1. -/
theorem list_start_wraps_counterexample :
    (Impl.enterBlock .MD_BLOCK_OL ⟨4294967295⟩
        { nodeStack := [MarkdownNode.new .Document], currentText := [] }).map
      (fun state => state.nodeStack.map fun node => (node.type, node.ordered, node.start)) =
    some [(.List, some true, some (-1)), (.Document, none, none)] := by
  decide

/-- C9, amended: enterBlock(unordered list) pushes a list node with ordered =
false and no start attribute; enterBlock(ordered list) with start index n
pushes a list node with ordered = true and start = n converted to `int`,
which is n itself when n is below 2^31 and n - 2^32 for a larger n of 32
bits; and a list enter callback followed by k complete list-item groups (each
a list-item enter, a well-nested body and the list-item leave) and the list
leave adds to the former top a list node with exactly k children, the i-th
being the item node that the i-th group builds on its own under a fresh
document, of kind list_item or task_list_item as its detail says. -/
theorem list_node_and_items (impl : Impl) (n : Nat)
    (groups : List (MD_BLOCK_LI_DETAIL × List Event))
    (hw : ∀ g ∈ groups, wellNested 0 g.2 = true) (hs : impl.nodeStack ≠ []) :
    ∃ top rest items,
      impl.flushText.nodeStack = top :: rest ∧
      impl.enterBlock .MD_BLOCK_UL () =
        some
          { nodeStack :=
              ⟨.List, none, none, none, none, none, none, some false, none, none, none, none,
                []⟩ :: top :: rest,
            currentText := [] } ∧
      impl.enterBlock .MD_BLOCK_OL ⟨n⟩ =
        some
          { nodeStack :=
              ⟨.List, none, none, none, none, none, none, some true, some (intOfUnsigned n),
                none, none, none, []⟩ :: top :: rest,
            currentText := [] } ∧
      md_parse (Event.enterBlock .MD_BLOCK_UL () :: listItemGroups groups ++
          [Event.leaveBlock .MD_BLOCK_UL ()]) impl =
        some
          { nodeStack :=
              top.addChild ⟨.List, none, none, none, none, none, none, some false, none, none,
                none, none, items⟩ :: rest,
            currentText := [] } ∧
      md_parse (Event.enterBlock .MD_BLOCK_OL ⟨n⟩ :: listItemGroups groups ++
          [Event.leaveBlock .MD_BLOCK_OL ⟨n⟩]) impl =
        some
          { nodeStack :=
              top.addChild ⟨.List, none, none, none, none, none, none, some true,
                some (intOfUnsigned n), none, none, none, items⟩ :: rest,
            currentText := [] } ∧
      items.length = groups.length ∧
      List.Forall₂
        (fun (g : MD_BLOCK_LI_DETAIL × List Event) (item : MarkdownNode) =>
          item.type = (if g.1.is_task ≠ 0 then NodeType.TaskListItem else NodeType.ListItem) ∧
          md_parse (listItemGroup g.1 g.2)
              { nodeStack := [MarkdownNode.new .Document], currentText := [] } =
            some { nodeStack := [(MarkdownNode.new .Document).addChild item],
                   currentText := [] })
        groups items ∧
      (n < 2147483648 → intOfUnsigned n = Int.ofNat n) ∧
      (2147483648 ≤ n → n < 4294967296 → intOfUnsigned n = Int.ofNat n - 4294967296) := by
  have hlow : n < 2147483648 → intOfUnsigned n = Int.ofNat n := by
    intro hn
    have hmod : n % 4294967296 = n := Nat.mod_eq_of_lt (by omega)
    simp only [intOfUnsigned, hmod, if_pos hn]
  have hhigh : 2147483648 ≤ n → n < 4294967296 →
      intOfUnsigned n = Int.ofNat n - 4294967296 := by
    intro hn hlt
    have hmod : n % 4294967296 = n := Nat.mod_eq_of_lt hlt
    simp only [intOfUnsigned, hmod, if_neg (Nat.not_lt.mpr hn)]
  obtain ⟨top, rest, hf⟩ := flushText_eq impl hs
  obtain ⟨items, hall, hrun⟩ := md_parse_listItemGroups groups hw
  have hul : impl.enterBlock .MD_BLOCK_UL () =
      some
        { nodeStack :=
            ⟨.List, none, none, none, none, none, none, some false, none, none, none, none,
              []⟩ :: top :: rest,
          currentText := [] } := by
    simp only [Impl.enterBlock, Impl.pushNode, hf]
    rfl
  have hol : impl.enterBlock .MD_BLOCK_OL ⟨n⟩ =
      some
        { nodeStack :=
            ⟨.List, none, none, none, none, none, none, some true, some (intOfUnsigned n),
              none, none, none, []⟩ :: top :: rest,
          currentText := [] } := by
    simp only [Impl.enterBlock, Impl.pushNode, hf]
    rfl
  refine ⟨top, rest, items, by rw [hf], hul, hol, ?_, ?_, hall.length_eq.symm, hall, hlow,
    hhigh⟩
  · have hcons := md_parse_cons (Event.enterBlock .MD_BLOCK_UL ()) (listItemGroups groups)
      impl _ hul
    rw [md_parse_append, hcons, hrun, Option.some_bind]
    rfl
  · have hcons := md_parse_cons (Event.enterBlock .MD_BLOCK_OL ⟨n⟩) (listItemGroups groups)
      impl _ hol
    rw [md_parse_append, hcons, hrun, Option.some_bind]
    rfl

/-- The witness of C9 amended: the callbacks of the two-item list `witnessGroups`
under a fresh document. -/
theorem list_node_and_items_witness :
    ∃ top rest items,
      (Impl.flushText ⟨[MarkdownNode.new .Document], []⟩).nodeStack = top :: rest ∧
      Impl.enterBlock .MD_BLOCK_UL () ⟨[MarkdownNode.new .Document], []⟩ =
        some
          { nodeStack :=
              ⟨.List, none, none, none, none, none, none, some false, none, none, none, none,
                []⟩ :: top :: rest,
            currentText := [] } ∧
      Impl.enterBlock .MD_BLOCK_OL ⟨3⟩ ⟨[MarkdownNode.new .Document], []⟩ =
        some
          { nodeStack :=
              ⟨.List, none, none, none, none, none, none, some true, some (intOfUnsigned 3),
                none, none, none, []⟩ :: top :: rest,
            currentText := [] } ∧
      md_parse (Event.enterBlock .MD_BLOCK_UL () :: listItemGroups witnessGroups ++
          [Event.leaveBlock .MD_BLOCK_UL ()]) ⟨[MarkdownNode.new .Document], []⟩ =
        some
          { nodeStack :=
              top.addChild ⟨.List, none, none, none, none, none, none, some false, none, none,
                none, none, items⟩ :: rest,
            currentText := [] } ∧
      md_parse (Event.enterBlock .MD_BLOCK_OL ⟨3⟩ :: listItemGroups witnessGroups ++
          [Event.leaveBlock .MD_BLOCK_OL ⟨3⟩]) ⟨[MarkdownNode.new .Document], []⟩ =
        some
          { nodeStack :=
              top.addChild ⟨.List, none, none, none, none, none, none, some true,
                some (intOfUnsigned 3), none, none, none, items⟩ :: rest,
            currentText := [] } ∧
      items.length = witnessGroups.length ∧
      List.Forall₂
        (fun (g : MD_BLOCK_LI_DETAIL × List Event) (item : MarkdownNode) =>
          item.type = (if g.1.is_task ≠ 0 then NodeType.TaskListItem else NodeType.ListItem) ∧
          md_parse (listItemGroup g.1 g.2)
              { nodeStack := [MarkdownNode.new .Document], currentText := [] } =
            some { nodeStack := [(MarkdownNode.new .Document).addChild item],
                   currentText := [] })
        witnessGroups items ∧
      (3 < 2147483648 → intOfUnsigned 3 = Int.ofNat 3) ∧
      (2147483648 ≤ 3 → 3 < 4294967296 → intOfUnsigned 3 = Int.ofNat 3 - 4294967296) :=
  list_node_and_items ⟨[MarkdownNode.new .Document], []⟩ 3 witnessGroups (by decide)
    (List.cons_ne_nil _ _)

/-- C10: for every link and every image enter callback, the href attribute of
the pushed node is present exactly when the href (for an image: src) field of
the detail is a non-null pointer to at least one byte, and then holds those
bytes; likewise for title; so a null or empty field never gives a present
attribute, in particular never a present empty one. -/
theorem link_image_href_title (impl : Impl) (a : MD_SPAN_A_DETAIL) (i : MD_SPAN_IMG_DETAIL) :
    (∃ node rest,
      (impl.enterSpan .MD_SPAN_A a).nodeStack = node :: rest ∧ node.type = .Link ∧
      (∀ bytes, node.href = some bytes ↔ a.href.text = some bytes ∧ bytes ≠ []) ∧
      (∀ bytes, node.title = some bytes ↔ a.title.text = some bytes ∧ bytes ≠ [])) ∧
    (∃ node rest,
      (impl.enterSpan .MD_SPAN_IMG i).nodeStack = node :: rest ∧ node.type = .Image ∧
      (∀ bytes, node.href = some bytes ↔ i.src.text = some bytes ∧ bytes ≠ []) ∧
      (∀ bytes, node.title = some bytes ↔ i.title.text = some bytes ∧ bytes ≠ [])) := by
  have key : ∀ (f : MD_ATTRIBUTE) (bytes : ByteString),
      f.toOptional = some bytes ↔ f.text = some bytes ∧ bytes ≠ [] := by
    intro f bytes
    obtain ⟨text⟩ := f
    cases text with
    | none => simp [MD_ATTRIBUTE.toOptional]
    | some bs =>
        cases bs with
        | nil =>
            simp only [MD_ATTRIBUTE.toOptional, List.length_nil, gt_iff_lt, lt_self_iff_false,
              if_false, Option.some.injEq, ne_eq]
            constructor
            · intro h
              cases h
            · intro h
              exact absurd h.1.symm h.2
        | cons b rest =>
            simp only [MD_ATTRIBUTE.toOptional, List.length_cons, gt_iff_lt,
              Nat.zero_lt_succ, if_true, Option.some.injEq, ne_eq, iff_self_and]
            intro h
            rw [← h]
            exact List.cons_ne_nil _ _
  refine ⟨⟨_, _, rfl, rfl, ?_, ?_⟩, ⟨_, _, rfl, rfl, ?_, ?_⟩⟩
  · exact key a.href
  · exact key a.title
  · exact key i.src
  · exact key i.title

/-- C11: enterBlock(header cell) pushes a table_cell node with isHeader = true
and enterBlock(body cell) one with isHeader = false, with no other attribute
than align; for the same detail both carry the same align, which is left,
center or right when the detail says so and the default state for every other
alignment value. -/
theorem table_cell_header_and_align (impl : Impl) (d : MD_BLOCK_TD_DETAIL) :
    ∃ a : TextAlign,
      (impl.enterBlock .MD_BLOCK_TH d).map Impl.nodeStack =
        some (⟨.TableCell, none, none, none, none, none, none, none, none, none, some true,
          some a, []⟩ :: impl.flushText.nodeStack) ∧
      (impl.enterBlock .MD_BLOCK_TD d).map Impl.nodeStack =
        some (⟨.TableCell, none, none, none, none, none, none, none, none, none, some false,
          some a, []⟩ :: impl.flushText.nodeStack) ∧
      (d.align = .MD_ALIGN_LEFT → a = .Left) ∧
      (d.align = .MD_ALIGN_CENTER → a = .Center) ∧
      (d.align = .MD_ALIGN_RIGHT → a = .Right) ∧
      (d.align ≠ .MD_ALIGN_LEFT → d.align ≠ .MD_ALIGN_CENTER →
        d.align ≠ .MD_ALIGN_RIGHT → a = .Default) := by
  refine ⟨alignOf d.align, rfl, rfl, ?_, ?_, ?_, ?_⟩
  · intro h
    rw [h]
    rfl
  · intro h
    rw [h]
    rfl
  · intro h
    rw [h]
    rfl
  · intro h1 h2 h3
    cases hd : d.align with
    | MD_ALIGN_DEFAULT => rfl
    | MD_ALIGN_LEFT => exact absurd hd h1
    | MD_ALIGN_CENTER => exact absurd hd h2
    | MD_ALIGN_RIGHT => exact absurd hd h3

/-- C12: for every event sequence that holds no text callback of hard-break
or soft-break category, the resulting tree has no line_break node and no
soft_break node; so text, inline code and text delivered inside a list item
give siblings with no break node among them. -/
theorem no_break_nodes_without_break_events (impl : Impl) (events : List Event)
    (h : ∀ e ∈ events, e.isBreak = false) :
    ∃ root final, MD4CParser.parse impl events = some (root, final) ∧
      ∀ n ∈ root.nodes, n.type ≠ .LineBreak ∧ n.type ≠ .SoftBreak := by
  have hP : Maintained (fun n : MarkdownNode => n.type ≠ .LineBreak ∧ n.type ≠ .SoftBreak) :=
    { addChild := fun _ _ hn => hn
      content := fun _ _ hn => hn
      alt := fun _ _ hn => hn
      text := fun _ => ⟨by simp [MarkdownNode.new], by simp [MarkdownNode.new]⟩
      html := fun _ => ⟨by simp [MarkdownNode.new], by simp [MarkdownNode.new]⟩
      container := fun _ _ _ _ h4 h5 => ⟨h4, h5⟩ }
  exact allNodes_parse _ hP impl events (fun e he hb => by rw [h e he] at hb; cases hb)

/-- The witness of C12: the callbacks of a tight list item holding text, an
inline code span and text. -/
theorem no_break_nodes_without_break_events_witness :
    ∃ root final,
      MD4CParser.parse {}
        [.enterBlock .MD_BLOCK_DOC (), .enterBlock .MD_BLOCK_UL (),
          .enterBlock .MD_BLOCK_LI ⟨0, 0⟩, .text .MD_TEXT_NORMAL (some [99, 97, 108, 108, 32]),
          .enterSpan .MD_SPAN_CODE (), .text .MD_TEXT_CODE (some [65]),
          .leaveSpan .MD_SPAN_CODE (), .text .MD_TEXT_NORMAL (some [32, 110, 111, 119]),
          .leaveBlock .MD_BLOCK_LI ⟨0, 0⟩, .leaveBlock .MD_BLOCK_UL (),
          .leaveBlock .MD_BLOCK_DOC ()] = some (root, final) ∧
      ∀ n ∈ root.nodes, n.type ≠ .LineBreak ∧ n.type ≠ .SoftBreak :=
  no_break_nodes_without_break_events {} _ (by decide)

/-- C13: for every event sequence in which no callback that pops (a
leaveSpan, or a leaveBlock other than of the document or a horizontal rule)
arrives while only the root is on the stack, no node of the resulting tree
has two adjacent children that are both text nodes. -/
theorem no_adjacent_text_children (impl : Impl) (events : List Event)
    (h : noStrayClose 0 events = true) :
    ∃ root final, MD4CParser.parse impl events = some (root, final) ∧
      ∀ n ∈ root.nodes,
        List.Chain' (fun a b : MarkdownNode => ¬(a.type = .Text ∧ b.type = .Text))
          n.children := by
  have hreset : ApartOk impl.reset :=
    ⟨MarkdownNode.new .Document, [], rfl,
      ⟨by simp [MarkdownNode.new], List.chain'_nil, fun c hc => by cases hc⟩,
      endsOpen_of_no_children _ rfl, fun n hn => by cases hn⟩
  obtain ⟨done, hd, hok⟩ := apartOk_md_parse events 0 impl.reset h rfl hreset
  obtain ⟨top, rest, hf, ht, hr, _, _⟩ := apartOk_flushText done hok
  refine ⟨attachOpen top rest, done.flushText, ?_, ?_⟩
  · simp only [MD4CParser.parse, hd, Impl.root, hf]
  · exact treeTextsApart_attachOpen top rest ht hr

/-- The witness of C13: a paragraph whose text arrives in three callbacks
around an emphasis span, and a second paragraph that the stream leaves open. -/
theorem no_adjacent_text_children_witness :
    ∃ root final,
      MD4CParser.parse {}
        [.enterBlock .MD_BLOCK_DOC (), .enterBlock .MD_BLOCK_P (),
          .text .MD_TEXT_NORMAL (some [97]), .text .MD_TEXT_ENTITY (some [38, 59]),
          .enterSpan .MD_SPAN_EM (), .text .MD_TEXT_NORMAL (some [98]),
          .leaveSpan .MD_SPAN_EM (), .text .MD_TEXT_NORMAL (some [99]),
          .leaveBlock .MD_BLOCK_P (), .enterBlock .MD_BLOCK_P (),
          .text .MD_TEXT_NORMAL (some [100])] = some (root, final) ∧
      ∀ n ∈ root.nodes,
        List.Chain' (fun a b : MarkdownNode => ¬(a.type = .Text ∧ b.type = .Text))
          n.children :=
  no_adjacent_text_children {} _ (by decide)

/-- C14, evaluated at failing inputs: a leaveSpan(image) that arrives while
only the root is on the stack makes the alt attribute of the document root
present, and a leaveSpan(code_inline) that closes an emphasis span stores the
buffered text in the content attribute of the italic node. -/
theorem leaveSpan_writes_attribute_of_other_kind :
    (MD4CParser.parse {} [.leaveSpan .MD_SPAN_IMG ⟨⟨none⟩, ⟨none⟩⟩]).map
        (fun r => (r.1.type, r.1.content, r.1.alt)) =
      some (.Document, none, some []) ∧
    (MD4CParser.parse {}
        [.enterBlock .MD_BLOCK_P (), .enterSpan .MD_SPAN_EM (),
          .text .MD_TEXT_NORMAL (some [97]), .leaveSpan .MD_SPAN_CODE (),
          .leaveBlock .MD_BLOCK_P ()]).map
        (fun r => r.1.nodes.map (fun n => (n.type, n.content, n.alt))) =
      some [(.Document, none, none), (.Paragraph, none, none), (.Italic, some [97], none)] := by
  exact ⟨rfl, rfl⟩

/-- C15, as stated, fails: an html_block that is opened, receives a raw-markup
text callback and is closed has no content attribute; the bytes are the
content of an html_inline child. -/
theorem html_block_content_counterexample :
    (MD4CParser.parse {}
        [.enterBlock .MD_BLOCK_HTML (), .text .MD_TEXT_HTML (some [60, 112, 62]),
          .leaveBlock .MD_BLOCK_HTML ()]).map
      (fun r => r.1.nodes.map (fun n => (n.type, n.content))) =
    some [(.Document, none), (.HtmlBlock, none), (.HtmlInline, some [60, 112, 62])] := by
  rfl

/-- C15, amended: for every event sequence, every node of kind text or
html_inline of the resulting tree has its content attribute present. -/
theorem text_and_html_inline_have_content (impl : Impl) (events : List Event) :
    ∃ root final, MD4CParser.parse impl events = some (root, final) ∧
      ∀ n ∈ root.nodes,
        n.type = .Text ∨ n.type = .HtmlInline → ∃ c, n.content = some c := by
  have hP : Maintained
      (fun n : MarkdownNode =>
        n.type = .Text ∨ n.type = .HtmlInline → ∃ c, n.content = some c) :=
    { addChild := fun _ _ hn => hn
      content := fun _ b _ _ => ⟨b, rfl⟩
      alt := fun _ _ hn => hn
      text := fun b _ => ⟨b, rfl⟩
      html := fun b _ => ⟨b, rfl⟩
      container := fun _ _ h2 h3 _ _ hk => by
        rcases hk with hk | hk
        · exact absurd hk h2
        · exact absurd hk h3 }
  exact allNodes_parse _ hP impl events
    (fun _ _ _ => ⟨fun hk => by simp [MarkdownNode.new] at hk,
      fun hk => by simp [MarkdownNode.new] at hk⟩)

/-- C25: reuse of a builder instance.  For all event sequences e1 and e2 and
every instance state, `parse` of e1 returns and leaves a state on which
`parse` of e2 gives exactly the result it gives on a newly constructed
instance; the same holds from every instance state whatever, open nodes on
the stack and bytes in the buffer included. -/
theorem parse_reuse (impl other : Impl) (e1 e2 : List Event) :
    ∃ root1 left1,
      MD4CParser.parse impl e1 = some (root1, left1) ∧
      MD4CParser.parse left1 e2 = MD4CParser.parse {} e2 ∧
      MD4CParser.parse other e2 = MD4CParser.parse {} e2 := by
  obtain ⟨root1, left1, h1, _, _⟩ := parse_bottomKind impl e1
  exact ⟨root1, left1, h1, rfl, rfl⟩

/-- C26: the enter rule.  On every state whose stack is `top :: rest`, an
enterBlock of a kind other than document and horizontal rule, and every
enterSpan, pushes a new childless node onto the former top, which has first
gained a text child holding the buffered bytes when the buffer was
non-empty and is unchanged otherwise; the buffer becomes empty, the entries
below are unchanged, and in the tree the new node is the last child of the
former top. -/
theorem enter_rule (impl : Impl) (top : MarkdownNode) (rest : List MarkdownNode)
    (block : MD_BLOCKTYPE) (blockDetail : block.Detail)
    (span : MD_SPANTYPE) (spanDetail : span.Detail)
    (hs : impl.nodeStack = top :: rest)
    (hdoc : block ≠ .MD_BLOCK_DOC) (hhr : block ≠ .MD_BLOCK_HR) :
    ∃ flushed : MarkdownNode,
      flushed = (if impl.currentText = [] then top
        else top.addChild ⟨.Text, some impl.currentText, none, none, none, none, none, none,
          none, none, none, none, []⟩) ∧
      (∃ node : MarkdownNode, node.children = [] ∧
        impl.enterBlock block blockDetail =
          some { nodeStack := node :: flushed :: rest, currentText := [] } ∧
        Impl.root { nodeStack := node :: flushed :: rest, currentText := [] } =
          Impl.root { nodeStack := flushed.addChild node :: rest, currentText := [] }) ∧
      (∃ node : MarkdownNode, node.children = [] ∧
        impl.enterSpan span spanDetail =
          { nodeStack := node :: flushed :: rest, currentText := [] } ∧
        Impl.root { nodeStack := node :: flushed :: rest, currentText := [] } =
          Impl.root { nodeStack := flushed.addChild node :: rest, currentText := [] }) := by
  obtain ⟨stack, buffer⟩ := impl
  simp only at hs
  subst hs
  refine ⟨_, rfl, ?_, ?_⟩
  · have hpush : ∀ node : MarkdownNode, node.children = [] →
        ∃ n : MarkdownNode, n.children = [] ∧
          some (Impl.pushNode { nodeStack := top :: rest, currentText := buffer } node) =
            some { nodeStack := n :: (if buffer = [] then top
              else top.addChild ⟨.Text, some buffer, none, none, none, none, none, none, none,
                none, none, none, []⟩) :: rest, currentText := [] } ∧
          Impl.root { nodeStack := n :: (if buffer = [] then top
              else top.addChild ⟨.Text, some buffer, none, none, none, none, none, none, none,
                none, none, none, []⟩) :: rest, currentText := [] } =
            Impl.root { nodeStack := (if buffer = [] then top
              else top.addChild ⟨.Text, some buffer, none, none, none, none, none, none, none,
                none, none, none, []⟩).addChild n :: rest, currentText := [] } := by
      intro node hn
      refine ⟨node, hn, ?_, rfl⟩
      simp only [Impl.pushNode, flushText_stack]
    cases block <;> simp only [Impl.enterBlock]
    case MD_BLOCK_DOC => exact absurd rfl hdoc
    case MD_BLOCK_HR => exact absurd rfl hhr
    case MD_BLOCK_LI =>
      split
      · exact hpush _ rfl
      · exact hpush _ rfl
    all_goals exact hpush _ rfl
  · have hpush : ∀ node : MarkdownNode, node.children = [] →
        ∃ n : MarkdownNode, n.children = [] ∧
          Impl.pushNode { nodeStack := top :: rest, currentText := buffer } node =
            { nodeStack := n :: (if buffer = [] then top
              else top.addChild ⟨.Text, some buffer, none, none, none, none, none, none, none,
                none, none, none, []⟩) :: rest, currentText := [] } ∧
          Impl.root { nodeStack := n :: (if buffer = [] then top
              else top.addChild ⟨.Text, some buffer, none, none, none, none, none, none, none,
                none, none, none, []⟩) :: rest, currentText := [] } =
            Impl.root { nodeStack := (if buffer = [] then top
              else top.addChild ⟨.Text, some buffer, none, none, none, none, none, none, none,
                none, none, none, []⟩).addChild n :: rest, currentText := [] } := by
      intro node hn
      refine ⟨node, hn, ?_, rfl⟩
      simp only [Impl.pushNode, flushText_stack]
    cases span <;> simp only [Impl.enterSpan] <;> exact hpush _ rfl

/-- The witness of C26: a paragraph under the document with two bytes
pending, entered by a block quote and by an emphasis span. -/
theorem enter_rule_witness :
    ∃ flushed : MarkdownNode,
      flushed =
        (if (⟨[MarkdownNode.new .Paragraph, MarkdownNode.new .Document], [97, 98]⟩ :
            Impl).currentText = [] then MarkdownNode.new .Paragraph
        else (MarkdownNode.new .Paragraph).addChild
          ⟨.Text,
            some (⟨[MarkdownNode.new .Paragraph, MarkdownNode.new .Document], [97, 98]⟩ :
              Impl).currentText,
            none, none, none, none, none, none, none, none, none, none, []⟩) ∧
      (∃ node : MarkdownNode, node.children = [] ∧
        Impl.enterBlock .MD_BLOCK_QUOTE ()
            ⟨[MarkdownNode.new .Paragraph, MarkdownNode.new .Document], [97, 98]⟩ =
          some { nodeStack := node :: flushed :: [MarkdownNode.new .Document],
                 currentText := [] } ∧
        Impl.root { nodeStack := node :: flushed :: [MarkdownNode.new .Document],
                    currentText := [] } =
          Impl.root { nodeStack := flushed.addChild node :: [MarkdownNode.new .Document],
                      currentText := [] }) ∧
      (∃ node : MarkdownNode, node.children = [] ∧
        Impl.enterSpan .MD_SPAN_EM ()
            ⟨[MarkdownNode.new .Paragraph, MarkdownNode.new .Document], [97, 98]⟩ =
          { nodeStack := node :: flushed :: [MarkdownNode.new .Document],
            currentText := [] } ∧
        Impl.root { nodeStack := node :: flushed :: [MarkdownNode.new .Document],
                    currentText := [] } =
          Impl.root { nodeStack := flushed.addChild node :: [MarkdownNode.new .Document],
                      currentText := [] }) :=
  enter_rule ⟨[MarkdownNode.new .Paragraph, MarkdownNode.new .Document], [97, 98]⟩
    (MarkdownNode.new .Paragraph) [MarkdownNode.new .Document] .MD_BLOCK_QUOTE ()
    .MD_SPAN_EM () rfl (by decide) (by decide)

/-- C27: the leave rule.  On every state whose stack is `top :: parent ::
rest` and whose buffer is non-empty, a leaveBlock of a kind other than
document and horizontal rule, and a leaveSpan of a kind other than
code_inline and image, adds a text node holding the buffered bytes as last
child of `top`, the node being closed, and not of its parent, pops exactly
that node, which is then the last child of `parent`, the new top, and
leaves the buffer empty. -/
theorem leave_rule (impl : Impl) (top parent : MarkdownNode) (rest : List MarkdownNode)
    (block : MD_BLOCKTYPE) (blockDetail : block.Detail)
    (span : MD_SPANTYPE) (spanDetail : span.Detail)
    (hs : impl.nodeStack = top :: parent :: rest) (hb : impl.currentText ≠ [])
    (hdoc : block ≠ .MD_BLOCK_DOC) (hhr : block ≠ .MD_BLOCK_HR)
    (hcode : span ≠ .MD_SPAN_CODE) (himg : span ≠ .MD_SPAN_IMG) :
    impl.leaveBlock block blockDetail =
        { nodeStack :=
            parent.addChild
              (top.addChild ⟨.Text, some impl.currentText, none, none, none, none, none, none,
                none, none, none, none, []⟩) :: rest,
          currentText := [] } ∧
      impl.leaveSpan span spanDetail =
        { nodeStack :=
            parent.addChild
              (top.addChild ⟨.Text, some impl.currentText, none, none, none, none, none, none,
                none, none, none, none, []⟩) :: rest,
          currentText := [] } := by
  obtain ⟨stack, buffer⟩ := impl
  simp only at hs hb
  subst hs
  have hpop : Impl.popNode { nodeStack := top :: parent :: rest, currentText := buffer } =
      { nodeStack :=
          parent.addChild
            (top.addChild ⟨.Text, some buffer, none, none, none, none, none, none, none, none,
              none, none, []⟩) :: rest,
        currentText := [] } := by
    simp only [Impl.popNode, flushText_stack, if_neg hb]
  constructor
  · cases block <;> simp only [Impl.leaveBlock] <;>
      first
      | exact absurd rfl hdoc
      | exact absurd rfl hhr
      | exact hpop
  · cases span <;>
      first
      | exact absurd rfl hcode
      | exact absurd rfl himg
      | exact hpop

/-- The witness of C27: an emphasis span inside a paragraph with one byte
pending, left by leaveBlock(paragraph) and by leaveSpan(emphasis). -/
theorem leave_rule_witness :
    Impl.leaveBlock .MD_BLOCK_P ()
        ⟨[MarkdownNode.new .Italic, MarkdownNode.new .Paragraph, MarkdownNode.new .Document],
          [97]⟩ =
        { nodeStack :=
            (MarkdownNode.new .Paragraph).addChild
              ((MarkdownNode.new .Italic).addChild
                ⟨.Text,
                  some (⟨[MarkdownNode.new .Italic, MarkdownNode.new .Paragraph,
                    MarkdownNode.new .Document], [97]⟩ : Impl).currentText,
                  none, none, none, none, none, none, none, none, none, none, []⟩) ::
              [MarkdownNode.new .Document],
          currentText := [] } ∧
      Impl.leaveSpan .MD_SPAN_EM ()
        ⟨[MarkdownNode.new .Italic, MarkdownNode.new .Paragraph, MarkdownNode.new .Document],
          [97]⟩ =
        { nodeStack :=
            (MarkdownNode.new .Paragraph).addChild
              ((MarkdownNode.new .Italic).addChild
                ⟨.Text,
                  some (⟨[MarkdownNode.new .Italic, MarkdownNode.new .Paragraph,
                    MarkdownNode.new .Document], [97]⟩ : Impl).currentText,
                  none, none, none, none, none, none, none, none, none, none, []⟩) ::
              [MarkdownNode.new .Document],
          currentText := [] } :=
  leave_rule
    ⟨[MarkdownNode.new .Italic, MarkdownNode.new .Paragraph, MarkdownNode.new .Document], [97]⟩
    (MarkdownNode.new .Italic) (MarkdownNode.new .Paragraph) [MarkdownNode.new .Document]
    .MD_BLOCK_P () .MD_SPAN_EM () rfl (by decide) (by decide) (by decide) (by decide)
    (by decide)

/-- C28, as stated, fails: a hard-break callback that carries no byte does
nothing.  The buffer is not flushed and no line_break node is added: text,
an empty hard break and text give one text child. -/
theorem empty_break_counterexample :
    (MD4CParser.parse {}
        [.text .MD_TEXT_NORMAL (some [97]), .text .MD_TEXT_BR (some []),
          .text .MD_TEXT_NORMAL (some [98])]).map
      (fun r => r.1.children.map (fun n => (n.type, n.content))) =
    some [(.Text, some [97, 98])] := by
  rfl

/-- C28, amended: on every state whose stack is `top :: rest`, a text
callback of hard-break or soft-break category that carries at least one
byte first flushes the buffer into a text child of the top, when the buffer
is non-empty, and then adds one line_break, respectively soft_break, node
without attributes and children as next child of the same top; the entries
below are unchanged and the buffer is left empty.  So, on an empty buffer,
text a, such a break and text b, with a and b not empty, give after the
flush the children text a, break node, text b in that order, for a hard
break and for a soft break.  A break callback with a null pointer or with
size 0 changes nothing, whatever the state. -/
theorem break_rule (impl : Impl) (top : MarkdownNode) (rest : List MarkdownNode)
    (bytes a b : ByteString) (hs : impl.nodeStack = top :: rest) (hn : bytes ≠ [])
    (ha : a ≠ []) (hb : b ≠ []) :
    impl.text .MD_TEXT_BR (some bytes) =
        some
          { nodeStack :=
              (if impl.currentText = [] then top
                else top.addChild ⟨.Text, some impl.currentText, none, none, none, none, none,
                  none, none, none, none, none, []⟩).addChild
                ⟨.LineBreak, none, none, none, none, none, none, none, none, none, none, none,
                  []⟩ :: rest,
            currentText := [] } ∧
      impl.text .MD_TEXT_SOFTBR (some bytes) =
        some
          { nodeStack :=
              (if impl.currentText = [] then top
                else top.addChild ⟨.Text, some impl.currentText, none, none, none, none, none,
                  none, none, none, none, none, []⟩).addChild
                ⟨.SoftBreak, none, none, none, none, none, none, none, none, none, none, none,
                  []⟩ :: rest,
            currentText := [] } ∧
      (md_parse [.text .MD_TEXT_NORMAL (some a), .text .MD_TEXT_BR (some bytes),
          .text .MD_TEXT_NORMAL (some b)]
          { nodeStack := top :: rest, currentText := [] }).map Impl.flushText =
        some
          { nodeStack :=
              { top with
                children := top.children ++
                  [⟨.Text, some a, none, none, none, none, none, none, none, none, none, none,
                    []⟩,
                   ⟨.LineBreak, none, none, none, none, none, none, none, none, none, none,
                    none, []⟩,
                   ⟨.Text, some b, none, none, none, none, none, none, none, none, none, none,
                    []⟩] } :: rest,
            currentText := [] } ∧
      (md_parse [.text .MD_TEXT_NORMAL (some a), .text .MD_TEXT_SOFTBR (some bytes),
          .text .MD_TEXT_NORMAL (some b)]
          { nodeStack := top :: rest, currentText := [] }).map Impl.flushText =
        some
          { nodeStack :=
              { top with
                children := top.children ++
                  [⟨.Text, some a, none, none, none, none, none, none, none, none, none, none,
                    []⟩,
                   ⟨.SoftBreak, none, none, none, none, none, none, none, none, none, none,
                    none, []⟩,
                   ⟨.Text, some b, none, none, none, none, none, none, none, none, none, none,
                    []⟩] } :: rest,
            currentText := [] } ∧
      (∀ state : Impl,
        state.text .MD_TEXT_BR none = some state ∧
        state.text .MD_TEXT_BR (some []) = some state ∧
        state.text .MD_TEXT_SOFTBR none = some state ∧
        state.text .MD_TEXT_SOFTBR (some []) = some state) := by
  obtain ⟨stack, buffer⟩ := impl
  simp only at hs
  subst hs
  have hlen : ¬bytes.length = 0 := fun h => hn (List.length_eq_zero.mp h)
  have hla : ¬a.length = 0 := fun h => ha (List.length_eq_zero.mp h)
  have hlb : ¬b.length = 0 := fun h => hb (List.length_eq_zero.mp h)
  refine ⟨?_, ?_, ?_, ?_, fun state => ⟨rfl, rfl, rfl, rfl⟩⟩
  · simp only [Impl.text, if_neg hlen, flushText_stack]
    rfl
  · simp only [Impl.text, if_neg hlen, flushText_stack]
    rfl
  · simp only [md_parse, Impl.handle, Impl.text, if_neg hlen, if_neg hla, if_neg hlb,
      List.nil_append, flushText_stack, if_neg ha, Impl.topAddChild, Option.map_some',
      if_neg hb, MarkdownNode.addChild, List.append_assoc, List.singleton_append]
    rfl
  · simp only [md_parse, Impl.handle, Impl.text, if_neg hlen, if_neg hla, if_neg hlb,
      List.nil_append, flushText_stack, if_neg ha, Impl.topAddChild, Option.map_some',
      if_neg hb, MarkdownNode.addChild, List.append_assoc, List.singleton_append]
    rfl

/-- The witness of C28 amended: a paragraph under the document with one byte
pending. -/
theorem break_rule_witness :
    Impl.text .MD_TEXT_BR (some [10])
        ⟨[MarkdownNode.new .Paragraph, MarkdownNode.new .Document], [97]⟩ =
        some
          { nodeStack :=
              (if (⟨[MarkdownNode.new .Paragraph, MarkdownNode.new .Document], [97]⟩ :
                  Impl).currentText = [] then MarkdownNode.new .Paragraph
                else (MarkdownNode.new .Paragraph).addChild
                  ⟨.Text,
                    some (⟨[MarkdownNode.new .Paragraph, MarkdownNode.new .Document], [97]⟩ :
                      Impl).currentText,
                    none, none, none, none, none, none, none, none, none, none, []⟩).addChild
                ⟨.LineBreak, none, none, none, none, none, none, none, none, none, none, none,
                  []⟩ :: [MarkdownNode.new .Document],
            currentText := [] } ∧
      Impl.text .MD_TEXT_SOFTBR (some [10])
        ⟨[MarkdownNode.new .Paragraph, MarkdownNode.new .Document], [97]⟩ =
        some
          { nodeStack :=
              (if (⟨[MarkdownNode.new .Paragraph, MarkdownNode.new .Document], [97]⟩ :
                  Impl).currentText = [] then MarkdownNode.new .Paragraph
                else (MarkdownNode.new .Paragraph).addChild
                  ⟨.Text,
                    some (⟨[MarkdownNode.new .Paragraph, MarkdownNode.new .Document], [97]⟩ :
                      Impl).currentText,
                    none, none, none, none, none, none, none, none, none, none, []⟩).addChild
                ⟨.SoftBreak, none, none, none, none, none, none, none, none, none, none, none,
                  []⟩ :: [MarkdownNode.new .Document],
            currentText := [] } ∧
      (md_parse [.text .MD_TEXT_NORMAL (some [97]), .text .MD_TEXT_BR (some [10]),
          .text .MD_TEXT_NORMAL (some [98])]
          { nodeStack := MarkdownNode.new .Paragraph :: [MarkdownNode.new .Document],
            currentText := [] }).map Impl.flushText =
        some
          { nodeStack :=
              { MarkdownNode.new .Paragraph with
                children := (MarkdownNode.new .Paragraph).children ++
                  [⟨.Text, some [97], none, none, none, none, none, none, none, none, none,
                    none, []⟩,
                   ⟨.LineBreak, none, none, none, none, none, none, none, none, none, none,
                    none, []⟩,
                   ⟨.Text, some [98], none, none, none, none, none, none, none, none, none,
                    none, []⟩] } :: [MarkdownNode.new .Document],
            currentText := [] } ∧
      (md_parse [.text .MD_TEXT_NORMAL (some [97]), .text .MD_TEXT_SOFTBR (some [10]),
          .text .MD_TEXT_NORMAL (some [98])]
          { nodeStack := MarkdownNode.new .Paragraph :: [MarkdownNode.new .Document],
            currentText := [] }).map Impl.flushText =
        some
          { nodeStack :=
              { MarkdownNode.new .Paragraph with
                children := (MarkdownNode.new .Paragraph).children ++
                  [⟨.Text, some [97], none, none, none, none, none, none, none, none, none,
                    none, []⟩,
                   ⟨.SoftBreak, none, none, none, none, none, none, none, none, none, none,
                    none, []⟩,
                   ⟨.Text, some [98], none, none, none, none, none, none, none, none, none,
                    none, []⟩] } :: [MarkdownNode.new .Document],
            currentText := [] } ∧
      (∀ state : Impl,
        state.text .MD_TEXT_BR none = some state ∧
        state.text .MD_TEXT_BR (some []) = some state ∧
        state.text .MD_TEXT_SOFTBR none = some state ∧
        state.text .MD_TEXT_SOFTBR (some []) = some state) :=
  break_rule ⟨[MarkdownNode.new .Paragraph, MarkdownNode.new .Document], [97]⟩
    (MarkdownNode.new .Paragraph) [MarkdownNode.new .Document] [10] [97] [98] rfl
    (by decide) (by decide) (by decide)

/-- C29: a horizontal rule is a leaf.  On every state whose stack is `top ::
rest`, enterBlock(horizontal rule) flushes the buffer into a text child of
the top, when the buffer is non-empty, and adds one horizontal_rule node
without attributes and children as next child of that top, without pushing
it; leaveBlock(horizontal rule) changes no state; after the pair the stack
holds the same entries as before, the top with its new children. -/
theorem horizontal_rule_is_leaf (impl : Impl) (top : MarkdownNode)
    (rest : List MarkdownNode) (hs : impl.nodeStack = top :: rest) :
    impl.enterBlock .MD_BLOCK_HR () =
        some
          { nodeStack :=
              (if impl.currentText = [] then top
                else top.addChild ⟨.Text, some impl.currentText, none, none, none, none, none,
                  none, none, none, none, none, []⟩).addChild
                ⟨.HorizontalRule, none, none, none, none, none, none, none, none, none, none,
                  none, []⟩ :: rest,
            currentText := [] } ∧
      (∀ state : Impl, state.leaveBlock .MD_BLOCK_HR () = state) ∧
      md_parse [.enterBlock .MD_BLOCK_HR (), .leaveBlock .MD_BLOCK_HR ()] impl =
        some
          { nodeStack :=
              (if impl.currentText = [] then top
                else top.addChild ⟨.Text, some impl.currentText, none, none, none, none, none,
                  none, none, none, none, none, []⟩).addChild
                ⟨.HorizontalRule, none, none, none, none, none, none, none, none, none, none,
                  none, []⟩ :: rest,
            currentText := [] } := by
  obtain ⟨stack, buffer⟩ := impl
  simp only at hs
  subst hs
  have henter : Impl.enterBlock .MD_BLOCK_HR ()
      { nodeStack := top :: rest, currentText := buffer } =
      some
        { nodeStack :=
            (if buffer = [] then top
              else top.addChild ⟨.Text, some buffer, none, none, none, none, none, none, none,
                none, none, none, []⟩).addChild
              ⟨.HorizontalRule, none, none, none, none, none, none, none, none, none, none,
                none, []⟩ :: rest,
          currentText := [] } := by
    simp only [Impl.enterBlock, flushText_stack]
    rfl
  refine ⟨henter, fun _ => rfl, ?_⟩
  simp only [md_parse, Impl.handle, henter, Impl.leaveBlock]

/-- The witness of C29: a document with one byte pending. -/
theorem horizontal_rule_is_leaf_witness :
    Impl.enterBlock .MD_BLOCK_HR () ⟨[MarkdownNode.new .Document], [97]⟩ =
        some
          { nodeStack :=
              (if (⟨[MarkdownNode.new .Document], [97]⟩ : Impl).currentText = [] then
                  MarkdownNode.new .Document
                else (MarkdownNode.new .Document).addChild
                  ⟨.Text, some (⟨[MarkdownNode.new .Document], [97]⟩ : Impl).currentText,
                    none, none, none, none, none, none, none, none, none, none, []⟩).addChild
                ⟨.HorizontalRule, none, none, none, none, none, none, none, none, none, none,
                  none, []⟩ :: [],
            currentText := [] } ∧
      (∀ state : Impl, state.leaveBlock .MD_BLOCK_HR () = state) ∧
      md_parse [.enterBlock .MD_BLOCK_HR (), .leaveBlock .MD_BLOCK_HR ()]
          ⟨[MarkdownNode.new .Document], [97]⟩ =
        some
          { nodeStack :=
              (if (⟨[MarkdownNode.new .Document], [97]⟩ : Impl).currentText = [] then
                  MarkdownNode.new .Document
                else (MarkdownNode.new .Document).addChild
                  ⟨.Text, some (⟨[MarkdownNode.new .Document], [97]⟩ : Impl).currentText,
                    none, none, none, none, none, none, none, none, none, none, []⟩).addChild
                ⟨.HorizontalRule, none, none, none, none, none, none, none, none, none, none,
                  none, []⟩ :: [],
            currentText := [] } :=
  horizontal_rule_is_leaf ⟨[MarkdownNode.new .Document], [97]⟩ (MarkdownNode.new .Document) []
    rfl

/-- C30: the stack invariant.  `reset` leaves a stack that holds exactly the
document root, and after every event of every event sequence run from there
no callback has met an undefined `top()`, the stack is non-empty and its
bottom entry is a document node. -/
theorem stack_invariant (impl : Impl) (events : List Event) (k : Nat) :
    impl.reset.nodeStack.map MarkdownNode.type = [.Document] ∧
      ∃ state, md_parse (events.take k) impl.reset = some state ∧
        state.nodeStack ≠ [] ∧
        state.nodeStack.getLast?.map MarkdownNode.type = some .Document := by
  refine ⟨rfl, ?_⟩
  obtain ⟨state, hrun, hk⟩ :=
    md_parse_bottomKind (events.take k) impl.reset NodeType.Document rfl
  exact ⟨state, hrun, bottomKind_ne_nil hk, by rw [← bottomKind_eq_getLast]; exact hk⟩

/-- C31: no text is lost or reordered.  For every event sequence without
span callbacks of code_inline and image and without text callbacks of raw
inline markup, stray leave callbacks and truncated sequences included,
`parse` returns a tree, and the content of its text nodes, concatenated in
depth-first pre-order, is the concatenation in arrival order of the bytes
that the callbacks contribute to the buffer: the bytes of a callback of
plain, entity, code or math category, one zero byte for a null-character
callback, nothing for a callback that carries no byte. -/
theorem no_text_lost (impl : Impl) (events : List Event)
    (h : ∀ e ∈ events, e.keepsText = true) :
    ∃ root left, MD4CParser.parse impl events = some (root, left) ∧
      root.texts = (events.map Event.contributed).flatten := by
  obtain ⟨done, hd, hne, hh⟩ :=
    heldText_md_parse events impl.reset (List.cons_ne_nil _ _) h
  obtain ⟨top, rest, hf⟩ := flushText_eq done hne
  refine ⟨attachOpen top rest, done.flushText, ?_, ?_⟩
  · simp only [MD4CParser.parse, hd, Impl.root, hf]
  · have ht := heldText_flushText done
    rw [hf, hh] at ht
    rw [texts_attachOpen]
    simpa [Impl.heldText, Impl.reset, stackTexts, texts_leaf] using ht

/-- The witness of C31: a paragraph that is never closed, with plain text,
an emphasis span holding an entity, a hard break, a null character, a stray
leaveBlock and a last plain text. -/
theorem no_text_lost_witness :
    (∀ e ∈ [Event.enterBlock .MD_BLOCK_P (), .text .MD_TEXT_NORMAL (some [97]),
        .enterSpan .MD_SPAN_EM (), .text .MD_TEXT_ENTITY (some [38, 59]),
        .leaveSpan .MD_SPAN_EM (), .text .MD_TEXT_BR (some [10]),
        .text .MD_TEXT_NULLCHAR (some [0]), .leaveBlock .MD_BLOCK_QUOTE (),
        .leaveBlock .MD_BLOCK_QUOTE (), .enterBlock .MD_BLOCK_P (),
        .text .MD_TEXT_NORMAL (some [98])], e.keepsText = true) ∧
      ∃ root left,
        MD4CParser.parse {}
          [Event.enterBlock .MD_BLOCK_P (), .text .MD_TEXT_NORMAL (some [97]),
            .enterSpan .MD_SPAN_EM (), .text .MD_TEXT_ENTITY (some [38, 59]),
            .leaveSpan .MD_SPAN_EM (), .text .MD_TEXT_BR (some [10]),
            .text .MD_TEXT_NULLCHAR (some [0]), .leaveBlock .MD_BLOCK_QUOTE (),
            .leaveBlock .MD_BLOCK_QUOTE (), .enterBlock .MD_BLOCK_P (),
            .text .MD_TEXT_NORMAL (some [98])] = some (root, left) ∧
        root.texts =
          ([Event.enterBlock .MD_BLOCK_P (), .text .MD_TEXT_NORMAL (some [97]),
            .enterSpan .MD_SPAN_EM (), .text .MD_TEXT_ENTITY (some [38, 59]),
            .leaveSpan .MD_SPAN_EM (), .text .MD_TEXT_BR (some [10]),
            .text .MD_TEXT_NULLCHAR (some [0]), .leaveBlock .MD_BLOCK_QUOTE (),
            .leaveBlock .MD_BLOCK_QUOTE (), .enterBlock .MD_BLOCK_P (),
            .text .MD_TEXT_NORMAL (some [98])].map Event.contributed).flatten :=
  ⟨by decide,
    no_text_lost {}
      [Event.enterBlock .MD_BLOCK_P (), .text .MD_TEXT_NORMAL (some [97]),
        .enterSpan .MD_SPAN_EM (), .text .MD_TEXT_ENTITY (some [38, 59]),
        .leaveSpan .MD_SPAN_EM (), .text .MD_TEXT_BR (some [10]),
        .text .MD_TEXT_NULLCHAR (some [0]), .leaveBlock .MD_BLOCK_QUOTE (),
        .leaveBlock .MD_BLOCK_QUOTE (), .enterBlock .MD_BLOCK_P (),
        .text .MD_TEXT_NORMAL (some [98])] (by decide)⟩

/-- C32: the builder inverts linearisation.  For every document node
without attributes whose descendants are attribute-free containers of the
kinds paragraph, blockquote, bold, strikethrough, table, table_head,
table_body, table_row, html_block, math_inline and math_block and text nodes
with content that is not empty, no two adjacent siblings being text nodes,
`parse` of the linearisation of the tree returns the tree itself, with the
callbacks of the document around the linearised children and without them;
the instance is left holding the tree and an empty buffer. -/
theorem parse_linearise (impl : Impl) (tree : MarkdownNode)
    (h : tree.linearisableDocument = true) :
    MD4CParser.parse impl (linearise tree) =
        some (tree, { nodeStack := [tree], currentText := [] }) ∧
      MD4CParser.parse impl (lineariseList tree.children) =
        some (tree, { nodeStack := [tree], currentText := [] }) := by
  obtain ⟨type, content, level, href, title, alt, language, ordered, start, checked,
    isHeader, align, children⟩ := tree
  simp only [MarkdownNode.linearisableDocument, MarkdownNode.attributeFree, Bool.and_eq_true,
    beq_iff_eq, Option.isNone_iff_eq_none] at h
  obtain ⟨⟨⟨⟨hty, hct⟩, ⟨⟨⟨⟨⟨⟨⟨⟨⟨h1, h2⟩, h3⟩, h4⟩, h5⟩, h6⟩, h7⟩, h8⟩, h9⟩, h10⟩⟩, hadj⟩,
    hkids⟩ := h
  subst hty hct h1 h2 h3 h4 h5 h6 h7 h8 h9 h10
  obtain ⟨done, hrun, hdone⟩ := buildsList_all children hkids hadj impl.reset
    (List.cons_ne_nil _ _) (fun _ => rfl)
  have hflush : done.flushText =
      { nodeStack := [⟨.Document, none, none, none, none, none, none, none, none, none, none,
          none, children⟩], currentText := [] } := by
    rw [hdone]
    rfl
  have hl : linearise ⟨.Document, none, none, none, none, none, none, none, none, none, none,
      none, children⟩ =
      Event.enterBlock .MD_BLOCK_DOC () :: lineariseList children ++
        [Event.leaveBlock .MD_BLOCK_DOC ()] := by
    simp [linearise, containerEvents]
  constructor
  · have hparse : md_parse (Event.enterBlock .MD_BLOCK_DOC () :: lineariseList children ++
        [Event.leaveBlock .MD_BLOCK_DOC ()]) impl.reset = some done := by
      rw [List.cons_append,
        md_parse_cons (Event.enterBlock .MD_BLOCK_DOC ()) _ impl.reset impl.reset rfl,
        md_parse_append, hrun]
      rfl
    simp only [MD4CParser.parse, hl, hparse, hflush, Impl.root, attachOpen]
  · simp only [MD4CParser.parse, hrun, hflush, Impl.root, attachOpen]

/-- The witness of C32: the document of `witnessDocument`. -/
theorem parse_linearise_witness :
    witnessDocument.linearisableDocument = true ∧
      MD4CParser.parse {} (linearise witnessDocument) =
        some (witnessDocument, { nodeStack := [witnessDocument], currentText := [] }) ∧
      MD4CParser.parse {} (lineariseList witnessDocument.children) =
        some (witnessDocument, { nodeStack := [witnessDocument], currentText := [] }) :=
  ⟨by decide, parse_linearise {} witnessDocument (by decide)⟩

/-! ## Properties of the serializer -/

/-- C16: for every node, the output of `nodeToJson` is the opening brace, the
member `type`, the members `jsonFields` each behind a comma, and the closing
brace; the keys of those members form a subsequence of content, level, href,
title, alt, language, ordered, start, checked, isHeader, align, children.  So
`type` comes first and is always there, the other keys come in that fixed
order, and no key comes twice. -/
theorem nodeToJson_key_order (n : MarkdownNode) :
    nodeToJson n =
        ascii "\x7b\"type\":\"" ++ nodeTypeToString n.type ++ ascii "\"" ++
          ((jsonFields n).map renderField).flatten ++ ascii "\x7d" ∧
      ((jsonFields n).map Prod.fst).Sublist
        ["content", "level", "href", "title", "alt", "language", "ordered", "start",
          "checked", "isHeader", "align", "children"] ∧
      ((jsonFields n).map Prod.fst).Nodup ∧
      "type" ∉ (jsonFields n).map Prod.fst := by
  have hs := jsonFields_keys_sublist n
  refine ⟨nodeToJson_fields n, hs, hs.nodup (by decide), ?_⟩
  intro hmem
  exact absurd (hs.subset hmem) (by decide)

/-- C17: for every node, with the output of `nodeToJson` split into the
member `type` and the members `jsonFields`, the key of each attribute among
content, level, href, title, alt, language, ordered, start, checked, isHeader
is among the emitted keys exactly when the attribute is present, and the key
children exactly when the node has a child; a node with no attribute and no
child serialises to the single member `type` between braces. -/
theorem nodeToJson_emits_present_attributes (n : MarkdownNode) (t : NodeType) :
    nodeToJson n =
        ascii "\x7b\"type\":\"" ++ nodeTypeToString n.type ++ ascii "\"" ++
          ((jsonFields n).map renderField).flatten ++ ascii "\x7d" ∧
      ("content" ∈ (jsonFields n).map Prod.fst ↔ n.content ≠ none) ∧
      ("level" ∈ (jsonFields n).map Prod.fst ↔ n.level ≠ none) ∧
      ("href" ∈ (jsonFields n).map Prod.fst ↔ n.href ≠ none) ∧
      ("title" ∈ (jsonFields n).map Prod.fst ↔ n.title ≠ none) ∧
      ("alt" ∈ (jsonFields n).map Prod.fst ↔ n.alt ≠ none) ∧
      ("language" ∈ (jsonFields n).map Prod.fst ↔ n.language ≠ none) ∧
      ("ordered" ∈ (jsonFields n).map Prod.fst ↔ n.ordered ≠ none) ∧
      ("start" ∈ (jsonFields n).map Prod.fst ↔ n.start ≠ none) ∧
      ("checked" ∈ (jsonFields n).map Prod.fst ↔ n.checked ≠ none) ∧
      ("isHeader" ∈ (jsonFields n).map Prod.fst ↔ n.isHeader ≠ none) ∧
      ("children" ∈ (jsonFields n).map Prod.fst ↔ n.children ≠ []) ∧
      nodeToJson ⟨t, none, none, none, none, none, none, none, none, none, none, none, []⟩ =
        ascii "\x7b\"type\":\"" ++ nodeTypeToString t ++ ascii "\"\x7d" := by
  refine ⟨nodeToJson_fields n, ?_, ?_, ?_, ?_, ?_, ?_, ?_, ?_, ?_, ?_, ?_, ?_⟩
  · rw [mem_jsonFields_keys]; simp
  · rw [mem_jsonFields_keys]; simp
  · rw [mem_jsonFields_keys]; simp
  · rw [mem_jsonFields_keys]; simp
  · rw [mem_jsonFields_keys]; simp
  · rw [mem_jsonFields_keys]; simp
  · rw [mem_jsonFields_keys]; simp
  · rw [mem_jsonFields_keys]; simp
  · rw [mem_jsonFields_keys]; simp
  · rw [mem_jsonFields_keys]; simp
  · rw [mem_jsonFields_keys]; simp
  · rw [nodeToJson_fields]
    have hb : ascii "\"\x7d" = ascii "\"" ++ ascii "\x7d" := by rfl
    simp [jsonFields, hb]

/-- C18: for every node with at least one child, the output of `nodeToJson`
is the output for the same node without its children, minus the closing
brace, followed by the member children: a comma, the key, an opening bracket,
the outputs of `nodeToJson` for the children in tree order with one comma
between neighbours and none after the last, a closing bracket; then the
closing brace. -/
theorem nodeToJson_children_last (n : MarkdownNode) (h : n.children ≠ []) :
    ∃ own,
      nodeToJson { n with children := [] } = own ++ ascii "\x7d" ∧
      nodeToJson n =
        own ++ ascii ",\"children\":[" ++
          (ascii ",").intercalate (n.children.map nodeToJson) ++ ascii "]\x7d" := by
  obtain ⟨type, content, level, href, title, alt, language, ordered, start, checked,
    isHeader, align, children⟩ := n
  simp only at h
  cases children with
  | nil => exact absurd rfl h
  | cons c cs =>
      refine ⟨ascii "\x7b\"type\":\"" ++ nodeTypeToString type ++ ascii "\"" ++
        ((jsonFields ⟨type, content, level, href, title, alt, language, ordered, start,
          checked, isHeader, align, []⟩).map renderField).flatten, ?_, ?_⟩
      · exact nodeToJson_fields _
      · rw [nodeToJson_fields]
        have hk : ascii ",\"children\":[" = ascii ",\"" ++ ascii "children" ++ ascii "\":" ++
            ascii "[" := by rfl
        have hb : ascii "]\x7d" = ascii "]" ++ ascii "\x7d" := by rfl
        simp only [jsonFields, List.isEmpty_cons, List.isEmpty_nil, Bool.false_eq_true,
          if_false, if_true, List.map_append, List.flatten_append, List.map_cons, List.map_nil,
          List.flatten_cons, List.flatten_nil, renderField, hk, hb, List.append_assoc,
          List.append_nil]

/-- The witness of C18: a paragraph with a text child and a line break
child. -/
theorem nodeToJson_children_last_witness :
    ∃ own,
      nodeToJson
          { (⟨.Paragraph, none, none, none, none, none, none, none, none, none, none, none,
              [MarkdownNode.new .Text, MarkdownNode.new .LineBreak]⟩ : MarkdownNode) with
            children := [] } = own ++ ascii "\x7d" ∧
      nodeToJson ⟨.Paragraph, none, none, none, none, none, none, none, none, none, none, none,
          [MarkdownNode.new .Text, MarkdownNode.new .LineBreak]⟩ =
        own ++ ascii ",\"children\":[" ++
          (ascii ",").intercalate
            ((⟨.Paragraph, none, none, none, none, none, none, none, none, none, none, none,
              [MarkdownNode.new .Text, MarkdownNode.new .LineBreak]⟩ :
                MarkdownNode).children.map nodeToJson) ++ ascii "]\x7d" :=
  nodeToJson_children_last _ (List.cons_ne_nil _ _)

/-- C19: for every node, with the output of `nodeToJson` split into the
member `type` and the members `jsonFields`, an align attribute left, center
or right gives the member align with the value "left", "center" or "right",
and an align attribute that is absent or the default state gives no member
align. -/
theorem nodeToJson_align (n : MarkdownNode) :
    nodeToJson n =
        ascii "\x7b\"type\":\"" ++ nodeTypeToString n.type ++ ascii "\"" ++
          ((jsonFields n).map renderField).flatten ++ ascii "\x7d" ∧
      (n.align = some .Left → ("align", ascii "\"left\"") ∈ jsonFields n) ∧
      (n.align = some .Center → ("align", ascii "\"center\"") ∈ jsonFields n) ∧
      (n.align = some .Right → ("align", ascii "\"right\"") ∈ jsonFields n) ∧
      (n.align = none ∨ n.align = some .Default → "align" ∉ (jsonFields n).map Prod.fst) := by
  refine ⟨nodeToJson_fields n, ?_, ?_, ?_, ?_⟩
  · intro h
    have hv : ascii "\"left\"" = ascii "\"" ++ ascii "left" ++ ascii "\"" := by rfl
    simp [jsonFields, h, alignName, hv]
  · intro h
    have hv : ascii "\"center\"" = ascii "\"" ++ ascii "center" ++ ascii "\"" := by rfl
    simp [jsonFields, h, alignName, hv]
  · intro h
    have hv : ascii "\"right\"" = ascii "\"" ++ ascii "right" ++ ascii "\"" := by rfl
    simp [jsonFields, h, alignName, hv]
  · intro h
    rw [mem_jsonFields_keys]
    rcases h with h | h <;> simp [h, alignName]

/-- C20: for every byte string, `escapeJson` is the concatenation, byte by
byte in order, of the escape that the spec gives for the byte: backslash and
the character for 0x22 and 0x5C; the short escapes b, f, n, r, t for 0x08,
0x0C, 0x0A, 0x0D, 0x09; the six characters of a u-escape with two lowercase
hex digits for every other byte below 0x20, the zero byte included; the byte
itself for every other byte, 0x7F and the bytes from 0x80 on included. -/
theorem escapeJson_eq_spec (s : ByteString) :
    escapeJson s = (s.map escapeByteSpec).flatten := by
  induction s with
  | nil => rfl
  | cons c rest ih =>
      rw [escapeJson, ih, escapeJsonChar_eq_spec]
      rfl

/-- C21: for every node tree (so for every tree that the builder returns) the
output of `nodeToJson` is a JSON text by the grammar of RFC 8259, and its
top-level value is an object: an opening brace, the members of `jsonMembers`
separated by commas, a closing brace; there is at least one member, every key
is a string literal whose characters decode by the unescaping rules (no raw
double quote and no raw control byte inside), and every value is itself a
JSON value (a string literal, a number, `true` or `false`, or an array of
objects of the same form).  The grammar is read on bytes: a byte from 0x80 on
is an ordinary character of a string literal. -/
theorem nodeToJson_valid_json (n : MarkdownNode) :
    Json (nodeToJson n) ∧
    nodeToJson n = ascii "\x7b" ++
      (ascii ",").intercalate ((jsonMembers n).map renderMember) ++ ascii "\x7d" ∧
    jsonMembers n ≠ [] ∧
    ∀ m ∈ jsonMembers n, JsonString m.1 ∧ Json m.2 := by
  refine ⟨json_nodeToJson n, nodeToJson_members n, List.cons_ne_nil _ _, ?_⟩
  exact jsonMembers_valid n fun c _ => json_nodeToJson c

/-- C22: the round trip of string escaping.  For every byte string s,
decoding `escapeJson s` by the unescaping rules of JSON gives s again;
escaping what was decoded gives `escapeJson s` byte for byte; and
`escapeJson` is injective. -/
theorem escapeJson_round_trip (s : ByteString) :
    jsonUnescape (escapeJson s) = some s ∧
      (∀ decoded, jsonUnescape (escapeJson s) = some decoded →
        escapeJson decoded = escapeJson s) ∧
      Function.Injective escapeJson := by
  refine ⟨jsonUnescape_escapeJson s, ?_, ?_⟩
  · intro decoded h
    rw [jsonUnescape_escapeJson] at h
    rw [← Option.some.inj h]
  · intro a b h
    have ha := jsonUnescape_escapeJson a
    rw [h, jsonUnescape_escapeJson] at ha
    exact (Option.some.inj ha).symm

/-- C23: with the tokenizer a fixed function of text and flags, both entry
points return a string, for every text and every instance state.
`parseWithOptions` returns the JSON text of the document tree built from the
callbacks that the tokenizer makes for the text and these flags: no-HTML
always; tables, strikethrough, task lists and permissive autolinks when gfm
is the value true given by the caller or is omitted; LaTeX math spans when
math is the value true given by the caller or is omitted.  `parse` returns
the JSON text of the tree built with all of these flags.  So
`parseWithOptions` with both toggles omitted returns what `parse`
returns. -/
theorem parseWithOptions_defaults (md : Md4c) (parser_ : Impl) (text : ByteString)
    (gfm math : Option Bool) :
    (∃ root left,
      MD4CParser.parse parser_
          (md.tokens text
            ((if gfm.getD true = true then
                md.MD_FLAG_NOHTML ||| md.MD_FLAG_TABLES ||| md.MD_FLAG_STRIKETHROUGH |||
                  md.MD_FLAG_TASKLISTS ||| md.MD_FLAG_PERMISSIVEAUTOLINKS
              else md.MD_FLAG_NOHTML) |||
              (if math.getD true = true then md.MD_FLAG_LATEXMATHSPANS else 0))) =
        some (root, left) ∧
      root.type = .Document ∧
      HybridMarkdownParser.parseWithOptions md parser_ text ⟨gfm, math⟩ =
        some (nodeToJson root, left)) ∧
    (∃ root left,
      MD4CParser.parse parser_
          (md.tokens text
            (md.MD_FLAG_NOHTML ||| md.MD_FLAG_TABLES ||| md.MD_FLAG_STRIKETHROUGH |||
              md.MD_FLAG_TASKLISTS ||| md.MD_FLAG_PERMISSIVEAUTOLINKS |||
              md.MD_FLAG_LATEXMATHSPANS)) =
        some (root, left) ∧
      root.type = .Document ∧
      HybridMarkdownParser.parse md parser_ text = some (nodeToJson root, left)) ∧
    HybridMarkdownParser.parseWithOptions md parser_ text ⟨none, none⟩ =
      HybridMarkdownParser.parse md parser_ text := by
  have hflags : ∀ g m : Bool, MD4CParser.flags md ⟨g, m⟩ =
      (if g = true then
          md.MD_FLAG_NOHTML ||| md.MD_FLAG_TABLES ||| md.MD_FLAG_STRIKETHROUGH |||
            md.MD_FLAG_TASKLISTS ||| md.MD_FLAG_PERMISSIVEAUTOLINKS
        else md.MD_FLAG_NOHTML) |||
        (if m = true then md.MD_FLAG_LATEXMATHSPANS else 0) := by
    intro g m
    cases g <;> cases m <;> simp [MD4CParser.flags]
  refine ⟨?_, ?_, rfl⟩
  · obtain ⟨root, left, hparse, hkind, _⟩ := parse_bottomKind parser_
      (md.tokens text (MD4CParser.flags md ⟨gfm.getD true, math.getD true⟩))
    refine ⟨root, left, ?_, hkind, ?_⟩
    · rw [← hflags]
      exact hparse
    · simp only [HybridMarkdownParser.parseWithOptions, MD4CParser.parseText, hparse]
  · obtain ⟨root, left, hparse, hkind, _⟩ := parse_bottomKind parser_
      (md.tokens text (MD4CParser.flags md ⟨true, true⟩))
    refine ⟨root, left, ?_, hkind, ?_⟩
    · have h := hflags true true
      simp only [if_true] at h
      rw [← h]
      exact hparse
    · simp only [HybridMarkdownParser.parse, MD4CParser.parseText, hparse]

/-- C24: `nodeTypeToString` maps the 27 node kinds, in declaration order, to
the 27 names document, heading, ..., html_inline; every kind is among the
27; the mapping is injective and never gives "unknown". -/
theorem nodeTypeToString_names :
    allNodeTypes.map nodeTypeToString =
        [ascii "document", ascii "heading", ascii "paragraph", ascii "text", ascii "bold",
          ascii "italic", ascii "strikethrough", ascii "link", ascii "image",
          ascii "code_inline", ascii "code_block", ascii "blockquote",
          ascii "horizontal_rule", ascii "line_break", ascii "soft_break", ascii "table",
          ascii "table_head", ascii "table_body", ascii "table_row", ascii "table_cell",
          ascii "list", ascii "list_item", ascii "task_list_item", ascii "math_inline",
          ascii "math_block", ascii "html_block", ascii "html_inline"] ∧
      allNodeTypes.length = 27 ∧
      (∀ t : NodeType, t ∈ allNodeTypes) ∧
      (∀ a b : NodeType, nodeTypeToString a = nodeTypeToString b → a = b) ∧
      (∀ t : NodeType, nodeTypeToString t ≠ ascii "unknown") := by
  have hnodup : (allNodeTypes.map nodeTypeToString).Nodup := by decide
  have hall : ∀ t : NodeType, t ∈ allNodeTypes := by
    intro t
    cases t <;> decide
  refine ⟨rfl, rfl, hall, ?_, ?_⟩
  · intro a b h
    exact List.inj_on_of_nodup_map hnodup (hall a) (hall b) h
  · intro t
    cases t <;> decide

end NitroMarkdown
